import Mathlib

/-!
# Pink noise generator (libs/libmyth/audio/pink.c)

A shallow embedding of `generate_random_number`, `initialize_pink_noise` and
`generate_pink_noise_sample`, followed by the properties proved about them.

Conventions of the embedding

* The constants that `pink.c` takes from the header `pink.h`, together with the
  width of the C type `long`, are collected in the structure `pink_h`; every
  function takes them as a parameter.
* `unsigned long` values are natural numbers reduced modulo `2 ^ LONG_BITS`.
* `int` values are integers; the results of `+`, `-`, `*`, `<<` and `&` on `int`
  are reduced to 32 bits in two's complement (`wrap_signed INT_BITS`).
* Sums of `long` values are exact integers.
* The scale `pink_scalar` and the product `output` are exact rationals.  The
  `float` that a call returns is kept beside it as `returned`: the scale and
  the sum are rounded to `float` (IEEE 754 binary32, round to nearest, ties to
  even, expressions of type `float` evaluated in `float`) and so is their
  product.
* `initialize_pink_noise` is modelled for `num_rows` from 0 to the capacity of
  the array, at most 30; outside that range the C code has undefined behaviour
  (a shift that leaves `int`, stores outside the array).
* The static variable `rand_seed` is threaded through explicitly.
* A call that does not complete (a loop that does not stop, an access outside
  the array of rows) has the result `none`.
-/

namespace Pink

/-! ## Definitions -/

/-- Constants of `pink.h` and of the platform: the number of bits of `long`
(`sizeof(long)*8`), `PINK_RANDOM_BITS` and `PINK_RANDOM_SHIFT`. -/
structure pink_h where
  LONG_BITS : Nat
  PINK_RANDOM_BITS : Nat
  PINK_RANDOM_SHIFT : Nat
  deriving DecidableEq, Repr

/-- Number of bits of the C type `int`. -/
def INT_BITS : Nat := 32

/-- The bit pattern of `x` in `w` bits, as an unsigned number. -/
def to_unsigned (w : Nat) (x : Int) : Nat := (x % ((2 ^ w : Nat) : Int)).toNat

/-- The value of `x` reduced to `w` bits and read in two's complement: the
conversion to a signed type of `w` bits. -/
def wrap_signed (w : Nat) (x : Int) : Int :=
  if to_unsigned w x < 2 ^ (w - 1) then (to_unsigned w x : Int)
  else (to_unsigned w x : Int) - ((2 ^ w : Nat) : Int)

/-- The operator `&` on two `int` values: bitwise and of the two bit patterns. -/
def int_and (a b : Int) : Int :=
  wrap_signed INT_BITS ((to_unsigned INT_BITS a &&& to_unsigned INT_BITS b : Nat) : Int)

/-- The struct `pink_noise_t`.  `pink_rows` is the array of rows, a list whose
length is the capacity that `pink.h` gives the array. -/
structure pink_noise_t where
  pink_rows : List Int
  pink_running_sum : Int
  pink_index : Int
  pink_index_mask : Int
  pink_scalar : Rat
  deriving DecidableEq, Repr

/-- The function `generate_random_number` applied with the static `rand_seed`
holding the given value: the first component is the value stored back into
`rand_seed`, the second the value returned. -/
def generate_random_number (h : pink_h) (rand_seed : Nat) : Nat × Nat :=
  let rand_seed := (rand_seed * 196314165 + 907633515) % 2 ^ h.LONG_BITS
  (rand_seed, rand_seed)

/-- The expression `((long)generate_random_number()) >> PINK_RANDOM_SHIFT`:
the new value of `rand_seed` and the value of the expression (the shift of a
signed value is arithmetic). -/
def new_random_draw (h : pink_h) (rand_seed : Nat) : Nat × Int :=
  let r := generate_random_number h rand_seed
  (r.1, wrap_signed h.LONG_BITS (r.2 : Int) >>> h.PINK_RANDOM_SHIFT)

/-- The loop `for( i=0; i<num_rows; i++ ) pink->pink_rows[i] = 0;`, for
`num_rows` up to the capacity of the array.  Beyond the capacity the code stores
outside the array, which is undefined; the model drops such a store and is not
meant for that case. -/
def zero_rows (num_rows : Nat) (pink_rows : List Int) : List Int :=
  (List.range num_rows).foldl (fun rows i => rows.set i 0) pink_rows

/-- The expression `(1<<num_rows) - 1` of `initialize_pink_noise`, computed on
`int`, for `num_rows ≤ 30`.  For a larger `num_rows` the shift leaves the range
of `int`, which is undefined; the wrapped value of the model is not meant for
that case. -/
def index_mask (num_rows : Nat) : Int :=
  wrap_signed INT_BITS (wrap_signed INT_BITS ((2 ^ num_rows : Nat) : Int) - 1)

/-- The local `pmax` of `initialize_pink_noise`: the product
`(num_rows + 1) * (1<<(PINK_RANDOM_BITS-1))` is computed on `int` and then
stored in a `long`, which keeps its value. -/
def pmax (h : pink_h) (num_rows : Nat) : Int :=
  wrap_signed INT_BITS
    (wrap_signed INT_BITS ((num_rows : Int) + 1)
      * wrap_signed INT_BITS ((2 ^ (h.PINK_RANDOM_BITS - 1) : Nat) : Int))

/-- The function `initialize_pink_noise`.  The field `pink_scalar` keeps the
exact quotient `1 / pmax`; the `float` that `1.0F / pmax` stores is its
rounding `float_round`, taken where the field is used. -/
def initialize_pink_noise (h : pink_h) (pink : pink_noise_t) (num_rows : Nat) : pink_noise_t :=
  { pink_index := 0
    pink_index_mask := index_mask num_rows
    pink_scalar := 1 / (pmax h num_rows : Rat)
    pink_rows := zero_rows num_rows pink.pink_rows
    pink_running_sum := 0 }

/-- The loop `while( (n & 1) == 0 ) { n = n >> 1; num_zeros++; }`, run for at
most `fuel` evaluations of its condition; `none` when the condition is still
true after that many evaluations. -/
def count_zeros_loop : Nat → Int → Nat → Option Nat
  | 0, _, _ => none
  | fuel + 1, n, num_zeros =>
    if int_and n 1 = 0 then count_zeros_loop fuel (n >>> (1 : Nat)) (num_zeros + 1)
    else some num_zeros

/-- The first part of `generate_pink_noise_sample`: the index is advanced and,
when it is not zero, one row is replaced.  The result is the new `rand_seed`,
the new generator and the index `num_zeros` of the row that was assigned, if
any.  `none` stands for a call that does not complete this part: the loop does
not stop or the row index is outside the array.  A non-zero `int` has a set bit
among its 32 bits, so `INT_BITS` evaluations of the loop condition are enough
whenever the loop stops at all. -/
def update_row (h : pink_h) (rand_seed : Nat) (pink : pink_noise_t) :
    Option (Nat × pink_noise_t × Option Nat) :=
  let pink_index := int_and (wrap_signed INT_BITS (pink.pink_index + 1)) pink.pink_index_mask
  if pink_index ≠ 0 then
    match count_zeros_loop INT_BITS pink_index 0 with
    | none => none
    | some num_zeros =>
      match pink.pink_rows[num_zeros]? with
      | none => none
      | some old =>
        let d := new_random_draw h rand_seed
        let new_random := d.2
        some (d.1,
          { pink with
            pink_index := pink_index
            pink_running_sum := pink.pink_running_sum - old + new_random
            pink_rows := pink.pink_rows.set num_zeros new_random },
          some num_zeros)
  else
    some (rand_seed, { pink with pink_index := pink_index }, none)

/-- The power `2 ^ k` for an integer exponent `k`. -/
def pow2 (k : Int) : Rat :=
  if 0 ≤ k then ((2 ^ k.toNat : Nat) : Rat) else 1 / ((2 ^ (-k).toNat : Nat) : Rat)

/-- The number of halvings that bring `n` below 2, at most `fuel` of them: for
`n ≥ 1` and `fuel ≥ n` the integer `a` with `2 ^ a ≤ n < 2 ^ (a + 1)`. -/
def halvings : Nat → Nat → Nat
  | 0, _ => 0
  | fuel + 1, n => if n < 2 then 0 else halvings fuel (n / 2) + 1

/-- For a positive rational `x`, the integer `e` with `2 ^ e ≤ x < 2 ^ (e + 1)`,
found from the bit lengths of the numerator and the denominator. -/
def floor_log2 (x : Rat) : Int :=
  let a := halvings x.num.natAbs x.num.natAbs
  let b := halvings x.den x.den
  if x.den * 2 ^ a ≤ x.num.natAbs * 2 ^ b then (a : Int) - (b : Int)
  else (a : Int) - (b : Int) - 1

/-- The integer nearest to `q`; of two integers equally near, the even one. -/
def round_half_even (q : Rat) : Int :=
  let f := Int.floor q
  if q - (f : Rat) < 1 / 2 then f
  else if 1 / 2 < q - (f : Rat) then f + 1
  else if f % 2 = 0 then f
  else f + 1

/-- Rounding to the type `float` (IEEE 754 binary32, round to nearest, ties to
even): a significand of 24 bits, the least exponent `-126` (below it the
spacing stays `2 ^ (-149)`), and `none` when the rounded value reaches
`2 ^ 128`, where `float` has no finite value. -/
def float_round (x : Rat) : Option Rat :=
  if x = 0 then some 0
  else
    let e := max (floor_log2 |x|) (-126)
    let spacing := pow2 (e - 23)
    let y := (round_half_even (x / spacing) : Rat) * spacing
    if |y| < pow2 128 then some y else none

/-- The value of `pink->pink_scalar * sum` as the code computes it, on `float`:
`pink_scalar` is the `float` nearest to the scale held by the model, `sum` is
converted from `long` to `float`, and the product is rounded to `float`.
Expressions of type `float` are taken to be evaluated in `float`. -/
def returned_float (pink_scalar : Rat) (sum : Int) : Option Rat :=
  match float_round pink_scalar, float_round (sum : Rat) with
  | some a, some b => float_round (a * b)
  | _, _ => none

/-- What a call of `generate_pink_noise_sample` leaves behind: the static
`rand_seed`, the generator, the product `output` of the scale and the sum in
exact arithmetic, the `float` that the call returns (`none` when it is not a
finite value), and for reference the final values of the locals `new_random`
and `sum` and the index of the row that was assigned during the call. -/
structure sample_result where
  rand_seed : Nat
  pink : pink_noise_t
  output : Rat
  returned : Option Rat
  new_random : Int
  sum : Int
  row : Option Nat
  deriving DecidableEq, Repr

/-- The function `generate_pink_noise_sample`.  The value returned is
`returned`, the product `pink->pink_scalar * sum` on `float`; `output` is the
same product in exact arithmetic. -/
def generate_pink_noise_sample (h : pink_h) (rand_seed : Nat) (pink : pink_noise_t) :
    Option sample_result :=
  match update_row h rand_seed pink with
  | none => none
  | some (rand_seed, pink, row) =>
    let d := new_random_draw h rand_seed
    let new_random := d.2
    let sum := pink.pink_running_sum + new_random
    let output := pink.pink_scalar * (sum : Rat)
    some { rand_seed := d.1, pink := pink, output := output,
           returned := returned_float pink.pink_scalar sum,
           new_random := new_random, sum := sum, row := row }

/-- The static `rand_seed` and the generator after `n` calls of
`generate_pink_noise_sample`, started from the given pair. -/
def after_calls (h : pink_h) (rand_seed : Nat) (pink : pink_noise_t) :
    Nat → Option (Nat × pink_noise_t)
  | 0 => some (rand_seed, pink)
  | n + 1 =>
    match after_calls h rand_seed pink n with
    | none => none
    | some (s, p) =>
      match generate_pink_noise_sample h s p with
      | none => none
      | some r => some (r.rand_seed, r.pink)

/-- The `k`-th call (`k = 1` is the first) of `generate_pink_noise_sample`
started from the given pair. -/
def kth_call (h : pink_h) (rand_seed : Nat) (pink : pink_noise_t) (k : Nat) :
    Option sample_result :=
  match after_calls h rand_seed pink (k - 1) with
  | none => none
  | some (s, p) => generate_pink_noise_sample h s p

/-- The number of calls, among the calls numbered `a + 1` to `a + len`, that
assign row `i`. -/
def row_writes (h : pink_h) (rand_seed : Nat) (pink : pink_noise_t) (i a len : Nat) : Nat :=
  (List.range' (a + 1) len).countP
    (fun k => decide ((kth_call h rand_seed pink k).bind (fun r => r.row) = some i))

/-- The sum of the rows `pink_rows[0..num_rows-1]`. -/
def rows_sum (num_rows : Nat) (pink : pink_noise_t) : Int :=
  (pink.pink_rows.take num_rows).sum

/-- The index that a call stores in `pink_index`, for a generator whose mask is
`2 ^ R - 1`: the low `R` bits of the incremented index. -/
def next_index (pink : pink_noise_t) (R : Nat) : Nat :=
  to_unsigned INT_BITS (wrap_signed INT_BITS (pink.pink_index + 1)) % 2 ^ R

/-- The rows `pink_rows[0..R-1]` each hold zero or a value drawn from the
random source. -/
def rows_drawn (h : pink_h) (R : Nat) (p : pink_noise_t) : Prop :=
  ∀ x ∈ p.pink_rows.take R, x = 0 ∨ ∃ s, x = (new_random_draw h s).2

/-- The facts that hold of a generator `p` after `initialize_pink_noise` with
`R` rows has produced `p0` and `generate_pink_noise_sample` has been called `n`
times since. -/
structure reached (h : pink_h) (R n : Nat) (p0 p : pink_noise_t) : Prop where
  index : p.pink_index = ((n % 2 ^ R : Nat) : Int)
  mask : p.pink_index_mask = ((2 ^ R : Nat) : Int) - 1
  length : p.pink_rows.length = p0.pink_rows.length
  beyond : p.pink_rows.drop R = p0.pink_rows.drop R
  sum : p.pink_running_sum = rows_sum R p
  scalar : p.pink_scalar = 1 / (pmax h R : Rat)
  drawn : rows_drawn h R p

/-- The constants on a platform whose `long` has 32 bits, with 24 random bits
per draw. -/
def pink_h_long32 : pink_h :=
  { LONG_BITS := 32, PINK_RANDOM_BITS := 24, PINK_RANDOM_SHIFT := 8 }

/-- The constants on a platform whose `long` has 64 bits, with 24 random bits
per draw. -/
def pink_h_long64 : pink_h :=
  { LONG_BITS := 64, PINK_RANDOM_BITS := 24, PINK_RANDOM_SHIFT := 40 }

/-- A generator with thirty rows that has not been initialized: every field
holds an arbitrary value. -/
def pink_stale : pink_noise_t :=
  { pink_rows := List.replicate 30 7
    pink_running_sum := -5
    pink_index := 3
    pink_index_mask := 9
    pink_scalar := 2 }

/-- The value that a call of `generate_pink_noise_sample` stores in
`pink_index`: `(pink_index + 1) & pink_index_mask`. -/
def new_index (pink : pink_noise_t) : Int :=
  int_and (wrap_signed INT_BITS (pink.pink_index + 1)) pink.pink_index_mask

/-- The values `output` of the first `N` calls of `generate_pink_noise_sample`
started from the given pair (`none` for a call that does not complete). -/
def sample_sequence (h : pink_h) (rand_seed : Nat) (pink : pink_noise_t) (N : Nat) :
    List (Option Rat) :=
  (List.range N).map (fun k => (kth_call h rand_seed pink (k + 1)).map (fun r => r.output))

/-- Two generators hold the same state of `R` rows: index, mask, scale, running
sum and the rows `pink_rows[0..R-1]` coincide. -/
def same_generator (R : Nat) (p q : pink_noise_t) : Prop :=
  p.pink_index = q.pink_index ∧ p.pink_index_mask = q.pink_index_mask ∧
  p.pink_scalar = q.pink_scalar ∧ p.pink_running_sum = q.pink_running_sum ∧
  p.pink_rows.take R = q.pink_rows.take R

/-- The reference generator of the naive method: one call replaces the same row
by the same draw as `generate_pink_noise_sample` and draws the same white-noise
value, but the running sum is recomputed as the sum of all `R` rows instead of
being updated by a difference. -/
def naive_resum_sample (h : pink_h) (R : Nat) (rand_seed : Nat) (pink : pink_noise_t) :
    Option sample_result :=
  let pink_index := int_and (wrap_signed INT_BITS (pink.pink_index + 1)) pink.pink_index_mask
  if pink_index ≠ 0 then
    match count_zeros_loop INT_BITS pink_index 0 with
    | none => none
    | some num_zeros =>
      if num_zeros < pink.pink_rows.length then
        let d1 := new_random_draw h rand_seed
        let rows := pink.pink_rows.set num_zeros d1.2
        let total := (rows.take R).sum
        let d2 := new_random_draw h d1.1
        some { rand_seed := d2.1
               pink := { pink with
                 pink_index := pink_index
                 pink_running_sum := total
                 pink_rows := rows }
               output := pink.pink_scalar * ((total + d2.2 : Int) : Rat)
               returned := returned_float pink.pink_scalar (total + d2.2)
               new_random := d2.2
               sum := total + d2.2
               row := some num_zeros }
      else none
  else
    let total := (pink.pink_rows.take R).sum
    let d2 := new_random_draw h rand_seed
    some { rand_seed := d2.1
           pink := { pink with pink_index := pink_index, pink_running_sum := total }
           output := pink.pink_scalar * ((total + d2.2 : Int) : Rat)
           returned := returned_float pink.pink_scalar (total + d2.2)
           new_random := d2.2
           sum := total + d2.2
           row := none }

/-- The static `rand_seed` and the generator after `n` calls of the reference
generator `naive_resum_sample`. -/
def naive_after_calls (h : pink_h) (R : Nat) (rand_seed : Nat) (pink : pink_noise_t) :
    Nat → Option (Nat × pink_noise_t)
  | 0 => some (rand_seed, pink)
  | n + 1 =>
    match naive_after_calls h R rand_seed pink n with
    | none => none
    | some (s, p) =>
      match naive_resum_sample h R s p with
      | none => none
      | some r => some (r.rand_seed, r.pink)

/-- The values returned by the first `N` calls of the reference generator
`naive_resum_sample` (`none` for a call that does not complete). -/
def naive_sample_sequence (h : pink_h) (R : Nat) (rand_seed : Nat) (pink : pink_noise_t)
    (N : Nat) : List (Option Rat) :=
  (List.range N).map (fun k =>
    match naive_after_calls h R rand_seed pink k with
    | none => none
    | some (s, p) => (naive_resum_sample h R s p).map (fun r => r.output))

/-- The integer `x` is a value of the type `long`. -/
def fits_long (h : pink_h) (x : Int) : Prop :=
  -((2 ^ (h.LONG_BITS - 1) : Nat) : Int) ≤ x ∧ x < ((2 ^ (h.LONG_BITS - 1) : Nat) : Int)

/-- Calls on two generators `A` and `B` in one program, where both use the one
static `rand_seed`: for every entry `m` of the schedule, `m` calls of
`generate_pink_noise_sample` on `A` followed by one call on `B`.  The result
lists what the calls on `B` left behind, in order. -/
def interleaved (h : pink_h) :
    List Nat → Nat → pink_noise_t → pink_noise_t → Option (List sample_result)
  | [], _, _, _ => some []
  | m :: rest, rand_seed, A, B =>
    match after_calls h rand_seed A m with
    | none => none
    | some (s1, A1) =>
      match generate_pink_noise_sample h s1 B with
      | none => none
      | some r =>
        match interleaved h rest r.rand_seed A1 r.pink with
        | none => none
        | some rs => some (r :: rs)

/-- Call `k` overwrites row `i`: the call completes, it has executed
`pink->pink_rows[i] = new_random`, and the array of rows it leaves is the array
before the call with entry `i` replaced by the value drawn from the seed before
the call. -/
def overwrites_row (h : pink_h) (rand_seed : Nat) (pink : pink_noise_t) (i k : Nat) : Bool :=
  match after_calls h rand_seed pink (k - 1) with
  | none => false
  | some (s, p) =>
    match generate_pink_noise_sample h s p with
    | none => false
    | some r =>
      decide (r.row = some i ∧ i < p.pink_rows.length ∧
        r.pink.pink_rows = p.pink_rows.set i (new_random_draw h s).2)

/-- The number of calls, among the calls numbered `a + 1` to `a + len`, that
overwrite row `i`. -/
def row_overwrites (h : pink_h) (rand_seed : Nat) (pink : pink_noise_t) (i a len : Nat) :
    Nat :=
  (List.range' (a + 1) len).countP (overwrites_row h rand_seed pink i)

/-- The value of row `i` after `n` calls, if the calls complete and the array
has such a row. -/
def row_after (h : pink_h) (rand_seed : Nat) (pink : pink_noise_t) (i n : Nat) : Option Int :=
  (after_calls h rand_seed pink n).bind (fun sp => sp.2.pink_rows[i]?)

/-- A call of `initialize_pink_noise` in a program whose static `rand_seed`
holds the given value: the static and the generator afterwards.  The function
does not mention `rand_seed`, which is local to `generate_random_number`. -/
def initialize_with_seed (h : pink_h) (rand_seed : Nat) (pink : pink_noise_t)
    (num_rows : Nat) : Nat × pink_noise_t :=
  (rand_seed, initialize_pink_noise h pink num_rows)

/-- A generator is initialized with `R` rows, `generate_pink_noise_sample` is
called `n` times, and the generator is initialized again with `R2` rows: the
static `rand_seed` and the generator afterwards. -/
def reinitialize_after (h : pink_h) (rand_seed : Nat) (pink : pink_noise_t)
    (R n R2 : Nat) : Option (Nat × pink_noise_t) :=
  let start := initialize_with_seed h rand_seed pink R
  match after_calls h start.1 start.2 n with
  | none => none
  | some (s, p) => some (initialize_with_seed h s p R2)

end Pink

/-!
# Text subtitles (libs/libmythtv/captions/textsubtitleparser.cpp)

A shallow embedding of `TextSubtitles::GetSubtitles` and
`TextSubtitles::HasSubtitleChanged`.  Timecodes are natural numbers; a result
stored in a `uint64_t` is reduced modulo `2 ^ 64`.
-/

namespace Captions

/-- The value of `INT_MAX` for a 32-bit `int`. -/
def INT_MAX : Nat := 2147483647

/-- Reduction of a result to the type `uint64_t`. -/
def to_uint64 (x : Int) : Nat := (x % ((2 ^ 64 : Nat) : Int)).toNat

/-- The struct `text_subtitle_t` as `textsubtitleparser.cpp` uses it: the start
and end timecodes and the lines of text.  The constructor with a start and an
end leaves the lines empty. -/
structure text_subtitle_t where
  m_start : Nat
  m_end : Nat
  m_textLines : List String
  deriving DecidableEq, Repr

/-- The fields of the class `TextSubtitles` that `GetSubtitles` and
`HasSubtitleChanged` read or write; `m_frameBasedTiming` is what
`IsFrameBasedTiming()` returns. -/
structure TextSubtitles where
  m_subtitles : List text_subtitle_t
  m_lastReturnedSubtitle : text_subtitle_t
  m_isInProgress : Bool
  m_frameBasedTiming : Bool
  deriving DecidableEq, Repr

/-- The comparison `operator<` of two subtitles: by start time. -/
def subtitle_lt (left right : text_subtitle_t) : Bool :=
  decide (left.m_start < right.m_start)

/-- The call of `std::lower_bound` on a list that `operator<` partitions: the
list is cut at `nextSubPos`, the first element that is not less than the
target; the first component holds the elements before `nextSubPos`, the second
those from `nextSubPos` on. -/
def lower_bound (subtitles : List text_subtitle_t) (searchTarget : text_subtitle_t) :
    List text_subtitle_t × List text_subtitle_t :=
  (subtitles.takeWhile (fun s => subtitle_lt s searchTarget),
   subtitles.dropWhile (fun s => subtitle_lt s searchTarget))

/-- The method `TextSubtitles::HasSubtitleChanged`. -/
def TextSubtitles.HasSubtitleChanged (self : TextSubtitles) (timecode : Nat) : Bool :=
  decide (timecode < self.m_lastReturnedSubtitle.m_start) ||
    decide (timecode > self.m_lastReturnedSubtitle.m_end)

/-- The method `TextSubtitles::GetSubtitles`: the list returned and the object
afterwards.  The request to reload the file in the background, which the
branch for a file in progress may issue, is left out: it does not change what
the call returns or stores. -/
def TextSubtitles.GetSubtitles (self : TextSubtitles) (timecode : Nat) :
    List String × TextSubtitles :=
  if !self.m_isInProgress && self.m_subtitles.isEmpty then ([], self)
  else
    let searchTarget : text_subtitle_t := ⟨timecode, timecode, []⟩
    let cut := lower_bound self.m_subtitles searchTarget
    let blank (startCode : Nat) : List String × TextSubtitles :=
      let endCode : Nat :=
        match cut.2.head? with
        | none =>
          if self.m_isInProgress then
            if self.m_frameBasedTiming then to_uint64 ((startCode : Int) + 1000 / 24)
            else to_uint64 ((startCode : Int) + 1000)
          else to_uint64 ((startCode : Int) + (INT_MAX : Int))
        | some nextSub => to_uint64 ((nextSub.m_start : Int) - 1)
      ([], { self with m_lastReturnedSubtitle := ⟨startCode, endCode, []⟩ })
    match cut.1.getLast? with
    | some sub =>
      if sub.m_start ≤ timecode ∧ sub.m_end ≥ timecode then
        (sub.m_textLines, { self with m_lastReturnedSubtitle := sub })
      else blank (to_uint64 ((sub.m_end : Int) + 1))
    | none => blank 0

/-- A list of two subtitles, sorted by start time, with disjoint spans. -/
def two_subtitles : TextSubtitles :=
  { m_subtitles := [⟨10, 20, ["first"]⟩, ⟨30, 40, ["second"]⟩]
    m_lastReturnedSubtitle := ⟨0, 0, []⟩
    m_isInProgress := false
    m_frameBasedTiming := false }

end Captions

/-!
# Volume level (programs/mythgpucommflag/softwareaudioprocessor.cpp)

A shallow embedding of the accumulators of `SoftwareVolumeLevel`.  A
`uint64_t` value is a natural number reduced modulo `2 ^ 64`; an `int` value is
an integer reduced to 32 bits in two's complement; the buffer `samples` is a
function from the index to the `int16_t` value stored there.  A call whose
behaviour is undefined (a division by zero, a shift of a `uint64_t` by a count
that is negative or not less than 64) has the result `none`.
-/

namespace AudioProcessor

/-- The value of `MAX_ACCUM`, `((uint64_t)(~1)) - (0xFFFFLL * 0xFFFFLL)`: `~1`
is the `int` value `-1 - 1`, and the difference is taken on `uint64_t`. -/
def MAX_ACCUM : Nat :=
  Pink.to_unsigned 64 ((Pink.to_unsigned 64 (-1 - 1) : Int) - 0xFFFF * 0xFFFF)

/-- The static variables of `SoftwareVolumeLevel`. -/
structure volume_statics where
  accumSRMS : Nat
  accumSRMSShift : Int
  accumSample : Nat
  deriving DecidableEq, Repr

/-- The local `sampleCount`, from `channels = size / count / sizeof(int16_t)`
and `sampleCount = count * channels`: the quotient `size / count` is an `int`,
it is converted to `size_t` (of `size_t_bits` bits) for the division by
`sizeof(int16_t) = 2`, and the result is stored in an `int`. -/
def sample_count (size_t_bits : Nat) (size count : Int) : Option Int :=
  if count = 0 then none
  else
    let channels : Int := Pink.wrap_signed Pink.INT_BITS
      ((Pink.to_unsigned size_t_bits
        (Pink.wrap_signed Pink.INT_BITS (Int.tdiv size count)) / 2 : Nat) : Int)
    some (Pink.wrap_signed Pink.INT_BITS (count * channels))

/-- One pass of the body of the loop over the samples, on the pair of the
locals `accum` and `accumShift`:
`if (accum >= MAX_ACCUM) { accum >>= 2; accumShift += 2; }` followed by
`accum += (uint64_t)(samples[i]*samples[i]) >> accumShift;`. -/
def accumulate_sample (samples : Nat → Int) (state : Nat × Int) (i : Nat) :
    Option (Nat × Int) :=
  let checked : Nat × Int :=
    if state.1 ≥ MAX_ACCUM then
      (state.1 >>> 2, Pink.wrap_signed Pink.INT_BITS (state.2 + 2))
    else state
  if 0 ≤ checked.2 ∧ checked.2 < 64 then
    some ((checked.1
        + (Pink.to_unsigned 64 (Pink.wrap_signed Pink.INT_BITS (samples i * samples i))
            >>> checked.2.toNat)) % 2 ^ 64,
      checked.2)
  else none

/-- The locals `accum` and `accumShift` after `n` passes of the loop
`for (int i = 0; i < sampleCount; i++)`, started from `accum = 0` and
`accumShift = 0`; this is also their value when the test `accum >= MAX_ACCUM`
of pass `n` is evaluated. -/
def window_loop (samples : Nat → Int) (n : Nat) : Option (Nat × Int) :=
  (List.range n).foldlM (accumulate_sample samples) (0, 0)

/-- The block `if (accumSRMS >= MAX_ACCUM) { accumSRMS >>= 2; accumSRMSShift += 2; }`. -/
def check_overall (statics : volume_statics) : volume_statics :=
  if statics.accumSRMS ≥ MAX_ACCUM then
    { statics with
      accumSRMS := statics.accumSRMS >>> 2
      accumSRMSShift := Pink.wrap_signed Pink.INT_BITS (statics.accumSRMSShift + 2) }
  else statics

/-- The block that gives the window and the overall accumulator the same number
of shifts: the statics, `accum` and `accumShift` afterwards. -/
def normalize_shifts (statics : volume_statics) (accum : Nat) (accumShift : Int) :
    Option (volume_statics × Nat × Int) :=
  if accumShift > statics.accumSRMSShift then
    let d := Pink.wrap_signed Pink.INT_BITS (accumShift - statics.accumSRMSShift)
    if 0 ≤ d ∧ d < 64 then
      some ({ statics with
              accumSRMS := statics.accumSRMS >>> d.toNat
              accumSRMSShift := accumShift },
            accum, accumShift)
    else none
  else if accumShift < statics.accumSRMSShift then
    let d := Pink.wrap_signed Pink.INT_BITS (statics.accumSRMSShift - accumShift)
    if 0 ≤ d ∧ d < 64 then some (statics, accum >>> d.toNat, statics.accumSRMSShift)
    else none
  else some (statics, accum, accumShift)

/-- What a call of `SoftwareVolumeLevel` leaves behind: the statics, and for
reference the local `sampleCount`, the locals `accum` and `accumShift` at the
end of the loop, and the values of `accumSRMS`, `accum` and `accumShift` when
`accumSRMS += accum` is reached. -/
structure volume_result where
  statics : volume_statics
  sampleCount : Int
  window_accum : Nat
  window_shift : Int
  overall_operand : Nat
  accum_operand : Nat
  accumShift : Int
  deriving DecidableEq, Repr

/-- The function `SoftwareVolumeLevel`, as far as its accumulators go.  The
floating-point part (the RMS levels in dB and the finding returned from them)
reads the accumulators and writes none of them; it is left out. -/
def SoftwareVolumeLevel (size_t_bits : Nat) (statics : volume_statics)
    (samples : Nat → Int) (size count : Int) : Option volume_result :=
  match sample_count size_t_bits size count with
  | none => none
  | some sampleCount =>
    match window_loop samples sampleCount.toNat with
    | none => none
    | some (accum, accumShift) =>
      match normalize_shifts (check_overall statics) accum accumShift with
      | none => none
      | some (normalized, accum2, accumShift2) =>
        some { statics :=
                 { accumSRMS := (normalized.accumSRMS + accum2) % 2 ^ 64
                   accumSRMSShift := normalized.accumSRMSShift
                   accumSample :=
                     (normalized.accumSample + Pink.to_unsigned 64 sampleCount) % 2 ^ 64 }
               sampleCount := sampleCount
               window_accum := accum
               window_shift := accumShift
               overall_operand := normalized.accumSRMS
               accum_operand := accum2
               accumShift := accumShift2 }

/-- The exact sum of the squares of the first `n` samples. -/
def sum_of_squares (samples : Nat → Int) (n : Nat) : Int :=
  ((List.range n).map (fun i => samples i ^ 2)).sum

/-- The statics after the calls of `SoftwareVolumeLevel` on the windows of the
list, in order; a window is a buffer with its `size` and its `count`. -/
def after_windows (size_t_bits : Nat) :
    volume_statics → List ((Nat → Int) × Int × Int) → Option volume_statics
  | statics, [] => some statics
  | statics, w :: rest =>
    match SoftwareVolumeLevel size_t_bits statics w.1 w.2.1 w.2.2 with
    | none => none
    | some r => after_windows size_t_bits r.statics rest

/-- A buffer in which every sample is `-32768`. -/
def full_scale : Nat → Int := fun _ => -32768

end AudioProcessor

namespace Pink

/-! ## Arithmetic of the machine types -/

theorem to_unsigned_cast (w : Nat) (x : Int) :
    ((to_unsigned w x : Nat) : Int) = x % ((2 ^ w : Nat) : Int) := by
  have hp : (0 : Int) < ((2 ^ w : Nat) : Int) := by positivity
  unfold to_unsigned
  exact Int.toNat_of_nonneg (Int.emod_nonneg x hp.ne')

theorem to_unsigned_lt (w : Nat) (x : Int) : to_unsigned w x < 2 ^ w := by
  have hp : (0 : Int) < ((2 ^ w : Nat) : Int) := by positivity
  have h1 := Int.emod_lt_of_pos x hp
  rw [← to_unsigned_cast] at h1
  exact_mod_cast h1

theorem to_unsigned_natCast (w : Nat) (n : Nat) (hn : n < 2 ^ w) :
    to_unsigned w (n : Int) = n := by
  have h1 := to_unsigned_cast w (n : Int)
  have h2 : ((n : Int) % ((2 ^ w : Nat) : Int)) = ((n % 2 ^ w : Nat) : Int) := by
    push_cast; rfl
  rw [h2, Nat.mod_eq_of_lt hn] at h1
  exact_mod_cast h1

theorem wrap_signed_eq_self (w : Nat) (x : Int) (hw : 1 ≤ w)
    (hlo : -((2 ^ (w - 1) : Nat) : Int) ≤ x) (hhi : x < ((2 ^ (w - 1) : Nat) : Int)) :
    wrap_signed w x = x := by
  obtain ⟨v, rfl⟩ : ∃ v, w = v + 1 := ⟨w - 1, by omega⟩
  simp only [Nat.add_sub_cancel] at hlo hhi
  have h2 : (2 : Nat) ^ (v + 1) = 2 * 2 ^ v := by rw [pow_succ]; ring
  have hp : 0 < 2 ^ v := by positivity
  have hc := to_unsigned_cast (v + 1) x
  unfold wrap_signed
  simp only [Nat.add_sub_cancel]
  by_cases hx : 0 ≤ x
  · have hm : x % ((2 ^ (v + 1) : Nat) : Int) = x :=
      Int.emod_eq_of_lt hx (by rw [h2]; omega)
    rw [hm] at hc
    have hlt : to_unsigned (v + 1) x < 2 ^ v := by
      have : ((to_unsigned (v + 1) x : Nat) : Int) < ((2 ^ v : Nat) : Int) := by rw [hc]; exact hhi
      exact_mod_cast this
    rw [if_pos hlt, hc]
  · have hm : x % ((2 ^ (v + 1) : Nat) : Int) = x + ((2 ^ (v + 1) : Nat) : Int) := by
      have hm1 : (x + ((2 ^ (v + 1) : Nat) : Int)) % ((2 ^ (v + 1) : Nat) : Int)
          = x + ((2 ^ (v + 1) : Nat) : Int) :=
        Int.emod_eq_of_lt (by rw [h2]; omega) (by omega)
      rw [← hm1, Int.add_emod_self]
    rw [hm] at hc
    have hge : ¬ to_unsigned (v + 1) x < 2 ^ v := by
      intro hlt
      have : ((to_unsigned (v + 1) x : Nat) : Int) < ((2 ^ v : Nat) : Int) := by exact_mod_cast hlt
      rw [hc, h2] at this
      omega
    rw [if_neg hge, hc]
    ring

theorem wrap_signed_natCast (w : Nat) (n : Nat) (hw : 1 ≤ w) (hn : n < 2 ^ (w - 1)) :
    wrap_signed w (n : Int) = n := by
  apply wrap_signed_eq_self w _ hw
  · have : (0 : Int) ≤ ((2 ^ (w - 1) : Nat) : Int) := by positivity
    omega
  · exact_mod_cast hn

theorem wrap_signed_range (w : Nat) (x : Int) (hw : 1 ≤ w) :
    -((2 ^ (w - 1) : Nat) : Int) ≤ wrap_signed w x ∧
      wrap_signed w x < ((2 ^ (w - 1) : Nat) : Int) := by
  obtain ⟨v, rfl⟩ : ∃ v, w = v + 1 := ⟨w - 1, by omega⟩
  simp only [Nat.add_sub_cancel]
  have h2 : (2 : Nat) ^ (v + 1) = 2 * 2 ^ v := by rw [pow_succ]; ring
  have hlt := to_unsigned_lt (v + 1) x
  unfold wrap_signed
  simp only [Nat.add_sub_cancel]
  split_ifs with hc
  · constructor
    · have : (0 : Int) ≤ ((2 ^ v : Nat) : Int) := by positivity
      omega
    · exact_mod_cast hc
  · rw [h2] at hlt ⊢
    constructor <;> omega

/-- Masking with `2 ^ R - 1` keeps the low `R` bits. -/
theorem int_and_mask (a : Int) (R : Nat) (hR : R ≤ 31) :
    int_and a (((2 ^ R : Nat) : Int) - 1) = ((to_unsigned INT_BITS a % 2 ^ R : Nat) : Int) := by
  have hpos : 1 ≤ 2 ^ R := Nat.one_le_two_pow
  have hle : 2 ^ R ≤ 2 ^ 31 := Nat.pow_le_pow_right (by norm_num) hR
  have hm : (((2 ^ R : Nat) : Int) - 1) = ((2 ^ R - 1 : Nat) : Int) := by
    rw [Nat.cast_sub hpos]; rfl
  unfold int_and
  rw [hm, to_unsigned_natCast INT_BITS (2 ^ R - 1) (by simp only [INT_BITS]; omega),
    Nat.and_pow_two_sub_one_eq_mod]
  apply wrap_signed_natCast
  · simp [INT_BITS]
  · have : to_unsigned INT_BITS a % 2 ^ R < 2 ^ R := Nat.mod_lt _ (by omega)
    simp only [INT_BITS]
    omega

theorem int_and_one (n : Nat) (hn : n < 2 ^ 31) :
    int_and (n : Int) 1 = ((n % 2 : Nat) : Int) := by
  have := int_and_mask (n : Int) 1 (by norm_num)
  have h1 : (((2 ^ 1 : Nat) : Int) - 1) = 1 := by norm_num
  rw [h1] at this
  rw [this, to_unsigned_natCast INT_BITS n (by simp only [INT_BITS]; omega), pow_one]

theorem shiftRight_one_natCast (n : Nat) :
    ((n : Int) >>> (1 : Nat)) = ((n / 2 : Nat) : Int) := by
  rw [Int.shiftRight_eq_div_pow]
  norm_num

/-- A positive number is a power of two times an odd number. -/
theorem exists_pow_two_mul_odd (j : Nat) (hj : j ≠ 0) : ∃ c q, j = 2 ^ c * (2 * q + 1) := by
  obtain ⟨c, m, hm, rfl⟩ := Nat.exists_eq_two_pow_mul_odd hj
  obtain ⟨q, rfl⟩ := hm
  exact ⟨c, q, rfl⟩

theorem pow_two_mul_odd_lt (c q R : Nat) (hlt : 2 ^ c * (2 * q + 1) < 2 ^ R) : c < R := by
  by_contra hc
  have h1 : 2 ^ R ≤ 2 ^ c := Nat.pow_le_pow_right (by norm_num) (by omega)
  have h2 : 2 ^ c * 1 ≤ 2 ^ c * (2 * q + 1) := Nat.mul_le_mul_left _ (by omega)
  omega

theorem pow_two_mul_odd_ctz (c q : Nat) :
    2 ^ c ∣ 2 ^ c * (2 * q + 1) ∧ ¬ 2 ^ (c + 1) ∣ 2 ^ c * (2 * q + 1) := by
  refine ⟨Dvd.intro _ rfl, ?_⟩
  intro hd
  rw [pow_succ] at hd
  have h2 : 2 ∣ 2 * q + 1 := (Nat.mul_dvd_mul_iff_left (by positivity)).mp hd
  omega

/-- A number `2 ^ c * (2 * q + 1)` is congruent to `2 ^ i` modulo `2 ^ (i + 1)`
exactly when `c = i`. -/
theorem pow_two_mul_odd_mod (c q i : Nat) :
    (2 ^ c * (2 * q + 1)) % 2 ^ (i + 1) = 2 ^ i ↔ c = i := by
  constructor
  · intro hmod
    by_contra hne
    rcases Nat.lt_or_gt_of_ne hne with hlt | hgt
    · have hd1 : 2 ^ (c + 1) ∣ 2 ^ (i + 1) := pow_dvd_pow 2 (by omega)
      have hd2 : 2 ^ (c + 1) ∣ 2 ^ i := pow_dvd_pow 2 (by omega)
      have hd3 : 2 ^ (c + 1) ∣ 2 ^ c * (2 * q + 1) := by
        rw [← Nat.div_add_mod (2 ^ c * (2 * q + 1)) (2 ^ (i + 1)), hmod]
        exact Dvd.dvd.add (Dvd.dvd.mul_right hd1 _) hd2
      exact (pow_two_mul_odd_ctz c q).2 hd3
    · have hd : 2 ^ (i + 1) ∣ 2 ^ c * (2 * q + 1) :=
        Dvd.dvd.mul_right (pow_dvd_pow 2 (by omega)) _
      rw [Nat.mod_eq_zero_of_dvd hd] at hmod
      have : 0 < 2 ^ i := by positivity
      omega
  · rintro rfl
    have h1 : 2 ^ c * (2 * q + 1) = 2 ^ c + 2 ^ (c + 1) * q := by rw [pow_succ]; ring
    have h2 : 2 ^ c < 2 ^ (c + 1) := Nat.pow_lt_pow_right (by norm_num) (by omega)
    rw [h1, Nat.add_mul_mod_self_left, Nat.mod_eq_of_lt h2]

/-- Bounds on the sum of a list of bounded integers. -/
theorem list_sum_bounds (l : List Int) (lo hi : Int) (hl : ∀ x ∈ l, lo ≤ x ∧ x ≤ hi) :
    (l.length : Int) * lo ≤ l.sum ∧ l.sum ≤ (l.length : Int) * hi := by
  induction l with
  | nil => simp
  | cons a t ih =>
    have ha := hl a (List.mem_cons_self a t)
    have ht := ih (fun x hx => hl x (List.mem_cons_of_mem a hx))
    simp only [List.length_cons, List.sum_cons, Nat.cast_add, Nat.cast_one]
    constructor <;> linarith [ha.1, ha.2, ht.1, ht.2]

/-- In a window of `m` consecutive numbers exactly one is congruent to `v`. -/
theorem countP_window (m v s : Nat) (hm : 0 < m) (hv : v < m) :
    (List.range' s m).countP (fun k => decide (k % m = v)) = 1 := by
  have hcount : ∀ b, b.count (· ≡ v [MOD m]) = b / m + if v % m < b % m then 1 else 0 :=
    fun b => Nat.count_modEq_card b hm v
  have h1 : (List.range' s m).countP (fun k => decide (k % m = v))
      = Nat.count (fun k => (s + k) ≡ v [MOD m]) m := by
    rw [List.range'_eq_map_range, List.countP_map, Nat.count]
    apply List.countP_congr
    intro k _
    simp [Nat.ModEq, Nat.mod_eq_of_lt hv]
  have h2 := @Nat.count_add (· ≡ v [MOD m]) _ s m
  rw [hcount, hcount, Nat.add_div_right _ hm, Nat.add_mod_right] at h2
  rw [h1]
  omega

theorem countP_blocks (m v : Nat) (hm : 0 < m) (hv : v < m) (t : Nat) :
    ∀ s, (List.range' s (t * m)).countP (fun k => decide (k % m = v)) = t := by
  induction t with
  | zero => intro s; simp
  | succ t ih =>
    intro s
    have : (t + 1) * m = m + t * m := by ring
    rw [this, ← List.range'_append_1, List.countP_append, countP_window m v _ hm hv, ih]

/-! ## The generator after `initialize_pink_noise` -/

/-- The recurrence of `generate_random_number`: the value stored and the value
returned are both `(s * 196314165 + 907633515) mod 2 ^ LONG_BITS`. -/
theorem generate_random_number_eq (h : pink_h) (s : Nat) :
    generate_random_number h s
      = ((s * 196314165 + 907633515) % 2 ^ h.LONG_BITS,
         (s * 196314165 + 907633515) % 2 ^ h.LONG_BITS) :=
  rfl

/-- The loop counts the trailing zero bits of a positive `int`. -/
theorem count_zeros_loop_eq (c : Nat) : ∀ (fuel q z : Nat), c < fuel →
    2 ^ c * (2 * q + 1) < 2 ^ 31 →
    count_zeros_loop fuel ((2 ^ c * (2 * q + 1) : Nat) : Int) z = some (z + c) := by
  induction c with
  | zero =>
    intro fuel q z hf hlt
    obtain ⟨f, rfl⟩ : ∃ f, fuel = f + 1 := ⟨fuel - 1, by omega⟩
    simp only [pow_zero, one_mul] at hlt ⊢
    rw [count_zeros_loop, int_and_one _ hlt]
    have : (2 * q + 1) % 2 = 1 := by omega
    rw [this]
    simp
  | succ c ih =>
    intro fuel q z hf hlt
    obtain ⟨f, rfl⟩ : ∃ f, fuel = f + 1 := ⟨fuel - 1, by omega⟩
    have hev : 2 ^ (c + 1) * (2 * q + 1) = 2 * (2 ^ c * (2 * q + 1)) := by rw [pow_succ]; ring
    rw [count_zeros_loop, int_and_one _ hlt]
    have hmod : (2 ^ (c + 1) * (2 * q + 1)) % 2 = 0 := by rw [hev]; omega
    have hdiv : (2 ^ (c + 1) * (2 * q + 1)) / 2 = 2 ^ c * (2 * q + 1) := by rw [hev]; omega
    rw [hmod, shiftRight_one_natCast, hdiv]
    simp only [Nat.cast_zero, if_true]
    rw [ih f q (z + 1) (by omega) (by omega)]
    congr 1
    omega

theorem next_index_lt (pink : pink_noise_t) (R : Nat) : next_index pink R < 2 ^ R :=
  Nat.mod_lt _ (by positivity)

/-- The first part of a call, for a generator whose mask is `2 ^ R - 1`. -/
theorem update_row_eq (h : pink_h) (s : Nat) (p : pink_noise_t) (R : Nat) (hR : R ≤ 30)
    (hmask : p.pink_index_mask = ((2 ^ R : Nat) : Int) - 1) (hcap : R ≤ p.pink_rows.length) :
    (next_index p R = 0 ∧
      update_row h s p = some (s, { p with pink_index := 0 }, none)) ∨
    (∃ c q old, next_index p R = 2 ^ c * (2 * q + 1) ∧ c < R ∧ p.pink_rows[c]? = some old ∧
      update_row h s p = some ((new_random_draw h s).1,
        { p with
          pink_index := (next_index p R : Int)
          pink_running_sum := p.pink_running_sum - old + (new_random_draw h s).2
          pink_rows := p.pink_rows.set c (new_random_draw h s).2 },
        some c)) := by
  have hidx : int_and (wrap_signed INT_BITS (p.pink_index + 1)) p.pink_index_mask
      = (next_index p R : Int) := by
    rw [hmask, int_and_mask _ R (by omega)]; rfl
  have hlt := next_index_lt p R
  have hle : 2 ^ R ≤ 2 ^ 30 := Nat.pow_le_pow_right (by norm_num) hR
  by_cases hj : next_index p R = 0
  · left
    refine ⟨hj, ?_⟩
    unfold update_row
    simp only [hidx, hj]
    simp
  · right
    obtain ⟨c, q, hcq⟩ := exists_pow_two_mul_odd _ hj
    have hcR : c < R := pow_two_mul_odd_lt c q R (by rw [← hcq]; exact hlt)
    have hclen : c < p.pink_rows.length := by omega
    refine ⟨c, q, p.pink_rows[c], hcq, hcR, List.getElem?_eq_getElem hclen, ?_⟩
    have hne : ((next_index p R : Nat) : Int) ≠ 0 := by exact_mod_cast hj
    have hloop : count_zeros_loop INT_BITS ((next_index p R : Nat) : Int) 0 = some c := by
      have := count_zeros_loop_eq c INT_BITS q 0 (by simp only [INT_BITS]; omega)
        (by rw [← hcq]; omega)
      rw [← hcq] at this
      simpa using this
    unfold update_row
    simp only [hidx, hloop, List.getElem?_eq_getElem hclen]
    simp [hne]

theorem zero_rows_succ (R : Nat) (l : List Int) :
    zero_rows (R + 1) l = (zero_rows R l).set R 0 := by
  simp [zero_rows, List.range_succ, List.foldl_append]

theorem zero_rows_length (R : Nat) (l : List Int) : (zero_rows R l).length = l.length := by
  induction R with
  | zero => simp [zero_rows]
  | succ R ih => rw [zero_rows_succ, List.length_set, ih]

theorem zero_rows_getElem? (R : Nat) (l : List Int) (i : Nat) :
    (zero_rows R l)[i]? = if i < R ∧ i < l.length then some 0 else l[i]? := by
  induction R with
  | zero => simp [zero_rows]
  | succ R ih =>
    rw [zero_rows_succ, List.getElem?_set, zero_rows_length, ih]
    by_cases hi : R = i
    · subst hi
      by_cases hl : R < l.length
      · simp [hl]
      · simp [hl]
        omega
    · by_cases h1 : i < R
      · have : i < R + 1 := by omega
        simp [hi, h1, this]
      · have : ¬ i < R + 1 := by omega
        simp [hi, h1, this]

theorem zero_rows_drop (R : Nat) (l : List Int) : (zero_rows R l).drop R = l.drop R := by
  apply List.ext_getElem?
  intro i
  rw [List.getElem?_drop, List.getElem?_drop, zero_rows_getElem?]
  have : ¬ (R + i < R ∧ R + i < l.length) := by omega
  rw [if_neg this]

theorem zero_rows_take_mem (R : Nat) (l : List Int) (x : Int)
    (hx : x ∈ (zero_rows R l).take R) : x = 0 := by
  obtain ⟨i, hi, rfl⟩ := List.getElem_of_mem hx
  have hi2 : i < R ∧ i < l.length := by
    simp only [List.length_take, zero_rows_length] at hi
    omega
  have h1 : ((zero_rows R l).take R)[i]? = some 0 := by
    rw [List.getElem?_take_of_lt hi2.1, zero_rows_getElem?, if_pos hi2]
  rw [List.getElem?_eq_getElem hi] at h1
  exact Option.some.inj h1

theorem index_mask_eq (R : Nat) (hR : R ≤ 30) : index_mask R = ((2 ^ R : Nat) : Int) - 1 := by
  have hle : 2 ^ R ≤ 2 ^ 30 := Nat.pow_le_pow_right (by norm_num) hR
  have hpos : 0 < 2 ^ R := by positivity
  unfold index_mask
  rw [wrap_signed_natCast INT_BITS (2 ^ R) (by simp [INT_BITS])
    (by simp only [INT_BITS]; omega)]
  exact wrap_signed_eq_self INT_BITS _ (by simp [INT_BITS])
    (by simp only [INT_BITS]; omega) (by simp only [INT_BITS]; omega)

/-- The generator left by `initialize_pink_noise` satisfies the invariant. -/
theorem reached_initialize (h : pink_h) (p0 : pink_noise_t) (R : Nat) (hR : R ≤ 30) :
    reached h R 0 (initialize_pink_noise h p0 R) (initialize_pink_noise h p0 R) where
  index := by simp [initialize_pink_noise]
  mask := index_mask_eq R hR
  length := rfl
  beyond := rfl
  sum := by
    simp only [initialize_pink_noise, rows_sum]
    symm
    apply List.sum_eq_zero
    intro x hx
    exact zero_rows_take_mem R _ x hx
  scalar := rfl
  drawn := by
    intro x hx
    exact Or.inl (zero_rows_take_mem R _ x hx)

/-- A call completes as soon as its first part does, and its result is read off
from the result of the first part. -/
theorem generate_of_update_row (h : pink_h) (s : Nat) (p : pink_noise_t)
    (s1 : Nat) (p1 : pink_noise_t) (row : Option Nat)
    (hu : update_row h s p = some (s1, p1, row)) :
    generate_pink_noise_sample h s p = some
      { rand_seed := (new_random_draw h s1).1
        pink := p1
        output := p1.pink_scalar * ((p1.pink_running_sum + (new_random_draw h s1).2 : Int) : Rat)
        returned := returned_float p1.pink_scalar (p1.pink_running_sum + (new_random_draw h s1).2)
        new_random := (new_random_draw h s1).2
        sum := p1.pink_running_sum + (new_random_draw h s1).2
        row := row } := by
  unfold generate_pink_noise_sample
  rw [hu]

theorem next_index_reached (h : pink_h) (R n : Nat) (p0 p : pink_noise_t) (hR : R ≤ 30)
    (hinv : reached h R n p0 p) : next_index p R = (n + 1) % 2 ^ R := by
  have hle : 2 ^ R ≤ 2 ^ 30 := Nat.pow_le_pow_right (by norm_num) hR
  have hlt : n % 2 ^ R < 2 ^ R := Nat.mod_lt _ (by positivity)
  have h1 : ((n % 2 ^ R : Nat) : Int) + 1 = ((n % 2 ^ R + 1 : Nat) : Int) := by push_cast; rfl
  have h2 : wrap_signed INT_BITS ((n % 2 ^ R + 1 : Nat) : Int) = ((n % 2 ^ R + 1 : Nat) : Int) := by
    apply wrap_signed_natCast
    · simp [INT_BITS]
    · simp only [INT_BITS]; omega
  have h3 : to_unsigned INT_BITS ((n % 2 ^ R + 1 : Nat) : Int) = n % 2 ^ R + 1 := by
    apply to_unsigned_natCast
    simp only [INT_BITS]; omega
  unfold next_index
  rw [hinv.index, h1, h2, h3]
  exact Nat.mod_add_mod n (2 ^ R) 1

theorem rows_sum_set (R c : Nat) (v old : Int) (l : List Int) (hc : c < R)
    (hold : l[c]? = some old) :
    ((l.set c v).take R).sum = (l.take R).sum - old + v := by
  have hcl : c < l.length := by
    by_contra hn
    rw [List.getElem?_eq_none (by omega)] at hold
    exact Option.noConfusion hold
  have hct : c < (l.take R).length := by
    simp only [List.length_take]; omega
  rw [List.set_take, List.sum_set', dif_pos hct]
  have : (l.take R)[c] = old := by
    have h2 : (l.take R)[c]? = some old := by rw [List.getElem?_take_of_lt hc, hold]
    rw [List.getElem?_eq_getElem hct] at h2
    exact Option.some.inj h2
  rw [this]
  ring

/-- The shape of the outcome of one call on a generator that satisfies the
invariant: the call completes, the invariant holds again, and either the new
index is zero and nothing but the index changed, or the new index is
`2 ^ c * (2 * q + 1)` and row `c` was replaced by a fresh draw. -/
theorem generate_reached (h : pink_h) (s : Nat) (p0 p : pink_noise_t) (R n : Nat)
    (hR : R ≤ 30) (hcap : R ≤ p0.pink_rows.length) (hinv : reached h R n p0 p) :
    ∃ r, generate_pink_noise_sample h s p = some r ∧ reached h R (n + 1) p0 r.pink ∧
      (((n + 1) % 2 ^ R = 0 ∧ r.row = none ∧ r.pink = { p with pink_index := 0 } ∧
          r.rand_seed = (new_random_draw h s).1 ∧ r.new_random = (new_random_draw h s).2) ∨
       (∃ c q old, (n + 1) % 2 ^ R = 2 ^ c * (2 * q + 1) ∧ c < R ∧ r.row = some c ∧
          p.pink_rows[c]? = some old ∧
          r.pink = { p with
            pink_index := (((n + 1) % 2 ^ R : Nat) : Int)
            pink_running_sum := p.pink_running_sum - old + (new_random_draw h s).2
            pink_rows := p.pink_rows.set c (new_random_draw h s).2 } ∧
          r.rand_seed = (new_random_draw h (new_random_draw h s).1).1 ∧
          r.new_random = (new_random_draw h (new_random_draw h s).1).2)) := by
  have hnext := next_index_reached h R n p0 p hR hinv
  rcases update_row_eq h s p R hR hinv.mask (by rw [hinv.length]; exact hcap) with
    ⟨hj, hu⟩ | ⟨c, q, old, hj, hcR, hold, hu⟩
  · rw [hnext] at hj
    refine ⟨_, generate_of_update_row h s p _ _ _ hu, ?_, Or.inl ⟨hj, rfl, rfl, rfl, rfl⟩⟩
    exact
      { index := by simp [hj]
        mask := hinv.mask
        length := hinv.length
        beyond := hinv.beyond
        sum := hinv.sum
        scalar := hinv.scalar
        drawn := hinv.drawn }
  · rw [hnext] at hj hu
    refine ⟨_, generate_of_update_row h s p _ _ _ hu, ?_,
      Or.inr ⟨c, q, old, hj, hcR, rfl, hold, rfl, rfl, rfl⟩⟩
    exact
      { index := rfl
        mask := hinv.mask
        length := by simp [hinv.length]
        beyond := by
          show (p.pink_rows.set c _).drop R = _
          rw [List.drop_set_of_lt _ _ hcR]; exact hinv.beyond
        sum := by
          show p.pink_running_sum - old + _ = ((p.pink_rows.set c _).take R).sum
          rw [rows_sum_set R c _ old p.pink_rows hcR hold, hinv.sum]; rfl
        scalar := hinv.scalar
        drawn := by
          intro x hx
          have hx : x ∈ (p.pink_rows.set c (new_random_draw h s).2).take R := hx
          rw [List.set_take] at hx
          rcases List.mem_or_eq_of_mem_set hx with hm | he
          · exact hinv.drawn x hm
          · exact Or.inr ⟨s, he⟩ }

theorem initialize_length (h : pink_h) (pink : pink_noise_t) (R : Nat) :
    (initialize_pink_noise h pink R).pink_rows.length = pink.pink_rows.length :=
  zero_rows_length R pink.pink_rows

/-- After `initialize_pink_noise` every sequence of calls completes, and the
invariant holds after each of them. -/
theorem after_calls_reached (h : pink_h) (rand_seed : Nat) (pink : pink_noise_t) (R : Nat)
    (hR : R ≤ 30) (hcap : R ≤ pink.pink_rows.length) (n : Nat) :
    ∃ s p, after_calls h rand_seed (initialize_pink_noise h pink R) n = some (s, p) ∧
      reached h R n (initialize_pink_noise h pink R) p := by
  induction n with
  | zero => exact ⟨rand_seed, _, rfl, reached_initialize h pink R hR⟩
  | succ n ih =>
    obtain ⟨s, p, hs, hinv⟩ := ih
    obtain ⟨r, hr, hinv', -⟩ := generate_reached h s _ p R n hR
      (by rw [initialize_length]; exact hcap) hinv
    refine ⟨r.rand_seed, r.pink, ?_, hinv'⟩
    rw [after_calls, hs]
    simp only [hr]

/-- The `k`-th call after `initialize_pink_noise` completes; its outcome is
described by `generate_reached` with `n + 1 = k`. -/
theorem kth_call_reached (h : pink_h) (rand_seed : Nat) (pink : pink_noise_t) (R k : Nat)
    (hR : R ≤ 30) (hcap : R ≤ pink.pink_rows.length) (hk : 1 ≤ k) :
    ∃ s p r, after_calls h rand_seed (initialize_pink_noise h pink R) (k - 1) = some (s, p) ∧
      reached h R (k - 1) (initialize_pink_noise h pink R) p ∧
      generate_pink_noise_sample h s p = some r ∧
      kth_call h rand_seed (initialize_pink_noise h pink R) k = some r ∧
      reached h R k (initialize_pink_noise h pink R) r.pink ∧
      ((k % 2 ^ R = 0 ∧ r.row = none ∧ r.pink = { p with pink_index := 0 } ∧
          r.rand_seed = (new_random_draw h s).1 ∧ r.new_random = (new_random_draw h s).2) ∨
       (∃ c q old, k % 2 ^ R = 2 ^ c * (2 * q + 1) ∧ c < R ∧ r.row = some c ∧
          p.pink_rows[c]? = some old ∧
          r.pink = { p with
            pink_index := ((k % 2 ^ R : Nat) : Int)
            pink_running_sum := p.pink_running_sum - old + (new_random_draw h s).2
            pink_rows := p.pink_rows.set c (new_random_draw h s).2 } ∧
          r.rand_seed = (new_random_draw h (new_random_draw h s).1).1 ∧
          r.new_random = (new_random_draw h (new_random_draw h s).1).2)) := by
  obtain ⟨s, p, hs, hinv⟩ := after_calls_reached h rand_seed pink R hR hcap (k - 1)
  obtain ⟨r, hr, hinv', hshape⟩ := generate_reached h s _ p R (k - 1) hR
    (by rw [initialize_length]; exact hcap) hinv
  have hk1 : k - 1 + 1 = k := by omega
  rw [hk1] at hinv' hshape
  refine ⟨s, p, r, hs, hinv, hr, ?_, hinv', hshape⟩
  rw [kth_call, hs]
  simp only [hr]

/-- The product that gives `pmax` stays inside the range of `int` when
`PINK_RANDOM_BITS` is between 1 and 27 and there are at most 30 rows. -/
theorem pmax_eq (h : pink_h) (R : Nat) (hR30 : R ≤ 30) (hB1 : 1 ≤ h.PINK_RANDOM_BITS)
    (hB27 : h.PINK_RANDOM_BITS ≤ 27) :
    (R + 1) * 2 ^ (h.PINK_RANDOM_BITS - 1) < 2 ^ 31 ∧
    pmax h R = (((R + 1) * 2 ^ (h.PINK_RANDOM_BITS - 1) : Nat) : Int) := by
  have _hB1 := hB1
  have hle : 2 ^ (h.PINK_RANDOM_BITS - 1) ≤ 2 ^ 26 :=
    Nat.pow_le_pow_right (by norm_num) (by omega)
  have hprod : (R + 1) * 2 ^ (h.PINK_RANDOM_BITS - 1) ≤ 31 * 2 ^ 26 :=
    Nat.mul_le_mul (by omega) hle
  have hlt : (R + 1) * 2 ^ (h.PINK_RANDOM_BITS - 1) < 2 ^ 31 := by omega
  refine ⟨hlt, ?_⟩
  have h1 : wrap_signed INT_BITS ((R : Int) + 1) = ((R + 1 : Nat) : Int) := by
    have : ((R : Int) + 1) = ((R + 1 : Nat) : Int) := by push_cast; rfl
    rw [this]
    exact wrap_signed_natCast INT_BITS (R + 1) (by simp [INT_BITS])
      (by simp only [INT_BITS]; omega)
  have h2 : wrap_signed INT_BITS ((2 ^ (h.PINK_RANDOM_BITS - 1) : Nat) : Int)
      = ((2 ^ (h.PINK_RANDOM_BITS - 1) : Nat) : Int) :=
    wrap_signed_natCast INT_BITS _ (by simp [INT_BITS]) (by simp only [INT_BITS]; omega)
  unfold pmax
  rw [h1, h2, ← Nat.cast_mul]
  exact wrap_signed_natCast INT_BITS _ (by simp [INT_BITS]) (by simp only [INT_BITS]; omega)

/-- A draw has `PINK_RANDOM_BITS` significant bits when `PINK_RANDOM_SHIFT` is
the width of `long` minus `PINK_RANDOM_BITS`. -/
theorem new_random_draw_range (h : pink_h) (s : Nat)
    (hshift : h.PINK_RANDOM_SHIFT = h.LONG_BITS - h.PINK_RANDOM_BITS)
    (hB1 : 1 ≤ h.PINK_RANDOM_BITS) (hBW : h.PINK_RANDOM_BITS ≤ h.LONG_BITS) :
    -((2 ^ (h.PINK_RANDOM_BITS - 1) : Nat) : Int) ≤ (new_random_draw h s).2 ∧
      (new_random_draw h s).2 < ((2 ^ (h.PINK_RANDOM_BITS - 1) : Nat) : Int) := by
  obtain ⟨hlo, hhi⟩ := wrap_signed_range h.LONG_BITS
    ((generate_random_number h s).2 : Int) (by omega)
  have hsplit : 2 ^ (h.LONG_BITS - 1)
      = 2 ^ (h.PINK_RANDOM_BITS - 1) * 2 ^ h.PINK_RANDOM_SHIFT := by
    rw [← pow_add, hshift]
    congr 1
    omega
  have hpos : (0 : Int) < ((2 ^ h.PINK_RANDOM_SHIFT : Nat) : Int) := by positivity
  show -((2 ^ (h.PINK_RANDOM_BITS - 1) : Nat) : Int)
      ≤ wrap_signed h.LONG_BITS ((generate_random_number h s).2 : Int) >>> h.PINK_RANDOM_SHIFT ∧
    wrap_signed h.LONG_BITS ((generate_random_number h s).2 : Int) >>> h.PINK_RANDOM_SHIFT
      < ((2 ^ (h.PINK_RANDOM_BITS - 1) : Nat) : Int)
  rw [Int.shiftRight_eq_div_pow]
  rw [hsplit, Nat.cast_mul] at hlo hhi
  constructor
  · apply Int.le_ediv_of_mul_le hpos
    rw [neg_mul]
    exact hlo
  · exact Int.ediv_lt_of_lt_mul hpos hhi

/-- The rows of a reached generator are bounded, and so is their sum. -/
theorem reached_sum_bounds (h : pink_h) (R n : Nat) (p0 p : pink_noise_t)
    (hcap : R ≤ p0.pink_rows.length)
    (hshift : h.PINK_RANDOM_SHIFT = h.LONG_BITS - h.PINK_RANDOM_BITS)
    (hB1 : 1 ≤ h.PINK_RANDOM_BITS) (hBW : h.PINK_RANDOM_BITS ≤ h.LONG_BITS)
    (hinv : reached h R n p0 p) :
    (∀ x ∈ p.pink_rows.take R, -((2 ^ (h.PINK_RANDOM_BITS - 1) : Nat) : Int) ≤ x ∧
      x ≤ ((2 ^ (h.PINK_RANDOM_BITS - 1) : Nat) : Int) - 1) ∧
    (R : Int) * -((2 ^ (h.PINK_RANDOM_BITS - 1) : Nat) : Int) ≤ p.pink_running_sum ∧
    p.pink_running_sum ≤ (R : Int) * (((2 ^ (h.PINK_RANDOM_BITS - 1) : Nat) : Int) - 1) := by
  have hpos : (0 : Int) < ((2 ^ (h.PINK_RANDOM_BITS - 1) : Nat) : Int) := by positivity
  have hrows : ∀ x ∈ p.pink_rows.take R, -((2 ^ (h.PINK_RANDOM_BITS - 1) : Nat) : Int) ≤ x ∧
      x ≤ ((2 ^ (h.PINK_RANDOM_BITS - 1) : Nat) : Int) - 1 := by
    intro x hx
    rcases hinv.drawn x hx with rfl | ⟨s, rfl⟩
    · constructor <;> omega
    · have := new_random_draw_range h s hshift hB1 hBW
      constructor <;> omega
  have hlen : (p.pink_rows.take R).length = R := by
    rw [List.length_take, hinv.length]; omega
  have hb := list_sum_bounds _ _ _ hrows
  rw [hlen] at hb
  refine ⟨hrows, ?_, ?_⟩
  · rw [hinv.sum]; exact hb.1
  · rw [hinv.sum]; exact hb.2

/-- The value returned by a call in terms of what the call leaves behind. -/
theorem generate_output (h : pink_h) (s : Nat) (p : pink_noise_t) (r : sample_result)
    (hr : generate_pink_noise_sample h s p = some r) :
    r.output = r.pink.pink_scalar * ((r.pink.pink_running_sum + r.new_random : Int) : Rat) := by
  unfold generate_pink_noise_sample at hr
  cases hu : update_row h s p with
  | none => rw [hu] at hr; exact Option.noConfusion hr
  | some t =>
    obtain ⟨s1, p1, row⟩ := t
    rw [hu] at hr
    have := Option.some.inj hr
    rw [← this]

/-- The `k`-th call assigns row `i` exactly when `k ≡ 2 ^ i` modulo `2 ^ (i + 1)`. -/
theorem kth_call_row_iff (h : pink_h) (rand_seed : Nat) (pink : pink_noise_t) (R k i : Nat)
    (hR : R ≤ 30) (hcap : R ≤ pink.pink_rows.length) (hk : 1 ≤ k) (hi : i < R) :
    (kth_call h rand_seed (initialize_pink_noise h pink R) k).bind (fun r => r.row) = some i
      ↔ k % 2 ^ (i + 1) = 2 ^ i := by
  obtain ⟨s, p, r, -, -, -, hkth, -, hshape⟩ :=
    kth_call_reached h rand_seed pink R k hR hcap hk
  have hdvd : 2 ^ (i + 1) ∣ 2 ^ R := pow_dvd_pow 2 (by omega)
  have hmm : k % 2 ^ (i + 1) = (k % 2 ^ R) % 2 ^ (i + 1) := (Nat.mod_mod_of_dvd k hdvd).symm
  rw [hkth, Option.some_bind, hmm]
  rcases hshape with ⟨h0, hrow, -⟩ | ⟨c, q, old, hcq, -, hrow, -⟩
  · rw [h0, hrow, Nat.zero_mod]
    have : 0 < 2 ^ i := by positivity
    constructor
    · intro hh; exact Option.noConfusion hh
    · intro hh; omega
  · rw [hcq, hrow, pow_two_mul_odd_mod]
    constructor
    · intro hh; exact Option.some.inj hh
    · intro hh; rw [hh]

/-- The number of assignments of row `i` in `t` consecutive blocks of
`2 ^ (i + 1)` calls. -/
theorem row_writes_blocks (h : pink_h) (rand_seed : Nat) (pink : pink_noise_t) (R i a t : Nat)
    (hR : R ≤ 30) (hcap : R ≤ pink.pink_rows.length) (hi : i < R) :
    row_writes h rand_seed (initialize_pink_noise h pink R) i a (t * 2 ^ (i + 1)) = t := by
  have hlt : 2 ^ i < 2 ^ (i + 1) := Nat.pow_lt_pow_right (by norm_num) (by omega)
  refine Eq.trans ?_ (countP_blocks (2 ^ (i + 1)) (2 ^ i) (by positivity) hlt t (a + 1))
  unfold row_writes
  apply List.countP_congr
  intro k hkm
  have hk : 1 ≤ k := by
    rw [List.mem_range'_1] at hkm
    omega
  simp only [decide_eq_true_eq]
  exact kth_call_row_iff h rand_seed pink R k i hR hcap hk hi

/-- The test `(n & 1) == 0` of the loop looks at the parity of `n`, for an `int`
of either sign. -/
theorem int_and_one_eq_emod (n : Int) : int_and n 1 = n % 2 := by
  have h1 := int_and_mask n 1 (by norm_num)
  have h2 : (((2 ^ 1 : Nat) : Int) - 1) = 1 := by norm_num
  rw [h2] at h1
  rw [h1, pow_one]
  have hc : ((to_unsigned INT_BITS n % 2 : Nat) : Int)
      = ((to_unsigned INT_BITS n : Nat) : Int) % 2 := by push_cast; rfl
  rw [hc, to_unsigned_cast]
  have hd : ((2 : Nat) : Int) ∣ ((2 ^ INT_BITS : Nat) : Int) := by
    simp only [INT_BITS]; norm_num
  exact Int.emod_emod_of_dvd n hd

theorem shiftRight_one_eq_ediv (n : Int) : n >>> (1 : Nat) = n / 2 := by
  rw [Int.shiftRight_eq_div_pow]
  norm_num

/-- The loop applied to an `int` whose absolute value is `2 ^ c * (2 * q + 1)`:
it stops after `c` passes, provided the condition may be evaluated `c + 1`
times. -/
theorem count_zeros_loop_natAbs (c : Nat) : ∀ (fuel q z : Nat) (n : Int),
    n.natAbs = 2 ^ c * (2 * q + 1) →
    (c < fuel → count_zeros_loop fuel n z = some (z + c)) ∧
    (fuel ≤ c → count_zeros_loop fuel n z = none) := by
  induction c with
  | zero =>
    intro fuel q z n hn
    simp only [pow_zero, one_mul] at hn
    have hodd : n % 2 = 1 := by omega
    constructor
    · intro hf
      obtain ⟨f, rfl⟩ : ∃ f, fuel = f + 1 := ⟨fuel - 1, by omega⟩
      rw [count_zeros_loop, int_and_one_eq_emod, hodd]
      simp
    · intro hf
      have : fuel = 0 := by omega
      subst this
      rfl
  | succ c ih =>
    intro fuel q z n hn
    have hev : 2 ^ (c + 1) * (2 * q + 1) = 2 * (2 ^ c * (2 * q + 1)) := by
      rw [pow_succ]; ring
    rw [hev] at hn
    have heven : n % 2 = 0 := by omega
    have hhalf : (n / 2).natAbs = 2 ^ c * (2 * q + 1) := by omega
    obtain ⟨ih1, ih2⟩ := ih (fuel - 1) q (z + 1) (n / 2) hhalf
    constructor
    · intro hf
      obtain ⟨f, rfl⟩ : ∃ f, fuel = f + 1 := ⟨fuel - 1, by omega⟩
      rw [count_zeros_loop, int_and_one_eq_emod, heven, shiftRight_one_eq_ediv]
      simp only [if_true]
      rw [Nat.add_sub_cancel] at ih1
      rw [ih1 (by omega)]
      congr 1
      omega
    · intro hf
      rcases Nat.eq_zero_or_pos fuel with h0 | hpos
      · subst h0; rfl
      · obtain ⟨f, rfl⟩ : ∃ f, fuel = f + 1 := ⟨fuel - 1, by omega⟩
        rw [count_zeros_loop, int_and_one_eq_emod, heven, shiftRight_one_eq_ediv]
        simp only [if_true]
        rw [Nat.add_sub_cancel] at ih2
        exact ih2 (by omega)

theorem new_index_range (p : pink_noise_t) : (new_index p).natAbs ≤ 2 ^ 31 := by
  have h := wrap_signed_range INT_BITS
    ((to_unsigned INT_BITS (wrap_signed INT_BITS (p.pink_index + 1))
      &&& to_unsigned INT_BITS p.pink_index_mask : Nat) : Int) (by simp [INT_BITS])
  have h1 : INT_BITS - 1 = 31 := rfl
  rw [h1] at h
  have h2 : new_index p = wrap_signed INT_BITS
    ((to_unsigned INT_BITS (wrap_signed INT_BITS (p.pink_index + 1))
      &&& to_unsigned INT_BITS p.pink_index_mask : Nat) : Int) := rfl
  rw [h2]
  omega

/-- Divisibility of the bit pattern of an `int` by a power of two up to `2 ^ 32`
is divisibility of its absolute value. -/
theorem pow_two_dvd_to_unsigned (n : Int) (k : Nat) (hk : k ≤ 32) :
    2 ^ k ∣ to_unsigned INT_BITS n ↔ 2 ^ k ∣ n.natAbs := by
  have hd : ((2 ^ k : Nat) : Int) ∣ ((2 ^ INT_BITS : Nat) : Int) := by
    apply Int.natCast_dvd_natCast.mpr
    exact pow_dvd_pow 2 (by simpa [INT_BITS] using hk)
  rw [← Int.natCast_dvd_natCast, to_unsigned_cast, ← Int.natCast_dvd,
    Int.dvd_iff_emod_eq_zero, Int.dvd_iff_emod_eq_zero, Int.emod_emod_of_dvd n hd]

theorem generate_of_index_zero (h : pink_h) (s : Nat) (p : pink_noise_t)
    (hz : new_index p = 0) :
    ∃ r, generate_pink_noise_sample h s p = some r ∧ r.row = none := by
  have hu : update_row h s p = some (s, { p with pink_index := 0 }, none) := by
    unfold new_index at hz
    unfold update_row
    simp only [hz]
    simp
  exact ⟨_, generate_of_update_row h s p _ _ _ hu, rfl⟩

theorem generate_of_loop (h : pink_h) (s : Nat) (p : pink_noise_t) (z : Nat)
    (hn : new_index p ≠ 0) (hloop : count_zeros_loop INT_BITS (new_index p) 0 = some z)
    (hz : z < p.pink_rows.length) :
    ∃ r, generate_pink_noise_sample h s p = some r ∧ r.row = some z := by
  have hu : update_row h s p = some ((new_random_draw h s).1,
      { p with
        pink_index := new_index p
        pink_running_sum := p.pink_running_sum - p.pink_rows[z] + (new_random_draw h s).2
        pink_rows := p.pink_rows.set z (new_random_draw h s).2 },
      some z) := by
    unfold new_index at hn hloop ⊢
    unfold update_row
    simp only [hloop, List.getElem?_eq_getElem hz]
    simp [hn]
  exact ⟨_, generate_of_update_row h s p _ _ _ hu, rfl⟩

theorem pow_two_mul_odd_unique (c q c' q' : Nat)
    (heq : 2 ^ c * (2 * q + 1) = 2 ^ c' * (2 * q' + 1)) : c = c' := by
  have h1 : (2 ^ c' * (2 * q' + 1)) % 2 ^ (c' + 1) = 2 ^ c' :=
    (pow_two_mul_odd_mod c' q' c').mpr rfl
  rw [← heq] at h1
  exact (pow_two_mul_odd_mod c q c').mp h1

theorem same_generator_initialize (h : pink_h) (pinkA pinkB : pink_noise_t) (R : Nat)
    (hcapA : R ≤ pinkA.pink_rows.length) (hcapB : R ≤ pinkB.pink_rows.length) :
    same_generator R (initialize_pink_noise h pinkA R) (initialize_pink_noise h pinkB R) := by
  refine ⟨rfl, rfl, rfl, rfl, ?_⟩
  apply List.ext_getElem?
  intro i
  show ((zero_rows R pinkA.pink_rows).take R)[i]? = ((zero_rows R pinkB.pink_rows).take R)[i]?
  rw [List.getElem?_take, List.getElem?_take]
  split
  · next hi =>
    rw [zero_rows_getElem?, zero_rows_getElem?, if_pos ⟨hi, by omega⟩, if_pos ⟨hi, by omega⟩]
  · rfl

/-- One call on two reached generators that hold the same state, from the same
seed: same seed afterwards, same returned value, same state again. -/
theorem generate_same_generator (h : pink_h) (s : Nat) (p0 q0 p q : pink_noise_t) (R n : Nat)
    (hR : R ≤ 30) (hcapP : R ≤ p0.pink_rows.length) (hcapQ : R ≤ q0.pink_rows.length)
    (hp : reached h R n p0 p) (hq : reached h R n q0 q) (hsame : same_generator R p q) :
    ∃ r1 r2, generate_pink_noise_sample h s p = some r1 ∧
      generate_pink_noise_sample h s q = some r2 ∧
      reached h R (n + 1) p0 r1.pink ∧ reached h R (n + 1) q0 r2.pink ∧
      r1.rand_seed = r2.rand_seed ∧ r1.output = r2.output ∧ r1.new_random = r2.new_random ∧
      r1.row = r2.row ∧ same_generator R r1.pink r2.pink := by
  obtain ⟨r1, hr1, hp', hs1⟩ := generate_reached h s p0 p R n hR hcapP hp
  obtain ⟨r2, hr2, hq', hs2⟩ := generate_reached h s q0 q R n hR hcapQ hq
  obtain ⟨hidx, hmask, hscal, hsum, hrows⟩ := hsame
  have hstate : r1.rand_seed = r2.rand_seed ∧ r1.new_random = r2.new_random ∧
      r1.row = r2.row ∧ same_generator R r1.pink r2.pink := by
    rcases hs1 with ⟨h0, hrow1, hpk1, hsd1, hnr1⟩ | ⟨c, q1, old, hcq, hc, hrow1, hold, hpk1, hsd1, hnr1⟩
    · rcases hs2 with ⟨-, hrow2, hpk2, hsd2, hnr2⟩ | ⟨c', q2, old', hcq', -⟩
      · refine ⟨by rw [hsd1, hsd2], by rw [hnr1, hnr2], by rw [hrow1, hrow2], ?_⟩
        rw [hpk1, hpk2]
        exact ⟨rfl, hmask, hscal, hsum, hrows⟩
      · exfalso
        have : 0 < 2 ^ c' * (2 * q2 + 1) := by positivity
        omega
    · rcases hs2 with ⟨h0, -⟩ | ⟨c', q2, old', hcq', hc', hrow2, hold', hpk2, hsd2, hnr2⟩
      · exfalso
        have : 0 < 2 ^ c * (2 * q1 + 1) := by positivity
        omega
      · have hcc : c = c' := pow_two_mul_odd_unique c q1 c' q2 (by rw [← hcq, ← hcq'])
        subst hcc
        have hoo : old = old' := by
          have h1 : (p.pink_rows.take R)[c]? = some old := by
            rw [List.getElem?_take_of_lt hc, hold]
          have h2 : (q.pink_rows.take R)[c]? = some old' := by
            rw [List.getElem?_take_of_lt hc, hold']
          rw [hrows, h2] at h1
          exact (Option.some.inj h1).symm
        subst hoo
        refine ⟨by rw [hsd1, hsd2], by rw [hnr1, hnr2], by rw [hrow1, hrow2], ?_⟩
        rw [hpk1, hpk2]
        refine ⟨rfl, hmask, hscal, ?_, ?_⟩
        · show p.pink_running_sum - old + _ = q.pink_running_sum - old + _
          rw [hsum]
        · show (p.pink_rows.set c _).take R = (q.pink_rows.set c _).take R
          rw [List.set_take, List.set_take, hrows]
  obtain ⟨h1, h2, h3, h4⟩ := hstate
  refine ⟨r1, r2, hr1, hr2, hp', hq', h1, ?_, h2, h3, h4⟩
  rw [generate_output h s p r1 hr1, generate_output h s q r2 hr2, h4.2.2.1, h4.2.2.2.1, h2]

/-- Two runs from the same seed on generators initialized with the same number
of rows stay in step. -/
theorem after_calls_same_generator (h : pink_h) (s0 : Nat) (pinkA pinkB : pink_noise_t)
    (R : Nat) (hR : R ≤ 30) (hcapA : R ≤ pinkA.pink_rows.length)
    (hcapB : R ≤ pinkB.pink_rows.length) (n : Nat) :
    ∃ s pA pB, after_calls h s0 (initialize_pink_noise h pinkA R) n = some (s, pA) ∧
      after_calls h s0 (initialize_pink_noise h pinkB R) n = some (s, pB) ∧
      reached h R n (initialize_pink_noise h pinkA R) pA ∧
      reached h R n (initialize_pink_noise h pinkB R) pB ∧
      same_generator R pA pB := by
  induction n with
  | zero =>
    exact ⟨s0, _, _, rfl, rfl, reached_initialize h pinkA R hR, reached_initialize h pinkB R hR,
      same_generator_initialize h pinkA pinkB R hcapA hcapB⟩
  | succ n ih =>
    obtain ⟨s, pA, pB, hA, hB, hrA, hrB, hsame⟩ := ih
    obtain ⟨r1, r2, hr1, hr2, hrA', hrB', hseed, -, -, -, hsame'⟩ :=
      generate_same_generator h s _ _ pA pB R n hR
        (by rw [initialize_length]; exact hcapA) (by rw [initialize_length]; exact hcapB)
        hrA hrB hsame
    refine ⟨r1.rand_seed, r1.pink, r2.pink, ?_, ?_, hrA', hrB', hsame'⟩
    · rw [after_calls, hA]
      simp only [hr1]
    · rw [after_calls, hB]
      simp only [hr2, hseed]

theorem kth_call_same_generator (h : pink_h) (s0 : Nat) (pinkA pinkB : pink_noise_t)
    (R : Nat) (hR : R ≤ 30) (hcapA : R ≤ pinkA.pink_rows.length)
    (hcapB : R ≤ pinkB.pink_rows.length) (k : Nat) :
    ∃ r1 r2, kth_call h s0 (initialize_pink_noise h pinkA R) (k + 1) = some r1 ∧
      kth_call h s0 (initialize_pink_noise h pinkB R) (k + 1) = some r2 ∧
      r1.output = r2.output := by
  obtain ⟨s, pA, pB, hA, hB, hrA, hrB, hsame⟩ :=
    after_calls_same_generator h s0 pinkA pinkB R hR hcapA hcapB k
  obtain ⟨r1, r2, hr1, hr2, -, -, -, hout, -⟩ :=
    generate_same_generator h s _ _ pA pB R k hR
      (by rw [initialize_length]; exact hcapA) (by rw [initialize_length]; exact hcapB)
      hrA hrB hsame
  refine ⟨r1, r2, ?_, ?_, hout⟩
  · rw [kth_call, Nat.add_sub_cancel, hA]
    simp only [hr1]
  · rw [kth_call, Nat.add_sub_cancel, hB]
    simp only [hr2]

/-- Calls on a generator that satisfies the invariant complete and keep it. -/
theorem after_calls_from_reached (h : pink_h) (p0 p : pink_noise_t) (R n : Nat)
    (hR : R ≤ 30) (hcap : R ≤ p0.pink_rows.length) (hinv : reached h R n p0 p)
    (s : Nat) (m : Nat) :
    ∃ s1 p1, after_calls h s p m = some (s1, p1) ∧ reached h R (n + m) p0 p1 := by
  induction m with
  | zero => exact ⟨s, p, rfl, hinv⟩
  | succ m ih =>
    obtain ⟨s1, p1, hs1, hinv1⟩ := ih
    obtain ⟨r, hr, hinv2, -⟩ := generate_reached h s1 p0 p1 R (n + m) hR hcap hinv1
    refine ⟨r.rand_seed, r.pink, ?_, hinv2⟩
    rw [after_calls, hs1]
    simp only [hr]

/-- The row assigned and the index stored by a call depend only on how many
calls the generator has seen: two calls on generators that are both `n` calls
away from `initialize_pink_noise` with `R` rows agree on them, whatever the
seeds and the contents of the rows. -/
theorem reached_row_unique (h : pink_h) (s s' : Nat) (p0 p q0 q : pink_noise_t) (R n : Nat)
    (r r' : sample_result) (hR : R ≤ 30)
    (hcapP : R ≤ p0.pink_rows.length) (hcapQ : R ≤ q0.pink_rows.length)
    (hp : reached h R n p0 p) (hq : reached h R n q0 q)
    (hr : generate_pink_noise_sample h s p = some r)
    (hr' : generate_pink_noise_sample h s' q = some r') :
    r.row = r'.row ∧ r.pink.pink_index = r'.pink.pink_index := by
  obtain ⟨r1, hr1, hp', hs1⟩ := generate_reached h s p0 p R n hR hcapP hp
  obtain ⟨r2, hr2, hq', hs2⟩ := generate_reached h s' q0 q R n hR hcapQ hq
  rw [hr] at hr1
  rw [hr'] at hr2
  have e1 := Option.some.inj hr1
  have e2 := Option.some.inj hr2
  subst e1 e2
  refine ⟨?_, by rw [hp'.index, hq'.index]⟩
  rcases hs1 with ⟨h0, hrow1, -⟩ | ⟨c, q1, old, hcq, -, hrow1, -⟩
  · rcases hs2 with ⟨-, hrow2, -⟩ | ⟨c', q2, old', hcq', -⟩
    · rw [hrow1, hrow2]
    · exfalso
      have : 0 < 2 ^ c' * (2 * q2 + 1) := by positivity
      omega
  · rcases hs2 with ⟨h0, -⟩ | ⟨c', q2, old', hcq', -, hrow2, -⟩
    · exfalso
      have : 0 < 2 ^ c * (2 * q1 + 1) := by positivity
      omega
    · have hcc : c = c' := pow_two_mul_odd_unique c q1 c' q2 (by rw [← hcq, ← hcq'])
      rw [hrow1, hrow2, hcc]

/-- An interleaved run completes, and its `k`-th call on `B` assigns the row and
stores the index of any call on a generator that is as many calls away from
`initialize_pink_noise`. -/
theorem interleaved_reached (h : pink_h) (A0 B0 : pink_noise_t) (RA RB : Nat)
    (hRA : RA ≤ 30) (hRB : RB ≤ 30)
    (hcapA : RA ≤ A0.pink_rows.length) (hcapB : RB ≤ B0.pink_rows.length)
    (sched : List Nat) : ∀ (seed : Nat) (A B : pink_noise_t) (nA nB : Nat),
    reached h RA nA A0 A → reached h RB nB B0 B →
    ∃ rs, interleaved h sched seed A B = some rs ∧ rs.length = sched.length ∧
      ∀ k r, rs[k]? = some r → ∀ s' q0 q r', RB ≤ q0.pink_rows.length →
        reached h RB (nB + k) q0 q → generate_pink_noise_sample h s' q = some r' →
        r.row = r'.row ∧ r.pink.pink_index = r'.pink.pink_index := by
  induction sched with
  | nil =>
    intro seed A B nA nB _ _
    refine ⟨[], rfl, rfl, ?_⟩
    intro k r hk
    simp at hk
  | cons m rest ih =>
    intro seed A B nA nB hA hB
    obtain ⟨s1, A1, hs1, hA1⟩ := after_calls_from_reached h A0 A RA nA hRA hcapA hA seed m
    obtain ⟨r, hr, hB1, -⟩ := generate_reached h s1 B0 B RB nB hRB hcapB hB
    obtain ⟨rs, hrs, hlen, hall⟩ := ih r.rand_seed A1 r.pink (nA + m) (nB + 1) hA1 hB1
    refine ⟨r :: rs, ?_, by simp [hlen], ?_⟩
    · rw [interleaved, hs1]
      simp only [hr, hrs]
    · intro k rk hk s' q0 q r' hcapq hq hr'
      cases k with
      | zero =>
        simp only [List.getElem?_cons_zero] at hk
        have := Option.some.inj hk
        subst this
        exact reached_row_unique h s1 s' B0 B q0 q RB nB _ r' hRB hcapB hcapq hB hq hr hr'
      | succ k =>
        simp only [List.getElem?_cons_succ] at hk
        have hq' : reached h RB (nB + 1 + k) q0 q := by
          have : nB + 1 + k = nB + (k + 1) := by omega
          rw [this]; exact hq
        exact hall k rk hk s' q0 q r' hcapq hq' hr'

/-- On a generator that satisfies the invariant the reference generator and
`generate_pink_noise_sample` do the same. -/
theorem naive_resum_sample_eq (h : pink_h) (s : Nat) (p0 p : pink_noise_t) (R n : Nat)
    (hR : R ≤ 30) (hcap : R ≤ p0.pink_rows.length) (hinv : reached h R n p0 p) :
    naive_resum_sample h R s p = generate_pink_noise_sample h s p := by
  have hidx : int_and (wrap_signed INT_BITS (p.pink_index + 1)) p.pink_index_mask
      = (next_index p R : Int) := by
    rw [hinv.mask, int_and_mask _ R (by omega)]; rfl
  have hlt := next_index_lt p R
  have hle : 2 ^ R ≤ 2 ^ 30 := Nat.pow_le_pow_right (by norm_num) hR
  rcases update_row_eq h s p R hR hinv.mask (by rw [hinv.length]; exact hcap) with
    ⟨hj, hu⟩ | ⟨c, q, old, hcq, hcR, hold, hu⟩
  · rw [generate_of_update_row h s p _ _ _ hu]
    unfold naive_resum_sample
    simp only [hidx, hj]
    have hs : p.pink_running_sum = (p.pink_rows.take R).sum := hinv.sum
    simp [← hs]
  · rw [generate_of_update_row h s p _ _ _ hu]
    have hclen : c < p.pink_rows.length := by rw [hinv.length]; omega
    have hne : ((next_index p R : Nat) : Int) ≠ 0 := by
      have : 0 < 2 ^ c * (2 * q + 1) := by positivity
      rw [hcq]; exact_mod_cast this.ne'
    have hloop : count_zeros_loop INT_BITS ((next_index p R : Nat) : Int) 0 = some c := by
      have := count_zeros_loop_eq c INT_BITS q 0 (by simp only [INT_BITS]; omega)
        (by rw [← hcq]; omega)
      rw [← hcq] at this
      simpa using this
    have hsum : ((p.pink_rows.set c (new_random_draw h s).2).take R).sum
        = p.pink_running_sum - old + (new_random_draw h s).2 := by
      rw [rows_sum_set R c _ old p.pink_rows hcR hold, hinv.sum]; rfl
    unfold naive_resum_sample
    simp only [hidx, hloop, hsum]
    simp [hne, hclen]

theorem naive_after_calls_eq (h : pink_h) (rand_seed : Nat) (pink : pink_noise_t) (R : Nat)
    (hR : R ≤ 30) (hcap : R ≤ pink.pink_rows.length) (n : Nat) :
    naive_after_calls h R rand_seed (initialize_pink_noise h pink R) n
      = after_calls h rand_seed (initialize_pink_noise h pink R) n := by
  induction n with
  | zero => rfl
  | succ n ih =>
    obtain ⟨s, p, hs, hinv⟩ := after_calls_reached h rand_seed pink R hR hcap n
    rw [naive_after_calls, after_calls, ih, hs]
    simp only []
    rw [naive_resum_sample_eq h s _ p R n hR (by rw [initialize_length]; exact hcap) hinv]

/-- What a completed call has drawn, read off from the definition. -/
theorem generate_draws (h : pink_h) (s : Nat) (p : pink_noise_t) (r : sample_result)
    (hr : generate_pink_noise_sample h s p = some r) :
    (new_index p ≠ 0 → ∃ z, z < p.pink_rows.length ∧ r.row = some z ∧
      r.pink.pink_rows = p.pink_rows.set z (new_random_draw h s).2 ∧
      r.new_random = (new_random_draw h (new_random_draw h s).1).2 ∧
      r.rand_seed = (new_random_draw h (new_random_draw h s).1).1) ∧
    (new_index p = 0 → r.row = none ∧ r.pink.pink_rows = p.pink_rows ∧
      r.new_random = (new_random_draw h s).2 ∧ r.rand_seed = (new_random_draw h s).1) := by
  constructor
  · intro hn
    cases hloop : count_zeros_loop INT_BITS (new_index p) 0 with
    | none =>
      exfalso
      unfold generate_pink_noise_sample update_row at hr
      unfold new_index at hn hloop
      simp [hn, hloop] at hr
    | some z =>
      by_cases hz : z < p.pink_rows.length
      · obtain ⟨r', hr', -⟩ := generate_of_loop h s p z hn hloop hz
        have hu : update_row h s p = some ((new_random_draw h s).1,
            { p with
              pink_index := new_index p
              pink_running_sum := p.pink_running_sum - p.pink_rows[z] + (new_random_draw h s).2
              pink_rows := p.pink_rows.set z (new_random_draw h s).2 },
            some z) := by
          unfold new_index at hn hloop ⊢
          unfold update_row
          simp only [hloop, List.getElem?_eq_getElem hz]
          simp [hn]
        rw [generate_of_update_row h s p _ _ _ hu] at hr
        have := Option.some.inj hr
        subst this
        exact ⟨z, hz, rfl, rfl, rfl, rfl⟩
      · exfalso
        unfold generate_pink_noise_sample update_row at hr
        unfold new_index at hn hloop
        have hnone : p.pink_rows[z]? = none := List.getElem?_eq_none (by omega)
        simp [hn, hloop, hnone] at hr
  · intro hz
    have hu : update_row h s p = some (s, { p with pink_index := 0 }, none) := by
      unfold new_index at hz
      unfold update_row
      simp only [hz]
      simp
    rw [generate_of_update_row h s p _ _ _ hu] at hr
    have := Option.some.inj hr
    subst this
    exact ⟨rfl, rfl, rfl, rfl⟩

/-- The assignments of a row in two adjacent windows of calls add up. -/
theorem row_writes_add (h : pink_h) (rand_seed : Nat) (pink : pink_noise_t)
    (i a l1 l2 : Nat) :
    row_writes h rand_seed pink i a (l1 + l2)
      = row_writes h rand_seed pink i a l1 + row_writes h rand_seed pink i (a + l1) l2 := by
  unfold row_writes
  have h1 : a + l1 + 1 = a + 1 + l1 := by omega
  have h2 : l1 + l2 = l2 + l1 := by omega
  rw [h1, h2, ← List.range'_append_1, List.countP_append]

/-- The local `sum` of a completed call. -/
theorem generate_sum (h : pink_h) (s : Nat) (p : pink_noise_t) (r : sample_result)
    (hr : generate_pink_noise_sample h s p = some r) :
    r.sum = r.pink.pink_running_sum + r.new_random := by
  unfold generate_pink_noise_sample at hr
  cases hu : update_row h s p with
  | none => rw [hu] at hr; exact Option.noConfusion hr
  | some t =>
    obtain ⟨s1, p1, row⟩ := t
    rw [hu] at hr
    have := Option.some.inj hr
    rw [← this]

/-- Thirty-one values of `PINK_RANDOM_BITS` bits add up to a `long` when `long`
has five bits more. -/
theorem rows_fit_long (h : pink_h) (R : Nat) (x : Int) (hR : R ≤ 30)
    (hB1 : 1 ≤ h.PINK_RANDOM_BITS) (hBW : h.PINK_RANDOM_BITS + 5 ≤ h.LONG_BITS)
    (hlo : ((R : Int) + 1) * -((2 ^ (h.PINK_RANDOM_BITS - 1) : Nat) : Int) ≤ x)
    (hhi : x ≤ ((R : Int) + 1) * ((2 ^ (h.PINK_RANDOM_BITS - 1) : Nat) : Int)) :
    fits_long h x := by
  have hsplit : 2 ^ (h.LONG_BITS - 1)
      = 2 ^ (h.LONG_BITS - 1 - (h.PINK_RANDOM_BITS - 1)) * 2 ^ (h.PINK_RANDOM_BITS - 1) := by
    rw [← pow_add]; congr 1; omega
  have h32 : 2 ^ 5 ≤ 2 ^ (h.LONG_BITS - 1 - (h.PINK_RANDOM_BITS - 1)) :=
    Nat.pow_le_pow_right (by norm_num) (by omega)
  have hM : 0 < 2 ^ (h.PINK_RANDOM_BITS - 1) := by positivity
  have hbig : 32 * 2 ^ (h.PINK_RANDOM_BITS - 1) ≤ 2 ^ (h.LONG_BITS - 1) := by
    rw [hsplit]
    exact Nat.mul_le_mul_right _ (by simpa using h32)
  have hbigZ : (32 : Int) * ((2 ^ (h.PINK_RANDOM_BITS - 1) : Nat) : Int)
      ≤ ((2 ^ (h.LONG_BITS - 1) : Nat) : Int) := by exact_mod_cast hbig
  have hMZ : (0 : Int) < ((2 ^ (h.PINK_RANDOM_BITS - 1) : Nat) : Int) := by exact_mod_cast hM
  have hRZ : (R : Int) + 1 ≤ 31 := by omega
  have hprod : ((R : Int) + 1) * ((2 ^ (h.PINK_RANDOM_BITS - 1) : Nat) : Int)
      ≤ 31 * ((2 ^ (h.PINK_RANDOM_BITS - 1) : Nat) : Int) :=
    mul_le_mul_of_nonneg_right hRZ hMZ.le
  constructor
  · linarith
  · linarith

/-- The expression `((long)generate_random_number()) >> PINK_RANDOM_SHIFT`
written out: the LCG step on `unsigned long`, the cast to `long`, the shift. -/
theorem new_random_draw_eq (h : pink_h) (s : Nat) :
    new_random_draw h s
      = ((s * 196314165 + 907633515) % 2 ^ h.LONG_BITS,
         wrap_signed h.LONG_BITS (((s * 196314165 + 907633515) % 2 ^ h.LONG_BITS : Nat) : Int)
           >>> h.PINK_RANDOM_SHIFT) := rfl

/-- What call `k` after `initialize_pink_noise` does to row `i`: when
`k ≡ 2 ^ i` modulo `2 ^ (i + 1)` the row is replaced by the draw made from the
seed before the call, and otherwise it keeps its value. -/
theorem kth_call_row_effect (h : pink_h) (rand_seed : Nat) (pink : pink_noise_t)
    (R k i : Nat) (hR : R ≤ 30) (hcap : R ≤ pink.pink_rows.length) (hk : 1 ≤ k) (hi : i < R) :
    ∃ s p r, after_calls h rand_seed (initialize_pink_noise h pink R) (k - 1) = some (s, p) ∧
      generate_pink_noise_sample h s p = some r ∧
      after_calls h rand_seed (initialize_pink_noise h pink R) k = some (r.rand_seed, r.pink) ∧
      i < p.pink_rows.length ∧
      (k % 2 ^ (i + 1) = 2 ^ i → r.row = some i ∧
        r.pink.pink_rows = p.pink_rows.set i (new_random_draw h s).2 ∧
        r.pink.pink_rows[i]? = some (new_random_draw h s).2) ∧
      (k % 2 ^ (i + 1) ≠ 2 ^ i → r.row ≠ some i ∧ r.pink.pink_rows[i]? = p.pink_rows[i]?) := by
  obtain ⟨s, p, r, hs, hinv, hgen, -, -, hshape⟩ :=
    kth_call_reached h rand_seed pink R k hR hcap hk
  have hlen : i < p.pink_rows.length := by
    rw [hinv.length, initialize_length]; omega
  have hdvd : 2 ^ (i + 1) ∣ 2 ^ R := pow_dvd_pow 2 (by omega)
  have hmm : k % 2 ^ (i + 1) = (k % 2 ^ R) % 2 ^ (i + 1) := (Nat.mod_mod_of_dvd k hdvd).symm
  have hpos : 0 < 2 ^ i := by positivity
  have hafter : after_calls h rand_seed (initialize_pink_noise h pink R) k
      = some (r.rand_seed, r.pink) := by
    obtain ⟨k', rfl⟩ : ∃ k', k = k' + 1 := ⟨k - 1, by omega⟩
    rw [Nat.add_sub_cancel] at hs
    rw [after_calls, hs]
    simp only [hgen]
  refine ⟨s, p, r, hs, hgen, hafter, hlen, ?_, ?_⟩
  · intro hmod
    rcases hshape with ⟨h0, -⟩ | ⟨c, q, old, hcq, -, hrow, -, hpink, -⟩
    · rw [hmm, h0, Nat.zero_mod] at hmod; omega
    · rw [hmm, hcq, pow_two_mul_odd_mod] at hmod
      have hci : c = i := hmod
      subst hci
      refine ⟨hrow, ?_, ?_⟩
      · rw [hpink]
      · rw [hpink]
        simp only
        rw [List.getElem?_set_self hlen]
  · intro hmod
    rcases hshape with ⟨-, hrow, hpink, -⟩ | ⟨c, q, old, hcq, -, hrow, -, hpink, -⟩
    · refine ⟨by rw [hrow]; exact Option.noConfusion, ?_⟩
      rw [hpink]
    · have hci : c ≠ i := by
        intro hci
        subst hci
        apply hmod
        rw [hmm, hcq, pow_two_mul_odd_mod]
      refine ⟨by rw [hrow]; exact fun hh => hci (Option.some.inj hh), ?_⟩
      rw [hpink]
      simp only
      rw [List.getElem?_set_ne hci]

theorem overwrites_row_iff (h : pink_h) (rand_seed : Nat) (pink : pink_noise_t)
    (R k i : Nat) (hR : R ≤ 30) (hcap : R ≤ pink.pink_rows.length) (hk : 1 ≤ k) (hi : i < R) :
    overwrites_row h rand_seed (initialize_pink_noise h pink R) i k = true
      ↔ k % 2 ^ (i + 1) = 2 ^ i := by
  obtain ⟨s, p, r, hs, hgen, -, hlen, hyes, hno⟩ :=
    kth_call_row_effect h rand_seed pink R k i hR hcap hk hi
  unfold overwrites_row
  rw [hs]
  simp only [hgen, decide_eq_true_eq]
  constructor
  · intro hw
    by_contra hmod
    exact (hno hmod).1 hw.1
  · intro hmod
    exact ⟨(hyes hmod).1, hlen, (hyes hmod).2.1⟩

/-- The number of calls that overwrite row `i` in `t` consecutive blocks of
`2 ^ (i + 1)` calls. -/
theorem row_overwrites_blocks (h : pink_h) (rand_seed : Nat) (pink : pink_noise_t)
    (R i a t : Nat) (hR : R ≤ 30) (hcap : R ≤ pink.pink_rows.length) (hi : i < R) :
    row_overwrites h rand_seed (initialize_pink_noise h pink R) i a (t * 2 ^ (i + 1)) = t := by
  have hlt : 2 ^ i < 2 ^ (i + 1) := Nat.pow_lt_pow_right (by norm_num) (by omega)
  refine Eq.trans ?_ (countP_blocks (2 ^ (i + 1)) (2 ^ i) (by positivity) hlt t (a + 1))
  unfold row_overwrites
  apply List.countP_congr
  intro k hkm
  have hk : 1 ≤ k := by
    rw [List.mem_range'_1] at hkm
    omega
  simp only [decide_eq_true_eq]
  exact overwrites_row_iff h rand_seed pink R k i hR hcap hk hi

theorem row_overwrites_add (h : pink_h) (rand_seed : Nat) (pink : pink_noise_t)
    (i a m n : Nat) :
    row_overwrites h rand_seed pink i a (m + n)
      = row_overwrites h rand_seed pink i a m + row_overwrites h rand_seed pink i (a + m) n := by
  unfold row_overwrites
  have h1 : a + m + 1 = a + 1 + m := by omega
  have h2 : m + n = n + m := by omega
  rw [h1, h2, ← List.range'_append_1, List.countP_append]

/-- The rounding `float_round` on sample values: a value with 24 significant
bits is kept, `2^24 + 1` goes to the even neighbour `2^24` and `2^24 + 3` to
`2^24 + 4`, `1/10` goes to `13421773 / 2^27`, half of the least positive value
goes to 0, the largest finite value `2^128 - 2^104` is kept and the midpoint
above it has no finite rounding. -/
theorem float_round_examples :
    float_round 16777215 = some 16777215 ∧
    float_round 16777217 = some 16777216 ∧
    float_round 16777219 = some 16777220 ∧
    float_round (-16777219) = some (-16777220) ∧
    float_round (1 / 10) = some (13421773 / 134217728) ∧
    float_round (pow2 (-149)) = some (pow2 (-149)) ∧
    float_round (pow2 (-150)) = some 0 ∧
    float_round (3 * pow2 (-150)) = some (pow2 (-148)) ∧
    float_round (pow2 128 - pow2 104) = some (pow2 128 - pow2 104) ∧
    float_round (pow2 128 - pow2 103) = none := by
  decide!

/-- For the real constants (`PINK_RANDOM_BITS = 24`) and every number of rows
up to 30, `pmax` is a value of `float`, so that `1.0F / pmax` is the rounding of
the exact quotient that the model keeps in `pink_scalar`. -/
theorem pmax_is_float :
    (List.range 31).all
      (fun R => decide (float_round (pmax pink_h_long32 R : Rat)
        = some (pmax pink_h_long32 R : Rat))) = true := by
  decide!

/-! ## The claims -/

/-- C1 (running-sum invariant): for `R ≤ 30` rows (so for `1 ≤ R ≤ 30`), every
seed and every `n`, the `n` calls of `generate_pink_noise_sample` that follow
`initialize_pink_noise` all complete, and afterwards `pink_running_sum` is the
exact sum of `pink_rows[0..R-1]`. -/
theorem running_sum_invariant (h : pink_h) (rand_seed : Nat) (pink : pink_noise_t) (R n : Nat)
    (hR30 : R ≤ 30) (hcap : R ≤ pink.pink_rows.length) :
    ∃ s p, after_calls h rand_seed (initialize_pink_noise h pink R) n = some (s, p) ∧
      p.pink_running_sum = rows_sum R p := by
  obtain ⟨s, p, hs, hinv⟩ := after_calls_reached h rand_seed pink R hR30 hcap n
  exact ⟨s, p, hs, hinv.sum⟩

/-- C1 with four rows, a 32-bit `long`, the initial seed 22222 and 1000 calls. -/
theorem running_sum_invariant_witness :
    (4 ≤ 30 ∧ 4 ≤ pink_stale.pink_rows.length) ∧
    ∃ s p, after_calls pink_h_long32 22222
        (initialize_pink_noise pink_h_long32 pink_stale 4) 1000 = some (s, p) ∧
      p.pink_running_sum = rows_sum 4 p :=
  ⟨⟨by decide, by decide⟩,
   running_sum_invariant pink_h_long32 22222 pink_stale 4 1000 (by decide) (by decide)⟩

/-- C2 (row selection): for `R ≤ 30` (so for `1 ≤ R ≤ 30`) and `k ≥ 1`, the
`k`-th call after `initialize_pink_noise` completes; with `j = k mod 2^R`, when
`j ≠ 0` it
assigns the row whose index `z` is the number of trailing zero bits of `j`
(`2^z` divides `j` and `2^(z+1)` does not), the new rows are the old ones with
row `z` replaced by the draw, and every other row is unchanged; when `j = 0` no
row is assigned and the rows and `pink_running_sum` are unchanged.  With
`R = 4`, calls 1 and 5 assign row 0 and call 2 assigns row 1. -/
theorem row_selection (h : pink_h) (rand_seed : Nat) (pink : pink_noise_t) (R k : Nat)
    (hR30 : R ≤ 30) (hcap : R ≤ pink.pink_rows.length) (hk : 1 ≤ k) :
    ∃ s p r, after_calls h rand_seed (initialize_pink_noise h pink R) (k - 1) = some (s, p) ∧
      kth_call h rand_seed (initialize_pink_noise h pink R) k = some r ∧
      (k % 2 ^ R ≠ 0 → ∃ z, 2 ^ z ∣ k % 2 ^ R ∧ ¬ 2 ^ (z + 1) ∣ k % 2 ^ R ∧ r.row = some z ∧
        r.pink.pink_rows = p.pink_rows.set z (new_random_draw h s).2 ∧
        ∀ i, i ≠ z → r.pink.pink_rows[i]? = p.pink_rows[i]?) ∧
      (k % 2 ^ R = 0 → r.row = none ∧ r.pink.pink_rows = p.pink_rows ∧
        r.pink.pink_running_sum = p.pink_running_sum) ∧
      (R = 4 → (k = 1 ∨ k = 5 → r.row = some 0) ∧ (k = 2 → r.row = some 1)) := by
  obtain ⟨s, p, r, hs, -, -, hkth, -, hshape⟩ :=
    kth_call_reached h rand_seed pink R k hR30 hcap hk
  refine ⟨s, p, r, hs, hkth, ?_, ?_, ?_⟩
  · intro hj
    rcases hshape with ⟨h0, -⟩ | ⟨c, q, old, hcq, -, hrow, -, hpink, -, -⟩
    · exact absurd h0 hj
    · have hctz := pow_two_mul_odd_ctz c q
      rw [← hcq] at hctz
      refine ⟨c, hctz.1, hctz.2, hrow, by rw [hpink], ?_⟩
      intro i hi
      rw [hpink]
      exact List.getElem?_set_ne (Ne.symm hi)
  · intro hj
    rcases hshape with ⟨-, hrow, hpink, -, -⟩ | ⟨c, q, old, hcq, -, -, -, -, -, -⟩
    · exact ⟨hrow, by rw [hpink], by rw [hpink]⟩
    · exfalso
      have : 0 < 2 ^ c * (2 * q + 1) := by positivity
      omega
  · intro hR4
    subst hR4
    rcases hshape with ⟨h0, -⟩ | ⟨c, q, old, hcq, hc, hrow, -, -, -, -⟩
    · constructor
      · rintro (rfl | rfl) <;> simp at h0
      · rintro rfl; simp at h0
    · constructor
      · rintro (rfl | rfl)
        · have : c = 0 := by
            interval_cases c <;> simp at hcq <;> omega
          rw [hrow, this]
        · have : c = 0 := by
            interval_cases c <;> simp at hcq <;> omega
          rw [hrow, this]
      · rintro rfl
        have : c = 1 := by
          interval_cases c <;> simp at hcq <;> omega
        rw [hrow, this]

/-- C2 with four rows at the fifth call. -/
theorem row_selection_witness :
    (4 ≤ 30 ∧ 4 ≤ pink_stale.pink_rows.length ∧ 1 ≤ 5) ∧
    ∃ s p r, after_calls pink_h_long32 22222
        (initialize_pink_noise pink_h_long32 pink_stale 4) (5 - 1) = some (s, p) ∧
      kth_call pink_h_long32 22222 (initialize_pink_noise pink_h_long32 pink_stale 4) 5
        = some r ∧
      (5 % 2 ^ 4 ≠ 0 → ∃ z, 2 ^ z ∣ 5 % 2 ^ 4 ∧ ¬ 2 ^ (z + 1) ∣ 5 % 2 ^ 4 ∧ r.row = some z ∧
        r.pink.pink_rows = p.pink_rows.set z (new_random_draw pink_h_long32 s).2 ∧
        ∀ i, i ≠ z → r.pink.pink_rows[i]? = p.pink_rows[i]?) ∧
      (5 % 2 ^ 4 = 0 → r.row = none ∧ r.pink.pink_rows = p.pink_rows ∧
        r.pink.pink_running_sum = p.pink_running_sum) ∧
      (4 = 4 → (5 = 1 ∨ 5 = 5 → r.row = some 0) ∧ (5 = 2 → r.row = some 1)) :=
  ⟨⟨by decide, by decide, by decide⟩,
   row_selection pink_h_long32 22222 pink_stale 4 5 (by decide) (by decide) (by decide)⟩

/-- C3 (row update frequency): for `R ≤ 30` and a row `i < R` (so `1 ≤ R`),
among any `2^(i+1)` consecutive calls of `generate_pink_noise_sample` after
`initialize_pink_noise` (the calls numbered `a + 1` to `a + 2^(i+1)`) exactly
one overwrites row `i`, and among the first `2^(R+1)` calls exactly
`2^(R+1) / 2^(i+1)` do.  The calls counted are those that leave the array of
rows with entry `i` replaced by a fresh draw: call `k` does so when
`k ≡ 2^i (mod 2^(i+1))`, storing the draw
`((long)(seed * 196314165 + 907633515)) >> PINK_RANDOM_SHIFT` made from the
seed before the call, and every other call leaves row `i` as it was. -/
theorem row_update_frequency (h : pink_h) (rand_seed : Nat) (pink : pink_noise_t)
    (R i a : Nat) (hR30 : R ≤ 30) (hcap : R ≤ pink.pink_rows.length) (hi : i < R) :
    row_writes h rand_seed (initialize_pink_noise h pink R) i a (2 ^ (i + 1)) = 1 ∧
    row_writes h rand_seed (initialize_pink_noise h pink R) i 0 (2 ^ (R + 1))
      = 2 ^ (R + 1) / 2 ^ (i + 1) ∧
    row_overwrites h rand_seed (initialize_pink_noise h pink R) i a (2 ^ (i + 1)) = 1 ∧
    row_overwrites h rand_seed (initialize_pink_noise h pink R) i 0 (2 ^ (R + 1))
      = 2 ^ (R + 1) / 2 ^ (i + 1) ∧
    ∀ k, 1 ≤ k →
      ∃ s p r, after_calls h rand_seed (initialize_pink_noise h pink R) (k - 1) = some (s, p) ∧
        generate_pink_noise_sample h s p = some r ∧
        after_calls h rand_seed (initialize_pink_noise h pink R) k
          = some (r.rand_seed, r.pink) ∧
        (k % 2 ^ (i + 1) = 2 ^ i →
          overwrites_row h rand_seed (initialize_pink_noise h pink R) i k = true ∧
          r.row = some i ∧
          r.pink.pink_rows = p.pink_rows.set i
            (wrap_signed h.LONG_BITS
              (((s * 196314165 + 907633515) % 2 ^ h.LONG_BITS : Nat) : Int)
              >>> h.PINK_RANDOM_SHIFT) ∧
          r.pink.pink_rows[i]? = some
            (wrap_signed h.LONG_BITS
              (((s * 196314165 + 907633515) % 2 ^ h.LONG_BITS : Nat) : Int)
              >>> h.PINK_RANDOM_SHIFT)) ∧
        (k % 2 ^ (i + 1) ≠ 2 ^ i →
          overwrites_row h rand_seed (initialize_pink_noise h pink R) i k = false ∧
          r.row ≠ some i ∧ r.pink.pink_rows[i]? = p.pink_rows[i]?) := by
  have hsplit : 2 ^ (R + 1) = 2 ^ (R - i) * 2 ^ (i + 1) := by
    rw [← pow_add]; congr 1; omega
  have hdiv : 2 ^ (R + 1) / 2 ^ (i + 1) = 2 ^ (R - i) := by
    rw [hsplit, Nat.mul_div_cancel _ (by positivity)]
  refine ⟨?_, ?_, ?_, ?_, ?_⟩
  · have := row_writes_blocks h rand_seed pink R i a 1 hR30 hcap hi
    rwa [one_mul] at this
  · rw [hdiv, hsplit]
    exact row_writes_blocks h rand_seed pink R i 0 (2 ^ (R - i)) hR30 hcap hi
  · have := row_overwrites_blocks h rand_seed pink R i a 1 hR30 hcap hi
    rwa [one_mul] at this
  · rw [hdiv, hsplit]
    exact row_overwrites_blocks h rand_seed pink R i 0 (2 ^ (R - i)) hR30 hcap hi
  · intro k hk
    obtain ⟨s, p, r, hs, hgen, hafter, -, hyes, hno⟩ :=
      kth_call_row_effect h rand_seed pink R k i hR30 hcap hk hi
    have hiff := overwrites_row_iff h rand_seed pink R k i hR30 hcap hk hi
    refine ⟨s, p, r, hs, hgen, hafter, ?_, ?_⟩
    · intro hmod
      exact ⟨hiff.mpr hmod, (hyes hmod).1, (hyes hmod).2.1, (hyes hmod).2.2⟩
    · intro hmod
      refine ⟨?_, (hno hmod).1, (hno hmod).2⟩
      cases hov : overwrites_row h rand_seed (initialize_pink_noise h pink R) i k with
      | false => rfl
      | true => exact absurd (hiff.mp hov) hmod

/-- C3 with three rows, for row 1: the calls 6 to 9, and the first 16 calls. -/
theorem row_update_frequency_witness :
    (3 ≤ 30 ∧ 3 ≤ pink_stale.pink_rows.length ∧ 1 < 3) ∧
    (row_writes pink_h_long32 22222 (initialize_pink_noise pink_h_long32 pink_stale 3) 1 5
        (2 ^ (1 + 1)) = 1 ∧
    row_writes pink_h_long32 22222 (initialize_pink_noise pink_h_long32 pink_stale 3) 1 0
        (2 ^ (3 + 1)) = 2 ^ (3 + 1) / 2 ^ (1 + 1) ∧
    row_overwrites pink_h_long32 22222 (initialize_pink_noise pink_h_long32 pink_stale 3) 1 5
        (2 ^ (1 + 1)) = 1 ∧
    row_overwrites pink_h_long32 22222 (initialize_pink_noise pink_h_long32 pink_stale 3) 1 0
        (2 ^ (3 + 1)) = 2 ^ (3 + 1) / 2 ^ (1 + 1) ∧
    ∀ k, 1 ≤ k →
      ∃ s p r, after_calls pink_h_long32 22222
          (initialize_pink_noise pink_h_long32 pink_stale 3) (k - 1) = some (s, p) ∧
        generate_pink_noise_sample pink_h_long32 s p = some r ∧
        after_calls pink_h_long32 22222 (initialize_pink_noise pink_h_long32 pink_stale 3) k
          = some (r.rand_seed, r.pink) ∧
        (k % 2 ^ (1 + 1) = 2 ^ 1 →
          overwrites_row pink_h_long32 22222
            (initialize_pink_noise pink_h_long32 pink_stale 3) 1 k = true ∧
          r.row = some 1 ∧
          r.pink.pink_rows = p.pink_rows.set 1
            (wrap_signed pink_h_long32.LONG_BITS
              (((s * 196314165 + 907633515) % 2 ^ pink_h_long32.LONG_BITS : Nat) : Int)
              >>> pink_h_long32.PINK_RANDOM_SHIFT) ∧
          r.pink.pink_rows[1]? = some
            (wrap_signed pink_h_long32.LONG_BITS
              (((s * 196314165 + 907633515) % 2 ^ pink_h_long32.LONG_BITS : Nat) : Int)
              >>> pink_h_long32.PINK_RANDOM_SHIFT)) ∧
        (k % 2 ^ (1 + 1) ≠ 2 ^ 1 →
          overwrites_row pink_h_long32 22222
            (initialize_pink_noise pink_h_long32 pink_stale 3) 1 k = false ∧
          r.row ≠ some 1 ∧ r.pink.pink_rows[1]? = p.pink_rows[1]?)) :=
  ⟨⟨by decide, by decide, by decide⟩,
   row_update_frequency pink_h_long32 22222 pink_stale 3 1 5 (by decide) (by decide)
    (by decide)⟩

/-- C4 (LCG recurrence), evaluated at the first draw from the initial seed
22222.  Where `unsigned long` has 32 bits the value stored and returned is
`(22222 * 196314165 + 907633515) mod 2^32 = 4009202705`.  Where it has 64 bits
the value stored and returned is 4363401008145: the sum is not reduced modulo
`2^32`, and the result is not a 32-bit number. -/
theorem lcg_first_draw :
    generate_random_number pink_h_long32 22222 = (4009202705, 4009202705) ∧
    (22222 * 196314165 + 907633515) % 2 ^ 32 = 4009202705 ∧
    generate_random_number pink_h_long64 22222 = (4363401008145, 4363401008145) ∧
    (generate_random_number pink_h_long64 22222).2
      ≠ (22222 * 196314165 + 907633515) % 2 ^ 32 ∧
    2 ^ 32 ≤ (generate_random_number pink_h_long64 22222).2 := by
  decide

/-- C6 (output range): for `R ≤ 30` (so for `1 ≤ R ≤ 30`), every seed and every
`n ≥ 1`, when `PINK_RANDOM_SHIFT` is the width of `long` minus `PINK_RANDOM_BITS` (with
`1 ≤ PINK_RANDOM_BITS ≤ 27`, so that `pmax` fits an `int`), the `n`-th call
after `initialize_pink_noise` completes with
`-pmax ≤ pink_running_sum + r2 < pmax` for `pmax = (R + 1) * 2^(PINK_RANDOM_BITS-1)`,
and the returned value, taken over the rationals, lies in `[-1, 1)`. -/
theorem output_range (h : pink_h) (rand_seed : Nat) (pink : pink_noise_t) (R n : Nat)
    (hR30 : R ≤ 30) (hcap : R ≤ pink.pink_rows.length) (hn : 1 ≤ n)
    (hshift : h.PINK_RANDOM_SHIFT = h.LONG_BITS - h.PINK_RANDOM_BITS)
    (hB1 : 1 ≤ h.PINK_RANDOM_BITS) (hB27 : h.PINK_RANDOM_BITS ≤ 27)
    (hBW : h.PINK_RANDOM_BITS ≤ h.LONG_BITS) :
    ∃ r, kth_call h rand_seed (initialize_pink_noise h pink R) n = some r ∧
      -(((R + 1) * 2 ^ (h.PINK_RANDOM_BITS - 1) : Nat) : Int)
        ≤ r.pink.pink_running_sum + r.new_random ∧
      r.pink.pink_running_sum + r.new_random
        < (((R + 1) * 2 ^ (h.PINK_RANDOM_BITS - 1) : Nat) : Int) ∧
      -1 ≤ r.output ∧ r.output < 1 := by
  obtain ⟨s, p, r, -, -, hgen, hkth, hinv', hshape⟩ :=
    kth_call_reached h rand_seed pink R n hR30 hcap hn
  obtain ⟨-, hslo, hshi⟩ := reached_sum_bounds h R n _ r.pink
    (by rw [initialize_length]; exact hcap) hshift hB1 hBW hinv'
  have hdraw : ∃ s2, r.new_random = (new_random_draw h s2).2 := by
    rcases hshape with ⟨-, -, -, -, hnr⟩ | ⟨c, q, old, -, -, -, -, -, -, hnr⟩
    · exact ⟨_, hnr⟩
    · exact ⟨_, hnr⟩
  obtain ⟨s2, hs2⟩ := hdraw
  obtain ⟨hdlo, hdhi⟩ := new_random_draw_range h s2 hshift hB1 hBW
  rw [← hs2] at hdlo hdhi
  have hMpos : (0 : Int) < ((2 ^ (h.PINK_RANDOM_BITS - 1) : Nat) : Int) := by positivity
  have hlo : -(((R + 1) * 2 ^ (h.PINK_RANDOM_BITS - 1) : Nat) : Int)
      ≤ r.pink.pink_running_sum + r.new_random := by
    push_cast at hslo hdlo ⊢
    linarith
  have hhi : r.pink.pink_running_sum + r.new_random
      < (((R + 1) * 2 ^ (h.PINK_RANDOM_BITS - 1) : Nat) : Int) := by
    push_cast at hshi hdhi ⊢
    linarith
  have hout := generate_output h s p r hgen
  rw [hinv'.scalar, (pmax_eq h R hR30 hB1 hB27).2] at hout
  have hPpos :
      (0 : Rat) < ((((R + 1) * 2 ^ (h.PINK_RANDOM_BITS - 1) : Nat) : Int) : Rat) := by
    have : 0 < (R + 1) * 2 ^ (h.PINK_RANDOM_BITS - 1) := by positivity
    exact_mod_cast this
  have hloQ : -((((R + 1) * 2 ^ (h.PINK_RANDOM_BITS - 1) : Nat) : Int) : Rat)
      ≤ ((r.pink.pink_running_sum + r.new_random : Int) : Rat) := by exact_mod_cast hlo
  have hhiQ : ((r.pink.pink_running_sum + r.new_random : Int) : Rat)
      < ((((R + 1) * 2 ^ (h.PINK_RANDOM_BITS - 1) : Nat) : Int) : Rat) := by
    exact_mod_cast hhi
  refine ⟨r, hkth, hlo, hhi, ?_, ?_⟩
  · rw [hout, one_div, inv_mul_eq_div, le_div_iff₀ hPpos]
    linarith
  · rw [hout, one_div, inv_mul_eq_div, div_lt_iff₀ hPpos]
    linarith

/-- C6 with thirty rows and a 64-bit `long`, at the seventh call. -/
theorem output_range_witness :
    (30 ≤ 30 ∧ 30 ≤ pink_stale.pink_rows.length ∧ 1 ≤ 7 ∧
      pink_h_long64.PINK_RANDOM_SHIFT
        = pink_h_long64.LONG_BITS - pink_h_long64.PINK_RANDOM_BITS ∧
      1 ≤ pink_h_long64.PINK_RANDOM_BITS ∧ pink_h_long64.PINK_RANDOM_BITS ≤ 27 ∧
      pink_h_long64.PINK_RANDOM_BITS ≤ pink_h_long64.LONG_BITS) ∧
    ∃ r, kth_call pink_h_long64 22222 (initialize_pink_noise pink_h_long64 pink_stale 30) 7
        = some r ∧
      -(((30 + 1) * 2 ^ (pink_h_long64.PINK_RANDOM_BITS - 1) : Nat) : Int)
        ≤ r.pink.pink_running_sum + r.new_random ∧
      r.pink.pink_running_sum + r.new_random
        < (((30 + 1) * 2 ^ (pink_h_long64.PINK_RANDOM_BITS - 1) : Nat) : Int) ∧
      -1 ≤ r.output ∧ r.output < 1 :=
  ⟨⟨by decide, by decide, by decide, by decide, by decide, by decide, by decide⟩,
   output_range pink_h_long64 22222 pink_stale 30 7 (by decide) (by decide) (by decide)
    (by decide) (by decide) (by decide) (by decide)⟩

/-- C7 (postcondition of initialize): for `R ≤ 30` (so for `1 ≤ R ≤ 30`) and
every prior content of the generator, `initialize_pink_noise` leaves `pink_index = 0`,
`pink_index_mask = 2^R - 1` where neither `1<<R` nor the subtraction leaves the
range of a 32-bit `int`, `pink_rows[i] = 0` for every `i < R`, and
`pink_running_sum = 0`. -/
theorem initialize_postcondition (h : pink_h) (pink : pink_noise_t) (R : Nat)
    (hR30 : R ≤ 30) (hcap : R ≤ pink.pink_rows.length) :
    (initialize_pink_noise h pink R).pink_index = 0 ∧
    (initialize_pink_noise h pink R).pink_index_mask = ((2 ^ R : Nat) : Int) - 1 ∧
    wrap_signed INT_BITS ((2 ^ R : Nat) : Int) = ((2 ^ R : Nat) : Int) ∧
    wrap_signed INT_BITS (((2 ^ R : Nat) : Int) - 1) = ((2 ^ R : Nat) : Int) - 1 ∧
    (∀ i, i < R → (initialize_pink_noise h pink R).pink_rows[i]? = some 0) ∧
    (initialize_pink_noise h pink R).pink_running_sum = 0 := by
  have hle : 2 ^ R ≤ 2 ^ 30 := Nat.pow_le_pow_right (by norm_num) hR30
  have hpos : 0 < 2 ^ R := by positivity
  refine ⟨rfl, index_mask_eq R hR30, ?_, ?_, ?_, rfl⟩
  · exact wrap_signed_natCast INT_BITS (2 ^ R) (by simp [INT_BITS])
      (by simp only [INT_BITS]; omega)
  · exact wrap_signed_eq_self INT_BITS _ (by simp [INT_BITS])
      (by simp only [INT_BITS]; omega) (by simp only [INT_BITS]; omega)
  · intro i hi
    show (zero_rows R pink.pink_rows)[i]? = some 0
    rw [zero_rows_getElem?, if_pos ⟨hi, by omega⟩]

/-- C7 with thirty rows on a generator that holds arbitrary values. -/
theorem initialize_postcondition_witness :
    (30 ≤ 30 ∧ 30 ≤ pink_stale.pink_rows.length) ∧
    (initialize_pink_noise pink_h_long32 pink_stale 30).pink_index = 0 ∧
    (initialize_pink_noise pink_h_long32 pink_stale 30).pink_index_mask
      = ((2 ^ 30 : Nat) : Int) - 1 ∧
    wrap_signed INT_BITS ((2 ^ 30 : Nat) : Int) = ((2 ^ 30 : Nat) : Int) ∧
    wrap_signed INT_BITS (((2 ^ 30 : Nat) : Int) - 1) = ((2 ^ 30 : Nat) : Int) - 1 ∧
    (∀ i, i < 30 →
      (initialize_pink_noise pink_h_long32 pink_stale 30).pink_rows[i]? = some 0) ∧
    (initialize_pink_noise pink_h_long32 pink_stale 30).pink_running_sum = 0 :=
  ⟨⟨by decide, by decide⟩,
   initialize_postcondition pink_h_long32 pink_stale 30 (by decide) (by decide)⟩

/-- C8 (scale): for `R ≤ 30` (so for `1 ≤ R ≤ 30`) and `PINK_RANDOM_BITS`
between 1 and 27, the factors and the product
`(R + 1) * 2^(PINK_RANDOM_BITS-1)` are computed on `int` without overflow, `pmax` is that product, and `initialize_pink_noise` sets
`pink_scalar` to `1 / pmax`, which is strictly positive (over the rationals). -/
theorem scale_value (h : pink_h) (pink : pink_noise_t) (R : Nat)
    (hR30 : R ≤ 30) (hB1 : 1 ≤ h.PINK_RANDOM_BITS)
    (hB27 : h.PINK_RANDOM_BITS ≤ 27) :
    (R + 1) * 2 ^ (h.PINK_RANDOM_BITS - 1) < 2 ^ (INT_BITS - 1) ∧
    pmax h R = (((R + 1) * 2 ^ (h.PINK_RANDOM_BITS - 1) : Nat) : Int) ∧
    (initialize_pink_noise h pink R).pink_scalar
      = 1 / ((((R + 1) * 2 ^ (h.PINK_RANDOM_BITS - 1) : Nat) : Int) : Rat) ∧
    0 < (initialize_pink_noise h pink R).pink_scalar := by
  obtain ⟨hlt, hp⟩ := pmax_eq h R hR30 hB1 hB27
  have hs : (initialize_pink_noise h pink R).pink_scalar
      = 1 / ((((R + 1) * 2 ^ (h.PINK_RANDOM_BITS - 1) : Nat) : Int) : Rat) := by
    show 1 / (pmax h R : Rat) = _
    rw [hp]
  refine ⟨by simpa [INT_BITS] using hlt, hp, hs, ?_⟩
  rw [hs]
  have : 0 < (R + 1) * 2 ^ (h.PINK_RANDOM_BITS - 1) := by positivity
  have h0 : (0 : Rat) < ((((R + 1) * 2 ^ (h.PINK_RANDOM_BITS - 1) : Nat) : Int) : Rat) := by
    exact_mod_cast this
  positivity

/-- C8 with thirty rows and 24 random bits. -/
theorem scale_value_witness :
    (30 ≤ 30 ∧ 1 ≤ pink_h_long32.PINK_RANDOM_BITS ∧ pink_h_long32.PINK_RANDOM_BITS ≤ 27) ∧
    (30 + 1) * 2 ^ (pink_h_long32.PINK_RANDOM_BITS - 1) < 2 ^ (INT_BITS - 1) ∧
    pmax pink_h_long32 30
      = (((30 + 1) * 2 ^ (pink_h_long32.PINK_RANDOM_BITS - 1) : Nat) : Int) ∧
    (initialize_pink_noise pink_h_long32 pink_stale 30).pink_scalar
      = 1 / ((((30 + 1) * 2 ^ (pink_h_long32.PINK_RANDOM_BITS - 1) : Nat) : Int) : Rat) ∧
    0 < (initialize_pink_noise pink_h_long32 pink_stale 30).pink_scalar :=
  ⟨⟨by decide, by decide, by decide⟩,
   scale_value pink_h_long32 pink_stale 30 (by decide) (by decide) (by decide)⟩

/-- C9 (index counter): for `R ≤ 30` (so for `1 ≤ R ≤ 30`) and every `k`, the
`k` calls that follow `initialize_pink_noise` complete and leave `pink_index = k mod 2^R`,
which lies in `[0, 2^R - 1]` and is `0` whenever `2^R` divides `k`; the next
call completes too and stores `(pink_index + 1) & pink_index_mask`. -/
theorem index_counter (h : pink_h) (rand_seed : Nat) (pink : pink_noise_t) (R k : Nat)
    (hR30 : R ≤ 30) (hcap : R ≤ pink.pink_rows.length) :
    ∃ s p r, after_calls h rand_seed (initialize_pink_noise h pink R) k = some (s, p) ∧
      p.pink_index = ((k % 2 ^ R : Nat) : Int) ∧
      0 ≤ p.pink_index ∧ p.pink_index ≤ ((2 ^ R : Nat) : Int) - 1 ∧
      (2 ^ R ∣ k → p.pink_index = 0) ∧
      generate_pink_noise_sample h s p = some r ∧
      r.pink.pink_index = int_and (p.pink_index + 1) p.pink_index_mask := by
  obtain ⟨s, p, hs, hinv⟩ := after_calls_reached h rand_seed pink R hR30 hcap k
  obtain ⟨r, hr, hinv', -⟩ := generate_reached h s _ p R k hR30
    (by rw [initialize_length]; exact hcap) hinv
  have hlt : k % 2 ^ R < 2 ^ R := Nat.mod_lt _ (by positivity)
  have hle : 2 ^ R ≤ 2 ^ 30 := Nat.pow_le_pow_right (by norm_num) hR30
  refine ⟨s, p, r, hs, hinv.index, ?_, ?_, ?_, hr, ?_⟩
  · rw [hinv.index]; positivity
  · rw [hinv.index]; omega
  · intro hd
    rw [hinv.index, Nat.mod_eq_zero_of_dvd hd]; rfl
  · have h1 : ((k % 2 ^ R : Nat) : Int) + 1 = ((k % 2 ^ R + 1 : Nat) : Int) := by
      push_cast; rfl
    rw [hinv'.index, hinv.mask, int_and_mask _ R (by omega), hinv.index, h1,
      to_unsigned_natCast INT_BITS (k % 2 ^ R + 1) (by simp only [INT_BITS]; omega),
      Nat.mod_add_mod]

/-- C9 with three rows after 19 calls. -/
theorem index_counter_witness :
    (3 ≤ 30 ∧ 3 ≤ pink_stale.pink_rows.length) ∧
    ∃ s p r, after_calls pink_h_long64 22222
        (initialize_pink_noise pink_h_long64 pink_stale 3) 19 = some (s, p) ∧
      p.pink_index = ((19 % 2 ^ 3 : Nat) : Int) ∧
      0 ≤ p.pink_index ∧ p.pink_index ≤ ((2 ^ 3 : Nat) : Int) - 1 ∧
      (2 ^ 3 ∣ 19 → p.pink_index = 0) ∧
      generate_pink_noise_sample pink_h_long64 s p = some r ∧
      r.pink.pink_index = int_and (p.pink_index + 1) p.pink_index_mask :=
  ⟨⟨by decide, by decide⟩,
   index_counter pink_h_long64 22222 pink_stale 3 19 (by decide) (by decide)⟩

/-- C10 (row index in bounds): for `1 ≤ R ≤ 30` and every `k ≥ 1`, the `k`-th
call after `initialize_pink_noise` completes, the index `num_zeros` of the row
it reads and assigns (if any) is below `R` and inside the array, and the rows at
index `R` and above still hold what they held before `initialize_pink_noise`. -/
theorem row_index_in_bounds (h : pink_h) (rand_seed : Nat) (pink : pink_noise_t) (R k : Nat)
    (hR1 : 1 ≤ R) (hR30 : R ≤ 30) (hcap : R ≤ pink.pink_rows.length) (hk : 1 ≤ k) :
    ∃ r, kth_call h rand_seed (initialize_pink_noise h pink R) k = some r ∧
      (∀ z, r.row = some z → z ≤ R - 1 ∧ z < pink.pink_rows.length) ∧
      r.pink.pink_rows.length = pink.pink_rows.length ∧
      r.pink.pink_rows.drop R = pink.pink_rows.drop R := by
  obtain ⟨s, p, r, -, -, -, hkth, hinv', hshape⟩ :=
    kth_call_reached h rand_seed pink R k hR30 hcap hk
  refine ⟨r, hkth, ?_, ?_, ?_⟩
  · intro z hz
    rcases hshape with ⟨-, hrow, -⟩ | ⟨c, q, old, -, hc, hrow, -⟩
    · rw [hrow] at hz; exact Option.noConfusion hz
    · rw [hrow] at hz
      have : c = z := Option.some.inj hz
      omega
  · rw [hinv'.length, initialize_length]
  · rw [hinv'.beyond]
    exact zero_rows_drop R pink.pink_rows

/-- C10 with two rows at the sixth call. -/
theorem row_index_in_bounds_witness :
    (1 ≤ 2 ∧ 2 ≤ 30 ∧ 2 ≤ pink_stale.pink_rows.length ∧ 1 ≤ 6) ∧
    ∃ r, kth_call pink_h_long32 22222 (initialize_pink_noise pink_h_long32 pink_stale 2) 6
        = some r ∧
      (∀ z, r.row = some z → z ≤ 2 - 1 ∧ z < pink_stale.pink_rows.length) ∧
      r.pink.pink_rows.length = pink_stale.pink_rows.length ∧
      r.pink.pink_rows.drop 2 = pink_stale.pink_rows.drop 2 :=
  ⟨⟨by decide, by decide, by decide, by decide⟩,
   row_index_in_bounds pink_h_long32 22222 pink_stale 2 6 (by decide) (by decide) (by decide)
    (by decide)⟩

/-- C11 (termination): for every generator, whatever its index and mask, the
call stores the index `n = (pink_index + 1) & pink_index_mask`.  When `n = 0`
the loop is not entered and the call completes.  When `n ≠ 0` the loop stops with
`num_zeros = z`, the position of the lowest set bit of `n`, after exactly `z`
passes (`z + 1` evaluations of its condition are enough, `z` are not), `z ≤ 31`,
and the call completes as soon as row `z` is inside the array.  In a generator
reached from `initialize_pink_noise` with `1 ≤ R ≤ 30` rows the call completes
and `z ≤ R - 1`. -/
theorem sample_terminates (h : pink_h) (s : Nat) (p : pink_noise_t) :
    (new_index p = 0 →
      ∃ r, generate_pink_noise_sample h s p = some r ∧ r.row = none) ∧
    (new_index p ≠ 0 → ∃ z,
      count_zeros_loop INT_BITS (new_index p) 0 = some z ∧
      (∀ fuel, z < fuel → count_zeros_loop fuel (new_index p) 0 = some z) ∧
      (∀ fuel, fuel ≤ z → count_zeros_loop fuel (new_index p) 0 = none) ∧
      z ≤ 31 ∧
      2 ^ z ∣ to_unsigned INT_BITS (new_index p) ∧
      ¬ 2 ^ (z + 1) ∣ to_unsigned INT_BITS (new_index p) ∧
      (z < p.pink_rows.length →
        ∃ r, generate_pink_noise_sample h s p = some r ∧ r.row = some z)) ∧
    (∀ seed0 pink0 R k, 1 ≤ R → R ≤ 30 → R ≤ pink0.pink_rows.length →
      after_calls h seed0 (initialize_pink_noise h pink0 R) k = some (s, p) →
      ∃ r, generate_pink_noise_sample h s p = some r ∧
        ∀ z, r.row = some z → z ≤ R - 1) := by
  refine ⟨generate_of_index_zero h s p, ?_, ?_⟩
  · intro hn
    have hn' : (new_index p).natAbs ≠ 0 := by omega
    obtain ⟨c, q, hcq⟩ := exists_pow_two_mul_odd _ hn'
    have hrange := new_index_range p
    have hc : c ≤ 31 := by
      by_contra hgt
      have h1 : 2 ^ 32 ≤ 2 ^ c := Nat.pow_le_pow_right (by norm_num) (by omega)
      have h2 : 2 ^ c * 1 ≤ 2 ^ c * (2 * q + 1) := Nat.mul_le_mul_left _ (by omega)
      omega
    have hloop : ∀ fuel, (c < fuel → count_zeros_loop fuel (new_index p) 0 = some c) ∧
        (fuel ≤ c → count_zeros_loop fuel (new_index p) 0 = none) := by
      intro fuel
      have := count_zeros_loop_natAbs c fuel q 0 (new_index p) hcq
      simpa using this
    have hctz := pow_two_mul_odd_ctz c q
    rw [← hcq] at hctz
    have h32 : count_zeros_loop INT_BITS (new_index p) 0 = some c :=
      (hloop INT_BITS).1 (by simp only [INT_BITS]; omega)
    refine ⟨c, h32, fun fuel hf => (hloop fuel).1 hf, fun fuel hf => (hloop fuel).2 hf, hc,
      (pow_two_dvd_to_unsigned _ c (by omega)).mpr hctz.1,
      fun hd => hctz.2 ((pow_two_dvd_to_unsigned _ (c + 1) (by omega)).mp hd), ?_⟩
    intro hz
    exact generate_of_loop h s p c hn h32 hz
  · intro seed0 pink0 R k hR1 hR30 hcap hafter
    obtain ⟨s', p', hs', hinv⟩ := after_calls_reached h seed0 pink0 R hR30 hcap k
    rw [hafter] at hs'
    obtain ⟨rfl, rfl⟩ := Prod.mk.inj (Option.some.inj hs')
    obtain ⟨r, hr, -, hshape⟩ := generate_reached h s _ p R k hR30
      (by rw [initialize_length]; exact hcap) hinv
    refine ⟨r, hr, ?_⟩
    intro z hz
    rcases hshape with ⟨-, hrow, -⟩ | ⟨c, q, old, -, hc, hrow, -⟩
    · rw [hrow] at hz; exact Option.noConfusion hz
    · rw [hrow] at hz
      have : c = z := Option.some.inj hz
      omega

/-- C11 on a generator with index 3 and mask 7: the index stored is 4 and the
loop stops with `num_zeros = 2`. -/
theorem sample_terminates_witness :
    new_index { pink_stale with pink_index := 3, pink_index_mask := 7 } ≠ 0 ∧
    ∃ z,
      count_zeros_loop INT_BITS
        (new_index { pink_stale with pink_index := 3, pink_index_mask := 7 }) 0 = some z ∧
      (∀ fuel, z < fuel → count_zeros_loop fuel
        (new_index { pink_stale with pink_index := 3, pink_index_mask := 7 }) 0 = some z) ∧
      (∀ fuel, fuel ≤ z → count_zeros_loop fuel
        (new_index { pink_stale with pink_index := 3, pink_index_mask := 7 }) 0 = none) ∧
      z ≤ 31 ∧
      2 ^ z ∣ to_unsigned INT_BITS
        (new_index { pink_stale with pink_index := 3, pink_index_mask := 7 }) ∧
      ¬ 2 ^ (z + 1) ∣ to_unsigned INT_BITS
        (new_index { pink_stale with pink_index := 3, pink_index_mask := 7 }) ∧
      (z < ({ pink_stale with pink_index := 3, pink_index_mask := 7 } :
          pink_noise_t).pink_rows.length →
        ∃ r, generate_pink_noise_sample pink_h_long32 22222
          { pink_stale with pink_index := 3, pink_index_mask := 7 } = some r ∧
          r.row = some z) :=
  ⟨by decide,
   (sample_terminates pink_h_long32 22222
      { pink_stale with pink_index := 3, pink_index_mask := 7 }).2.1 (by decide)⟩

/-- C12 (determinism): for `R ≤ 30` rows (so for `1 ≤ R ≤ 30`), every seed and
every `N`, two runs that start from the same seed, call `initialize_pink_noise`
with `R` rows (on structs that may hold different stale values) and then call
`generate_pink_noise_sample` `N` times return the same `N` values, all calls
complete, and the runs end with the same seed, index, mask, scale, running sum
and rows `pink_rows[0..R-1]`; when the two structs were equal beforehand they
are equal afterwards. -/
theorem run_deterministic (h : pink_h) (seedA seedB : Nat) (pinkA pinkB : pink_noise_t)
    (R N : Nat) (hR30 : R ≤ 30) (hcapA : R ≤ pinkA.pink_rows.length)
    (hcapB : R ≤ pinkB.pink_rows.length) (hseed : seedA = seedB) :
    sample_sequence h seedA (initialize_pink_noise h pinkA R) N
      = sample_sequence h seedB (initialize_pink_noise h pinkB R) N ∧
    (∀ x ∈ sample_sequence h seedA (initialize_pink_noise h pinkA R) N, x ≠ none) ∧
    ∃ s pA pB, after_calls h seedA (initialize_pink_noise h pinkA R) N = some (s, pA) ∧
      after_calls h seedB (initialize_pink_noise h pinkB R) N = some (s, pB) ∧
      same_generator R pA pB ∧ (pinkA = pinkB → pA = pB) := by
  subst hseed
  refine ⟨?_, ?_, ?_⟩
  · unfold sample_sequence
    apply List.map_congr_left
    intro k _
    obtain ⟨r1, r2, h1, h2, hout⟩ :=
      kth_call_same_generator h seedA pinkA pinkB R hR30 hcapA hcapB k
    rw [h1, h2, Option.map_some', Option.map_some', hout]
  · intro x hx
    unfold sample_sequence at hx
    obtain ⟨k, -, rfl⟩ := List.mem_map.mp hx
    obtain ⟨r1, r2, h1, -, -⟩ :=
      kth_call_same_generator h seedA pinkA pinkB R hR30 hcapA hcapB k
    rw [h1]
    exact Option.noConfusion
  · obtain ⟨s, pA, pB, hA, hB, -, -, hsame⟩ :=
      after_calls_same_generator h seedA pinkA pinkB R hR30 hcapA hcapB N
    refine ⟨s, pA, pB, hA, hB, hsame, ?_⟩
    intro heq
    subst heq
    rw [hA] at hB
    exact (Prod.mk.inj (Option.some.inj hB)).2

/-- C12 with four rows and eight calls, on a stale struct and on a struct of
forty rows that holds zeros. -/
theorem run_deterministic_witness :
    (4 ≤ 30 ∧ 4 ≤ pink_stale.pink_rows.length ∧
      4 ≤ ({ pink_stale with pink_rows := List.replicate 40 0 } :
        pink_noise_t).pink_rows.length ∧ (22222 : Nat) = 22222) ∧
    (sample_sequence pink_h_long32 22222 (initialize_pink_noise pink_h_long32 pink_stale 4) 8
      = sample_sequence pink_h_long32 22222
          (initialize_pink_noise pink_h_long32
            { pink_stale with pink_rows := List.replicate 40 0 } 4) 8 ∧
    (∀ x ∈ sample_sequence pink_h_long32 22222
        (initialize_pink_noise pink_h_long32 pink_stale 4) 8, x ≠ none) ∧
    ∃ s pA pB,
      after_calls pink_h_long32 22222 (initialize_pink_noise pink_h_long32 pink_stale 4) 8
        = some (s, pA) ∧
      after_calls pink_h_long32 22222
        (initialize_pink_noise pink_h_long32
          { pink_stale with pink_rows := List.replicate 40 0 } 4) 8 = some (s, pB) ∧
      same_generator 4 pA pB ∧
      (pink_stale = { pink_stale with pink_rows := List.replicate 40 0 } → pA = pB)) :=
  ⟨⟨by decide, by decide, by decide, rfl⟩,
   run_deterministic pink_h_long32 22222 22222 pink_stale
     { pink_stale with pink_rows := List.replicate 40 0 } 4 8 (by decide) (by decide)
     (by decide) rfl⟩

/-- C13, as amended (instances share the seed and nothing else): for two
generators `A` and `B` initialized with at most 30 rows each, every schedule of
calls on `A` interleaved with the calls on `B` completes, and each call on `B`
assigns the same row and stores the same index as the call of the same rank in a
run of `B` alone (from any seed).  The struct of `B` is an argument of the calls
on `B` only.  The values that `B` returns are not covered: every call on `A`
advances the static `rand_seed` that `B` draws from. -/
theorem generators_share_only_seed (h : pink_h) (rand_seed seed0 : Nat)
    (pinkA pinkB : pink_noise_t) (RA RB : Nat) (sched : List Nat)
    (hRA : RA ≤ 30) (hRB : RB ≤ 30)
    (hcapA : RA ≤ pinkA.pink_rows.length) (hcapB : RB ≤ pinkB.pink_rows.length) :
    ∃ rs, interleaved h sched rand_seed (initialize_pink_noise h pinkA RA)
        (initialize_pink_noise h pinkB RB) = some rs ∧
      rs.length = sched.length ∧
      ∀ k r, rs[k]? = some r →
        ∃ r0, kth_call h seed0 (initialize_pink_noise h pinkB RB) (k + 1) = some r0 ∧
          r.row = r0.row ∧ r.pink.pink_index = r0.pink.pink_index := by
  have hcapA0 : RA ≤ (initialize_pink_noise h pinkA RA).pink_rows.length := by
    rw [initialize_length]; exact hcapA
  have hcapB0 : RB ≤ (initialize_pink_noise h pinkB RB).pink_rows.length := by
    rw [initialize_length]; exact hcapB
  obtain ⟨rs, hrs, hlen, hall⟩ := interleaved_reached h _ _ RA RB hRA hRB hcapA0 hcapB0 sched
    rand_seed _ _ 0 0 ( reached_initialize h pinkA RA hRA) ( reached_initialize h pinkB RB hRB)
  refine ⟨rs, hrs, hlen, ?_⟩
  intro k r hk
  obtain ⟨s, p, r0, -, hinv, hgen, hkth, -, -⟩ :=
    kth_call_reached h seed0 pinkB RB (k + 1) hRB hcapB (by omega)
  rw [Nat.add_sub_cancel] at hinv
  have hinv' : reached h RB (0 + k) (initialize_pink_noise h pinkB RB) p := by
    rw [Nat.zero_add]; exact hinv
  exact ⟨r0, hkth, hall k r hk s _ p r0 hcapB0 hinv' hgen⟩

/-- C13 as amended, with two generators of four rows and the schedule of one,
no and two calls on `A` before the three calls on `B`. -/
theorem generators_share_only_seed_witness :
    (4 ≤ 30 ∧ 4 ≤ 30 ∧ 4 ≤ pink_stale.pink_rows.length ∧ 4 ≤ pink_stale.pink_rows.length) ∧
    ∃ rs, interleaved pink_h_long32 [1, 0, 2] 22222
        (initialize_pink_noise pink_h_long32 pink_stale 4)
        (initialize_pink_noise pink_h_long32 pink_stale 4) = some rs ∧
      rs.length = [1, 0, 2].length ∧
      ∀ k r, rs[k]? = some r →
        ∃ r0, kth_call pink_h_long32 22222
            (initialize_pink_noise pink_h_long32 pink_stale 4) (k + 1) = some r0 ∧
          r.row = r0.row ∧ r.pink.pink_index = r0.pink.pink_index :=
  ⟨⟨by decide, by decide, by decide, by decide⟩,
   generators_share_only_seed pink_h_long32 22222 22222 pink_stale pink_stale 4 4 [1, 0, 2]
     (by decide) (by decide) (by decide) (by decide)⟩

/-- C13, as stated, fails: with two generators of four rows and the initial
seed 22222, the first value that `B` returns is `-3881167/20971520` when no call
on `A` comes first and `1357787/8388608` when one call on `A` comes first. -/
theorem instance_independence_counterexample :
    (interleaved pink_h_long32 [0] 22222
        (initialize_pink_noise pink_h_long32 pink_stale 4)
        (initialize_pink_noise pink_h_long32 pink_stale 4)).map
          (fun rs => rs.map (fun r => r.output)) = some [(-3881167 : Rat) / 20971520] ∧
    (interleaved pink_h_long32 [1] 22222
        (initialize_pink_noise pink_h_long32 pink_stale 4)
        (initialize_pink_noise pink_h_long32 pink_stale 4)).map
          (fun rs => rs.map (fun r => r.output)) = some [(1357787 : Rat) / 8388608] ∧
    (interleaved pink_h_long32 [0] 22222
        (initialize_pink_noise pink_h_long32 pink_stale 4)
        (initialize_pink_noise pink_h_long32 pink_stale 4)).map
          (fun rs => rs.map (fun r => r.output))
      ≠ (interleaved pink_h_long32 [1] 22222
        (initialize_pink_noise pink_h_long32 pink_stale 4)
        (initialize_pink_noise pink_h_long32 pink_stale 4)).map
          (fun rs => rs.map (fun r => r.output)) := by
  decide!

/-- C14, as amended (no rejection of `num_rows = 0`): for `num_rows` from 0 to
30 inside the array, and `1 ≤ PINK_RANDOM_BITS ≤ 27`, `initialize_pink_noise`
returns a generator with index 0, running sum 0, the mask `2^num_rows - 1` and
the scale `1 / ((num_rows + 1) * 2^(PINK_RANDOM_BITS-1))`, both computed inside
the range of `int`, with the rows `0 .. num_rows-1` zero and the other rows as
they were; every sequence of calls of `generate_pink_noise_sample` on it
completes.  For `num_rows = 0` the mask is 0, no row is written and the scale is
`1 / 2^(PINK_RANDOM_BITS-1)`.  The function has no error result.  Nothing is
stated for a `num_rows` that is negative or above 30. -/
theorem initialize_never_rejects (h : pink_h) (pink : pink_noise_t) (num_rows : Nat)
    (h30 : num_rows ≤ 30) (hcap : num_rows ≤ pink.pink_rows.length)
    (hB1 : 1 ≤ h.PINK_RANDOM_BITS) (hB27 : h.PINK_RANDOM_BITS ≤ 27) :
    (initialize_pink_noise h pink num_rows).pink_index = 0 ∧
    (initialize_pink_noise h pink num_rows).pink_running_sum = 0 ∧
    (initialize_pink_noise h pink num_rows).pink_index_mask
      = ((2 ^ num_rows : Nat) : Int) - 1 ∧
    2 ^ num_rows < 2 ^ 31 ∧
    (num_rows + 1) * 2 ^ (h.PINK_RANDOM_BITS - 1) < 2 ^ 31 ∧
    (initialize_pink_noise h pink num_rows).pink_scalar
      = 1 / (((num_rows + 1) * 2 ^ (h.PINK_RANDOM_BITS - 1) : Nat) : Rat) ∧
    0 < (initialize_pink_noise h pink num_rows).pink_scalar ∧
    (∀ i, i < num_rows → (initialize_pink_noise h pink num_rows).pink_rows[i]? = some 0) ∧
    (∀ i, num_rows ≤ i →
      (initialize_pink_noise h pink num_rows).pink_rows[i]? = pink.pink_rows[i]?) ∧
    (∀ (rand_seed n : Nat), ∃ s p r,
      after_calls h rand_seed (initialize_pink_noise h pink num_rows) n = some (s, p) ∧
      generate_pink_noise_sample h s p = some r) ∧
    (num_rows = 0 → (initialize_pink_noise h pink num_rows).pink_index_mask = 0 ∧
      (initialize_pink_noise h pink num_rows).pink_rows = pink.pink_rows ∧
      (initialize_pink_noise h pink num_rows).pink_scalar
        = 1 / ((2 ^ (h.PINK_RANDOM_BITS - 1) : Nat) : Rat)) := by
  obtain ⟨hlt, hpmax⟩ := pmax_eq h num_rows h30 hB1 hB27
  have hle : 2 ^ num_rows ≤ 2 ^ 30 := Nat.pow_le_pow_right (by norm_num) h30
  have hscalar : (initialize_pink_noise h pink num_rows).pink_scalar
      = 1 / (((num_rows + 1) * 2 ^ (h.PINK_RANDOM_BITS - 1) : Nat) : Rat) := by
    show 1 / (pmax h num_rows : Rat) = _
    rw [hpmax]
    rfl
  have hpos : (0 : Rat) < (((num_rows + 1) * 2 ^ (h.PINK_RANDOM_BITS - 1) : Nat) : Rat) := by
    have : 0 < (num_rows + 1) * 2 ^ (h.PINK_RANDOM_BITS - 1) := by positivity
    exact_mod_cast this
  refine ⟨rfl, rfl, index_mask_eq num_rows h30, by omega, hlt, hscalar, ?_, ?_, ?_, ?_, ?_⟩
  · rw [hscalar]
    exact one_div_pos.mpr hpos
  · intro i hi
    show (zero_rows num_rows pink.pink_rows)[i]? = some 0
    rw [zero_rows_getElem?, if_pos ⟨hi, by omega⟩]
  · intro i hi
    show (zero_rows num_rows pink.pink_rows)[i]? = pink.pink_rows[i]?
    rw [zero_rows_getElem?, if_neg (by omega)]
  · intro rand_seed n
    obtain ⟨s, p, hs, hinv⟩ := after_calls_reached h rand_seed pink num_rows h30 hcap n
    obtain ⟨r, hr, -, -⟩ := generate_reached h s _ p num_rows n h30
      (by rw [initialize_length]; exact hcap) hinv
    exact ⟨s, p, r, hs, hr⟩
  · intro h0
    subst h0
    have hm : index_mask 0 = 0 := by decide
    refine ⟨hm, rfl, ?_⟩
    rw [hscalar]
    simp

/-- C14 as amended, with no rows, on a platform whose `long` has 32 bits. -/
theorem initialize_never_rejects_witness :
    (0 ≤ 30 ∧ 0 ≤ pink_stale.pink_rows.length ∧ 1 ≤ pink_h_long32.PINK_RANDOM_BITS ∧
      pink_h_long32.PINK_RANDOM_BITS ≤ 27) ∧
    ((initialize_pink_noise pink_h_long32 pink_stale 0).pink_index = 0 ∧
    (initialize_pink_noise pink_h_long32 pink_stale 0).pink_running_sum = 0 ∧
    (initialize_pink_noise pink_h_long32 pink_stale 0).pink_index_mask
      = ((2 ^ 0 : Nat) : Int) - 1 ∧
    2 ^ 0 < 2 ^ 31 ∧
    (0 + 1) * 2 ^ (pink_h_long32.PINK_RANDOM_BITS - 1) < 2 ^ 31 ∧
    (initialize_pink_noise pink_h_long32 pink_stale 0).pink_scalar
      = 1 / (((0 + 1) * 2 ^ (pink_h_long32.PINK_RANDOM_BITS - 1) : Nat) : Rat) ∧
    0 < (initialize_pink_noise pink_h_long32 pink_stale 0).pink_scalar ∧
    (∀ i, i < 0 → (initialize_pink_noise pink_h_long32 pink_stale 0).pink_rows[i]? = some 0) ∧
    (∀ i, 0 ≤ i →
      (initialize_pink_noise pink_h_long32 pink_stale 0).pink_rows[i]?
        = pink_stale.pink_rows[i]?) ∧
    (∀ (rand_seed n : Nat), ∃ s p r,
      after_calls pink_h_long32 rand_seed (initialize_pink_noise pink_h_long32 pink_stale 0) n
        = some (s, p) ∧
      generate_pink_noise_sample pink_h_long32 s p = some r) ∧
    (0 = 0 → (initialize_pink_noise pink_h_long32 pink_stale 0).pink_index_mask = 0 ∧
      (initialize_pink_noise pink_h_long32 pink_stale 0).pink_rows = pink_stale.pink_rows ∧
      (initialize_pink_noise pink_h_long32 pink_stale 0).pink_scalar
        = 1 / ((2 ^ (pink_h_long32.PINK_RANDOM_BITS - 1) : Nat) : Rat))) :=
  ⟨⟨by decide, by decide, by decide, by decide⟩,
   initialize_never_rejects pink_h_long32 pink_stale 0 (by decide) (by decide) (by decide)
     (by decide)⟩

/-- C14, as stated, fails: `initialize_pink_noise` with `num_rows = 0` is not
rejected.  It returns a generator with index 0, running sum 0, mask 0 and the
rows it had, with `pmax = 2^23`; the first call of `generate_pink_noise_sample`
on it completes, draws once from the seed 22222 and leaves the generator as it
was. -/
theorem initialize_rejects_counterexample :
    (initialize_pink_noise pink_h_long32 pink_stale 0).pink_index = 0 ∧
    (initialize_pink_noise pink_h_long32 pink_stale 0).pink_running_sum = 0 ∧
    (initialize_pink_noise pink_h_long32 pink_stale 0).pink_index_mask = 0 ∧
    (initialize_pink_noise pink_h_long32 pink_stale 0).pink_rows = pink_stale.pink_rows ∧
    pmax pink_h_long32 0 = 8388608 ∧
    (generate_pink_noise_sample pink_h_long32 22222
      (initialize_pink_noise pink_h_long32 pink_stale 0)).isSome = true ∧
    (generate_pink_noise_sample pink_h_long32 22222
      (initialize_pink_noise pink_h_long32 pink_stale 0)).map
        (fun r => (r.rand_seed, r.new_random, r.sum, r.row))
      = some (4009202705, -1116268, -1116268, none) ∧
    (generate_pink_noise_sample pink_h_long32 22222
      (initialize_pink_noise pink_h_long32 pink_stale 0)).map (fun r => r.pink)
      = some (initialize_pink_noise pink_h_long32 pink_stale 0) ∧
    (generate_pink_noise_sample pink_h_long32 22222
      (initialize_pink_noise pink_h_long32 pink_stale 0)).map (fun r => r.returned)
      = some (some ((-279067 : Rat) / 2097152)) := by
  refine ⟨by decide, by decide, by decide, by decide, by decide, by decide, by decide, ?_, ?_⟩
  · decide!
  · decide!

end Pink

namespace Captions

theorem takeWhile_lt_eq_nil (subs : List text_subtitle_t) (t : Nat)
    (hall : ∀ b ∈ subs, t ≤ b.m_start) :
    subs.takeWhile (fun s => subtitle_lt s ⟨t, t, []⟩) = [] := by
  cases subs with
  | nil => rfl
  | cons b rest =>
    have hb := hall b (List.mem_cons_self b rest)
    have : subtitle_lt b ⟨t, t, []⟩ = false := by
      simp only [subtitle_lt, decide_eq_false_iff_not]; omega
    rw [List.takeWhile_cons, this]
    rfl

/-- In a list of subtitles whose spans are not empty and follow one another,
the subtitle whose span holds `t` after its first timecode is the last one
before the cut that `std::lower_bound` makes for `t`. -/
theorem lower_bound_getLast (subs : List text_subtitle_t) (s : text_subtitle_t) (t : Nat)
    (hsorted : subs.Pairwise (fun a b => a.m_end < b.m_start))
    (hspan : ∀ a ∈ subs, a.m_start ≤ a.m_end)
    (hmem : s ∈ subs) (hlo : s.m_start < t) (hhi : t ≤ s.m_end) :
    (lower_bound subs ⟨t, t, []⟩).1.getLast? = some s := by
  unfold lower_bound
  simp only
  induction subs with
  | nil => exact absurd hmem (List.not_mem_nil s)
  | cons a rest ih =>
    obtain ⟨ha, hrest⟩ := List.pairwise_cons.mp hsorted
    have hspan' : ∀ b ∈ rest, b.m_start ≤ b.m_end :=
      fun b hb => hspan b (List.mem_cons_of_mem a hb)
    rcases List.mem_cons.mp hmem with rfl | hin
    · have hp : subtitle_lt s ⟨t, t, []⟩ = true := by
        simp only [subtitle_lt, decide_eq_true_eq]; exact hlo
      rw [List.takeWhile_cons, hp]
      have hnil := takeWhile_lt_eq_nil rest t (fun b hb => by have := ha b hb; omega)
      simp only [if_true, hnil]
      rfl
    · have h1 := ha s hin
      have h2 := hspan a (List.mem_cons_self a rest)
      have hp : subtitle_lt a ⟨t, t, []⟩ = true := by
        simp only [subtitle_lt, decide_eq_true_eq]; omega
      have hih := ih hrest hspan' hin
      rw [List.takeWhile_cons, hp]
      simp only [if_true]
      rw [List.getLast?_cons, hih]
      rfl

/-- Inside a span, past its first timecode, `GetSubtitles` finds the subtitle:
it returns its lines, records it, and `HasSubtitleChanged` is false at that
timecode. -/
theorem GetSubtitles_inside_span (self : TextSubtitles) (s : text_subtitle_t) (t : Nat)
    (hsorted : self.m_subtitles.Pairwise (fun a b => a.m_end < b.m_start))
    (hspan : ∀ a ∈ self.m_subtitles, a.m_start ≤ a.m_end)
    (hmem : s ∈ self.m_subtitles) (hlo : s.m_start < t) (hhi : t ≤ s.m_end) :
    self.GetSubtitles t = (s.m_textLines, { self with m_lastReturnedSubtitle := s }) ∧
    (self.GetSubtitles t).2.HasSubtitleChanged t = false := by
  have hlast := lower_bound_getLast self.m_subtitles s t hsorted hspan hmem hlo hhi
  have hne : self.m_subtitles.isEmpty = false := by
    cases hl : self.m_subtitles with
    | nil => rw [hl] at hmem; exact absurd hmem (List.not_mem_nil s)
    | cons a l => rfl
  have hget : self.GetSubtitles t
      = (s.m_textLines, { self with m_lastReturnedSubtitle := s }) := by
    unfold TextSubtitles.GetSubtitles
    simp only [hne, Bool.and_false, hlast]
    have hcond : s.m_start ≤ t ∧ s.m_end ≥ t := ⟨by omega, hhi⟩
    simp [hcond]
  refine ⟨hget, ?_⟩
  rw [hget]
  simp only [TextSubtitles.HasSubtitleChanged, Bool.or_eq_false_iff, decide_eq_false_iff_not]
  constructor <;> omega

/-- At the first timecode of a span `GetSubtitles` does not find the subtitle:
`std::lower_bound` cuts the list in front of it, no line is returned, and the
blank span recorded ends one timecode earlier, so that `HasSubtitleChanged` is
true at that timecode (for a start time of at least 1). -/
theorem GetSubtitles_at_start (self : TextSubtitles) (s : text_subtitle_t)
    (hsorted : self.m_subtitles.Pairwise (fun a b => a.m_end < b.m_start))
    (hspan : ∀ a ∈ self.m_subtitles, a.m_start ≤ a.m_end)
    (hmem : s ∈ self.m_subtitles) (hpos : 1 ≤ s.m_start) (h64 : s.m_start < 2 ^ 64) :
    (self.GetSubtitles s.m_start).1 = [] ∧
    (self.GetSubtitles s.m_start).2.m_lastReturnedSubtitle.m_end = s.m_start - 1 ∧
    (self.GetSubtitles s.m_start).2.HasSubtitleChanged s.m_start = true := by
  obtain ⟨l1, l2, hl⟩ := List.append_of_mem hmem
  rw [hl] at hsorted hspan
  obtain ⟨h1, -, h12⟩ := List.pairwise_append.mp hsorted
  have hbefore : ∀ a ∈ l1, subtitle_lt a ⟨s.m_start, s.m_start, []⟩ = true := by
    intro a ha
    have hae := h12 a ha s (List.mem_cons_self s l2)
    have has := hspan a (List.mem_append_left _ ha)
    simp only [subtitle_lt, decide_eq_true_eq]
    omega
  have hs : subtitle_lt s ⟨s.m_start, s.m_start, []⟩ = false := by
    simp [subtitle_lt]
  have hcut : lower_bound self.m_subtitles ⟨s.m_start, s.m_start, []⟩ = (l1, s :: l2) := by
    unfold lower_bound
    rw [hl, List.takeWhile_append_of_pos hbefore, List.dropWhile_append_of_pos hbefore,
      List.takeWhile_cons, List.dropWhile_cons, hs]
    simp
  have hne : self.m_subtitles.isEmpty = false := by
    rw [hl]; cases l1 <;> rfl
  have hend : to_uint64 ((s.m_start : Int) - 1) = s.m_start - 1 := by
    unfold to_uint64
    have h2 : ((s.m_start : Int) - 1) = ((s.m_start - 1 : Nat) : Int) := by omega
    rw [h2]
    have h3 : (((s.m_start - 1 : Nat) : Int) % ((2 ^ 64 : Nat) : Int))
        = (((s.m_start - 1) % 2 ^ 64 : Nat) : Int) := by push_cast; rfl
    rw [h3, Int.toNat_natCast, Nat.mod_eq_of_lt (by omega)]
  have hres : ∃ startCode, self.GetSubtitles s.m_start
      = ([], { self with m_lastReturnedSubtitle := ⟨startCode, s.m_start - 1, []⟩ }) := by
    unfold TextSubtitles.GetSubtitles
    simp only [hne, Bool.and_false, hcut, List.head?_cons, hend]
    cases hlast : l1.getLast? with
    | none => exact ⟨0, by simp⟩
    | some u =>
      have hu : u ∈ l1 := List.mem_of_getLast?_eq_some hlast
      have hue := h12 u hu s (List.mem_cons_self s l2)
      have hcond : ¬ (u.m_start ≤ s.m_start ∧ u.m_end ≥ s.m_start) := by omega
      exact ⟨to_uint64 ((u.m_end : Int) + 1), by simp [hcond]⟩
  obtain ⟨startCode, hres⟩ := hres
  rw [hres]
  refine ⟨rfl, rfl, ?_⟩
  simp only [TextSubtitles.HasSubtitleChanged, Bool.or_eq_true, decide_eq_true_eq]
  right
  omega

/-- C15 (subtitle lookup), evaluated on a list of two subtitles, `[10, 20]` with
the line "first" and `[30, 40]` with the line "second".  At the timecodes 31 and
40, inside the second span, `GetSubtitles` returns its line and records it.  At
timecode 30, the start of that span, `std::lower_bound` stops at the subtitle
itself, the subtitle before it is taken as the current one, and `GetSubtitles`
returns no line and records the blank span `[21, 29]`; at timecode 10 it returns
no line either and records the blank span `[0, 9]`. -/
theorem lookup_at_start_time :
    (two_subtitles.GetSubtitles 31).1 = ["second"] ∧
    (two_subtitles.GetSubtitles 31).2.m_lastReturnedSubtitle = ⟨30, 40, ["second"]⟩ ∧
    (two_subtitles.GetSubtitles 40).1 = ["second"] ∧
    (two_subtitles.GetSubtitles 30).1 = [] ∧
    (two_subtitles.GetSubtitles 30).2.m_lastReturnedSubtitle = ⟨21, 29, []⟩ ∧
    (two_subtitles.GetSubtitles 10).1 = [] ∧
    (two_subtitles.GetSubtitles 10).2.m_lastReturnedSubtitle = ⟨0, 9, []⟩ := by
  decide

/-- C16 (no redisplay), evaluated on the same list.  After `GetSubtitles` at the
timecodes 31 (a subtitle is found) and 25 (a blank span is recorded)
`HasSubtitleChanged` is false at the same timecode.  After `GetSubtitles` at
timecode 30, the start of the second span, the blank span recorded is
`[21, 29]` and `HasSubtitleChanged(30)` is true; likewise at timecode 10. -/
theorem changed_at_start_time :
    (two_subtitles.GetSubtitles 31).2.HasSubtitleChanged 31 = false ∧
    (two_subtitles.GetSubtitles 25).2.HasSubtitleChanged 25 = false ∧
    (two_subtitles.GetSubtitles 30).2.HasSubtitleChanged 30 = true ∧
    (two_subtitles.GetSubtitles 10).2.HasSubtitleChanged 10 = true := by
  decide

end Captions

namespace Pink

/-- C17 (equivalence with the naive resum): for `R ≤ 30` rows (so for
`1 ≤ R ≤ 30`), every seed and every `N`, the first `N` values returned by
`generate_pink_noise_sample` after `initialize_pink_noise` are the first `N`
values of the reference generator that recomputes the sum of the `R` rows on
every call, and every one of these calls completes. -/
theorem incremental_equals_naive (h : pink_h) (rand_seed : Nat) (pink : pink_noise_t)
    (R N : Nat) (hR30 : R ≤ 30) (hcap : R ≤ pink.pink_rows.length) :
    sample_sequence h rand_seed (initialize_pink_noise h pink R) N
      = naive_sample_sequence h R rand_seed (initialize_pink_noise h pink R) N ∧
    ∀ x ∈ sample_sequence h rand_seed (initialize_pink_noise h pink R) N, x ≠ none := by
  constructor
  · unfold sample_sequence naive_sample_sequence
    apply List.map_congr_left
    intro k _
    obtain ⟨s, p, hs, hinv⟩ := after_calls_reached h rand_seed pink R hR30 hcap k
    rw [naive_after_calls_eq h rand_seed pink R hR30 hcap k, kth_call, Nat.add_sub_cancel, hs]
    simp only []
    rw [naive_resum_sample_eq h s _ p R k hR30 (by rw [initialize_length]; exact hcap) hinv]
  · intro x hx
    unfold sample_sequence at hx
    obtain ⟨k, -, rfl⟩ := List.mem_map.mp hx
    obtain ⟨s, p, r, -, -, -, hkth, -, -⟩ :=
      kth_call_reached h rand_seed pink R (k + 1) hR30 hcap (by omega)
    rw [hkth]
    exact Option.noConfusion

/-- C17 with four rows and the first six values. -/
theorem incremental_equals_naive_witness :
    (4 ≤ 30 ∧ 4 ≤ pink_stale.pink_rows.length) ∧
    (sample_sequence pink_h_long64 22222 (initialize_pink_noise pink_h_long64 pink_stale 4) 6
      = naive_sample_sequence pink_h_long64 4 22222
          (initialize_pink_noise pink_h_long64 pink_stale 4) 6 ∧
    ∀ x ∈ sample_sequence pink_h_long64 22222
        (initialize_pink_noise pink_h_long64 pink_stale 4) 6, x ≠ none) :=
  ⟨⟨by decide, by decide⟩,
   incremental_equals_naive pink_h_long64 22222 pink_stale 4 6 (by decide) (by decide)⟩

/-- C18 (draw count and order): a call of `generate_pink_noise_sample` that
completes from seed `s` and stores a non-zero index has called
`generate_random_number` twice: the first value, cast and shifted, is the new
content of the selected row, the second, cast and shifted, is the white-noise
term, and the seed left is the second value; a call that stores index zero has
called it once: the value, cast and shifted, is the white-noise term, the seed
left is that value and no row changed.  A call completes whenever the mask is
`2^R - 1` for `R ≤ 30` rows inside the array. -/
theorem draw_count_and_order (h : pink_h) (s : Nat) (p : pink_noise_t) :
    (∀ r, generate_pink_noise_sample h s p = some r →
      (new_index p ≠ 0 → ∃ z, r.row = some z ∧
        r.pink.pink_rows[z]? = some (wrap_signed h.LONG_BITS
          ((generate_random_number h s).2 : Int) >>> h.PINK_RANDOM_SHIFT) ∧
        r.new_random = wrap_signed h.LONG_BITS
          ((generate_random_number h (generate_random_number h s).1).2 : Int)
            >>> h.PINK_RANDOM_SHIFT ∧
        r.rand_seed = (generate_random_number h (generate_random_number h s).1).1) ∧
      (new_index p = 0 → r.row = none ∧ r.pink.pink_rows = p.pink_rows ∧
        r.new_random = wrap_signed h.LONG_BITS
          ((generate_random_number h s).2 : Int) >>> h.PINK_RANDOM_SHIFT ∧
        r.rand_seed = (generate_random_number h s).1)) ∧
    (∀ R, R ≤ 30 → p.pink_index_mask = ((2 ^ R : Nat) : Int) - 1 → R ≤ p.pink_rows.length →
      ∃ r, generate_pink_noise_sample h s p = some r) := by
  constructor
  · intro r hr
    obtain ⟨h1, h2⟩ := generate_draws h s p r hr
    constructor
    · intro hn
      obtain ⟨z, hz, hrow, hrows, hnr, hsd⟩ := h1 hn
      refine ⟨z, hrow, ?_, hnr, hsd⟩
      rw [hrows, List.getElem?_set_self hz]
      rfl
    · intro hz
      exact h2 hz
  · intro R hR hmask hcap
    rcases update_row_eq h s p R hR hmask hcap with ⟨-, hu⟩ | ⟨c, q, old, -, -, -, hu⟩
    · exact ⟨_, generate_of_update_row h s p _ _ _ hu⟩
    · exact ⟨_, generate_of_update_row h s p _ _ _ hu⟩

/-- C18 on two generators with seven as mask: index 3 (the call stores 4 and
draws twice) and index 7 (the call stores 0 and draws once). -/
theorem draw_count_and_order_witness :
    (∃ r, generate_pink_noise_sample pink_h_long32 22222
        { pink_stale with pink_index_mask := 7 } = some r ∧
      new_index { pink_stale with pink_index_mask := 7 } ≠ 0 ∧
      r.rand_seed = (generate_random_number pink_h_long32
        (generate_random_number pink_h_long32 22222).1).1) ∧
    (∃ r, generate_pink_noise_sample pink_h_long32 22222
        { pink_stale with pink_index := 7, pink_index_mask := 7 } = some r ∧
      new_index { pink_stale with pink_index := 7, pink_index_mask := 7 } = 0 ∧
      r.rand_seed = (generate_random_number pink_h_long32 22222).1) := by
  constructor
  · obtain ⟨r, hr⟩ := (draw_count_and_order pink_h_long32 22222
      { pink_stale with pink_index_mask := 7 }).2 3 (by decide) (by decide) (by decide)
    have hn : new_index { pink_stale with pink_index_mask := 7 } ≠ 0 := by decide
    obtain ⟨z, -, -, -, hsd⟩ := ((draw_count_and_order pink_h_long32 22222
      { pink_stale with pink_index_mask := 7 }).1 r hr).1 hn
    exact ⟨r, hr, hn, hsd⟩
  · obtain ⟨r, hr⟩ := (draw_count_and_order pink_h_long32 22222
      { pink_stale with pink_index := 7, pink_index_mask := 7 }).2 3 (by decide) (by decide)
      (by decide)
    have hn : new_index { pink_stale with pink_index := 7, pink_index_mask := 7 } = 0 := by
      decide
    exact ⟨r, hr, hn, (((draw_count_and_order pink_h_long32 22222
      { pink_stale with pink_index := 7, pink_index_mask := 7 }).1 r hr).2 hn).2.2.2⟩

/-- C19, as amended (octave structure): for `R ≤ 30` and a row `i < R`, row
`i` is updated once every `2^(i+1)` calls of `generate_pink_noise_sample`: every
block of `2^(i+1)` consecutive calls (the calls `a + 1` to `a + 2^(i+1)`) holds
exactly one call that overwrites row `i`.  A block of `2^i` consecutive calls
holds at most one, and of two adjacent blocks of `2^i` calls exactly one holds
such a call.  The calls counted are those that leave the array of rows with
entry `i` replaced by a fresh draw: call `k` does so when
`k ≡ 2^i (mod 2^(i+1))`, and every other call leaves row `i` as it was. -/
theorem octave_structure (h : pink_h) (rand_seed : Nat) (pink : pink_noise_t)
    (R i a : Nat) (hR30 : R ≤ 30) (hcap : R ≤ pink.pink_rows.length) (hi : i < R) :
    row_writes h rand_seed (initialize_pink_noise h pink R) i a (2 ^ (i + 1)) = 1 ∧
    row_writes h rand_seed (initialize_pink_noise h pink R) i a (2 ^ i) ≤ 1 ∧
    row_writes h rand_seed (initialize_pink_noise h pink R) i a (2 ^ i)
      + row_writes h rand_seed (initialize_pink_noise h pink R) i (a + 2 ^ i) (2 ^ i) = 1 ∧
    row_overwrites h rand_seed (initialize_pink_noise h pink R) i a (2 ^ (i + 1)) = 1 ∧
    row_overwrites h rand_seed (initialize_pink_noise h pink R) i a (2 ^ i) ≤ 1 ∧
    row_overwrites h rand_seed (initialize_pink_noise h pink R) i a (2 ^ i)
      + row_overwrites h rand_seed (initialize_pink_noise h pink R) i (a + 2 ^ i) (2 ^ i)
      = 1 ∧
    ∀ k, 1 ≤ k →
      ∃ s p r, after_calls h rand_seed (initialize_pink_noise h pink R) (k - 1) = some (s, p) ∧
        generate_pink_noise_sample h s p = some r ∧
        after_calls h rand_seed (initialize_pink_noise h pink R) k
          = some (r.rand_seed, r.pink) ∧
        (k % 2 ^ (i + 1) = 2 ^ i →
          overwrites_row h rand_seed (initialize_pink_noise h pink R) i k = true ∧
          r.pink.pink_rows = p.pink_rows.set i
            (wrap_signed h.LONG_BITS
              (((s * 196314165 + 907633515) % 2 ^ h.LONG_BITS : Nat) : Int)
              >>> h.PINK_RANDOM_SHIFT)) ∧
        (k % 2 ^ (i + 1) ≠ 2 ^ i →
          overwrites_row h rand_seed (initialize_pink_noise h pink R) i k = false ∧
          r.pink.pink_rows[i]? = p.pink_rows[i]?) := by
  have h1 := row_writes_blocks h rand_seed pink R i a 1 hR30 hcap hi
  rw [one_mul] at h1
  have h2 : 2 ^ (i + 1) = 2 ^ i + 2 ^ i := by rw [pow_succ]; ring
  have h3 := row_writes_add h rand_seed (initialize_pink_noise h pink R) i a (2 ^ i) (2 ^ i)
  rw [← h2, h1] at h3
  have g1 := row_overwrites_blocks h rand_seed pink R i a 1 hR30 hcap hi
  rw [one_mul] at g1
  have g3 := row_overwrites_add h rand_seed (initialize_pink_noise h pink R) i a
    (2 ^ i) (2 ^ i)
  rw [← h2, g1] at g3
  refine ⟨h1, by omega, h3.symm, g1, by omega, g3.symm, ?_⟩
  intro k hk
  obtain ⟨s, p, r, hs, hgen, hafter, -, hyes, hno⟩ :=
    kth_call_row_effect h rand_seed pink R k i hR30 hcap hk hi
  have hiff := overwrites_row_iff h rand_seed pink R k i hR30 hcap hk hi
  refine ⟨s, p, r, hs, hgen, hafter, ?_, ?_⟩
  · intro hmod
    exact ⟨hiff.mpr hmod, (hyes hmod).2.1⟩
  · intro hmod
    refine ⟨?_, (hno hmod).2⟩
    cases hov : overwrites_row h rand_seed (initialize_pink_noise h pink R) i k with
    | false => rfl
    | true => exact absurd (hiff.mp hov) hmod

/-- C19 as amended, with three rows, for row 1 and the calls 6 to 9. -/
theorem octave_structure_witness :
    (3 ≤ 30 ∧ 3 ≤ pink_stale.pink_rows.length ∧ 1 < 3) ∧
    (row_writes pink_h_long32 22222 (initialize_pink_noise pink_h_long32 pink_stale 3) 1 5
        (2 ^ (1 + 1)) = 1 ∧
    row_writes pink_h_long32 22222 (initialize_pink_noise pink_h_long32 pink_stale 3) 1 5
        (2 ^ 1) ≤ 1 ∧
    row_writes pink_h_long32 22222 (initialize_pink_noise pink_h_long32 pink_stale 3) 1 5
        (2 ^ 1)
      + row_writes pink_h_long32 22222 (initialize_pink_noise pink_h_long32 pink_stale 3) 1
          (5 + 2 ^ 1) (2 ^ 1) = 1 ∧
    row_overwrites pink_h_long32 22222 (initialize_pink_noise pink_h_long32 pink_stale 3) 1 5
        (2 ^ (1 + 1)) = 1 ∧
    row_overwrites pink_h_long32 22222 (initialize_pink_noise pink_h_long32 pink_stale 3) 1 5
        (2 ^ 1) ≤ 1 ∧
    row_overwrites pink_h_long32 22222 (initialize_pink_noise pink_h_long32 pink_stale 3) 1 5
        (2 ^ 1)
      + row_overwrites pink_h_long32 22222 (initialize_pink_noise pink_h_long32 pink_stale 3) 1
          (5 + 2 ^ 1) (2 ^ 1) = 1 ∧
    ∀ k, 1 ≤ k →
      ∃ s p r, after_calls pink_h_long32 22222
          (initialize_pink_noise pink_h_long32 pink_stale 3) (k - 1) = some (s, p) ∧
        generate_pink_noise_sample pink_h_long32 s p = some r ∧
        after_calls pink_h_long32 22222 (initialize_pink_noise pink_h_long32 pink_stale 3) k
          = some (r.rand_seed, r.pink) ∧
        (k % 2 ^ (1 + 1) = 2 ^ 1 →
          overwrites_row pink_h_long32 22222
            (initialize_pink_noise pink_h_long32 pink_stale 3) 1 k = true ∧
          r.pink.pink_rows = p.pink_rows.set 1
            (wrap_signed pink_h_long32.LONG_BITS
              (((s * 196314165 + 907633515) % 2 ^ pink_h_long32.LONG_BITS : Nat) : Int)
              >>> pink_h_long32.PINK_RANDOM_SHIFT)) ∧
        (k % 2 ^ (1 + 1) ≠ 2 ^ 1 →
          overwrites_row pink_h_long32 22222
            (initialize_pink_noise pink_h_long32 pink_stale 3) 1 k = false ∧
          r.pink.pink_rows[1]? = p.pink_rows[1]?)) :=
  ⟨⟨by decide, by decide, by decide⟩,
   octave_structure pink_h_long32 22222 pink_stale 3 1 5 (by decide) (by decide) (by decide)⟩

/-- C19, as stated, fails: with four rows the block made of the second call
alone (`2^0` consecutive calls) holds no call that overwrites row 0, and the
block of the calls 3 and 4 (`2^1` consecutive calls) holds none that overwrites
row 1.  In the state: the first call stores `-1116268` in row 0, the second
leaves it there, and the third replaces it by `7058727`; the second call
stores `-272901` in row 1, and the third and the fourth leave it there. -/
theorem octave_structure_counterexample :
    row_writes pink_h_long32 22222 (initialize_pink_noise pink_h_long32 pink_stale 4) 0 1
        (2 ^ 0) = 0 ∧
    row_writes pink_h_long32 22222 (initialize_pink_noise pink_h_long32 pink_stale 4) 1 2
        (2 ^ 1) = 0 ∧
    ¬ (∀ a, row_writes pink_h_long32 22222
        (initialize_pink_noise pink_h_long32 pink_stale 4) 0 a (2 ^ 0) = 1) ∧
    row_overwrites pink_h_long32 22222 (initialize_pink_noise pink_h_long32 pink_stale 4) 0 0
        (2 ^ 0) = 1 ∧
    row_overwrites pink_h_long32 22222 (initialize_pink_noise pink_h_long32 pink_stale 4) 0 1
        (2 ^ 0) = 0 ∧
    row_overwrites pink_h_long32 22222 (initialize_pink_noise pink_h_long32 pink_stale 4) 0 2
        (2 ^ 0) = 1 ∧
    row_overwrites pink_h_long32 22222 (initialize_pink_noise pink_h_long32 pink_stale 4) 1 2
        (2 ^ 1) = 0 ∧
    (List.range 5).map
        (row_after pink_h_long32 22222 (initialize_pink_noise pink_h_long32 pink_stale 4) 0)
      = [some 0, some (-1116268), some (-1116268), some 7058727, some 7058727] ∧
    (List.range 5).map
        (row_after pink_h_long32 22222 (initialize_pink_noise pink_h_long32 pink_stale 4) 1)
      = [some 0, some 0, some (-272901), some (-272901), some (-272901)] := by
  refine ⟨by decide, by decide, ?_, by decide, by decide, by decide, by decide, by decide,
    by decide⟩
  intro hall
  have := hall 1
  revert this
  decide

/-- C20 (row range invariant): for `R ≤ 30` rows (so for `1 ≤ R ≤ 30`), when
`PINK_RANDOM_SHIFT` is the width of `long` minus `PINK_RANDOM_BITS` and `long`
has at least five bits more than `PINK_RANDOM_BITS`, every state reached from
`initialize_pink_noise` by `n` calls has all rows `pink_rows[i]`, `i < R`, in
`[-2^(PINK_RANDOM_BITS-1), 2^(PINK_RANDOM_BITS-1))` and
`|pink_running_sum| ≤ R * 2^(PINK_RANDOM_BITS-1)`, which is a value of `long`;
in the next call the difference `pink_running_sum - pink_rows[num_zeros]` and
the local `sum` are values of `long` too. -/
theorem row_range_invariant (h : pink_h) (rand_seed : Nat) (pink : pink_noise_t) (R n : Nat)
    (hR30 : R ≤ 30) (hcap : R ≤ pink.pink_rows.length)
    (hshift : h.PINK_RANDOM_SHIFT = h.LONG_BITS - h.PINK_RANDOM_BITS)
    (hB1 : 1 ≤ h.PINK_RANDOM_BITS) (hBW : h.PINK_RANDOM_BITS + 5 ≤ h.LONG_BITS) :
    ∃ s p r, after_calls h rand_seed (initialize_pink_noise h pink R) n = some (s, p) ∧
      (∀ i, i < R → ∃ x, p.pink_rows[i]? = some x ∧
        -((2 ^ (h.PINK_RANDOM_BITS - 1) : Nat) : Int) ≤ x ∧
        x < ((2 ^ (h.PINK_RANDOM_BITS - 1) : Nat) : Int)) ∧
      |p.pink_running_sum| ≤ (R : Int) * ((2 ^ (h.PINK_RANDOM_BITS - 1) : Nat) : Int) ∧
      fits_long h p.pink_running_sum ∧
      generate_pink_noise_sample h s p = some r ∧
      (∀ z old, r.row = some z → p.pink_rows[z]? = some old →
        fits_long h (p.pink_running_sum - old)) ∧
      fits_long h r.sum := by
  obtain ⟨s, p, hs, hinv⟩ := after_calls_reached h rand_seed pink R hR30 hcap n
  have hcap0 : R ≤ (initialize_pink_noise h pink R).pink_rows.length := by
    rw [initialize_length]; exact hcap
  obtain ⟨r, hr, hinv', hshape⟩ := generate_reached h s _ p R n hR30 hcap0 hinv
  have hBW' : h.PINK_RANDOM_BITS ≤ h.LONG_BITS := by omega
  obtain ⟨hrows, hslo, hshi⟩ := reached_sum_bounds h R n _ p hcap0 hshift hB1 hBW' hinv
  obtain ⟨-, hslo', hshi'⟩ := reached_sum_bounds h R (n + 1) _ r.pink hcap0 hshift hB1 hBW' hinv'
  have hMpos : (0 : Int) < ((2 ^ (h.PINK_RANDOM_BITS - 1) : Nat) : Int) := by positivity
  have hrow : ∀ i, i < R → ∃ x, p.pink_rows[i]? = some x ∧ x ∈ p.pink_rows.take R := by
    intro i hi
    have hil : i < p.pink_rows.length := by rw [hinv.length]; omega
    refine ⟨p.pink_rows[i], List.getElem?_eq_getElem hil, ?_⟩
    rw [List.mem_take_iff_getElem]
    exact ⟨i, by omega, rfl⟩
  refine ⟨s, p, r, hs, ?_, ?_, ?_, hr, ?_, ?_⟩
  · intro i hi
    obtain ⟨x, hx, hmem⟩ := hrow i hi
    have := hrows x hmem
    exact ⟨x, hx, this.1, by omega⟩
  · rw [abs_le]
    constructor <;> linarith
  · apply rows_fit_long h R _ hR30 hB1 hBW
    · linarith
    · linarith
  · intro z old hz hold
    have hzR : z < R := by
      rcases hshape with ⟨-, hrow', -⟩ | ⟨c, q, old', -, hc, hrow', -⟩
      · rw [hrow'] at hz; exact Option.noConfusion hz
      · rw [hrow'] at hz
        have : c = z := Option.some.inj hz
        omega
    obtain ⟨x, hx, hmem⟩ := hrow z hzR
    rw [hold] at hx
    have hxo : old = x := Option.some.inj hx
    have hb := hrows x hmem
    apply rows_fit_long h R _ hR30 hB1 hBW
    · rw [hxo]; linarith
    · rw [hxo]; linarith
  · have hdraw : ∃ s2, r.new_random = (new_random_draw h s2).2 := by
      rcases hshape with ⟨-, -, -, -, hnr⟩ | ⟨c, q, old, -, -, -, -, -, -, hnr⟩
      · exact ⟨_, hnr⟩
      · exact ⟨_, hnr⟩
    obtain ⟨s2, hs2⟩ := hdraw
    obtain ⟨hdlo, hdhi⟩ := new_random_draw_range h s2 hshift hB1 hBW'
    rw [← hs2] at hdlo hdhi
    rw [generate_sum h s p r hr]
    apply rows_fit_long h R _ hR30 hB1 hBW
    · linarith
    · linarith

/-- C20 with thirty rows and a 32-bit `long`, after 100 calls. -/
theorem row_range_invariant_witness :
    (30 ≤ 30 ∧ 30 ≤ pink_stale.pink_rows.length ∧
      pink_h_long32.PINK_RANDOM_SHIFT
        = pink_h_long32.LONG_BITS - pink_h_long32.PINK_RANDOM_BITS ∧
      1 ≤ pink_h_long32.PINK_RANDOM_BITS ∧
      pink_h_long32.PINK_RANDOM_BITS + 5 ≤ pink_h_long32.LONG_BITS) ∧
    ∃ s p r, after_calls pink_h_long32 22222
        (initialize_pink_noise pink_h_long32 pink_stale 30) 100 = some (s, p) ∧
      (∀ i, i < 30 → ∃ x, p.pink_rows[i]? = some x ∧
        -((2 ^ (pink_h_long32.PINK_RANDOM_BITS - 1) : Nat) : Int) ≤ x ∧
        x < ((2 ^ (pink_h_long32.PINK_RANDOM_BITS - 1) : Nat) : Int)) ∧
      |p.pink_running_sum|
        ≤ ((30 : Nat) : Int) * ((2 ^ (pink_h_long32.PINK_RANDOM_BITS - 1) : Nat) : Int) ∧
      fits_long pink_h_long32 p.pink_running_sum ∧
      generate_pink_noise_sample pink_h_long32 s p = some r ∧
      (∀ z old, r.row = some z → p.pink_rows[z]? = some old →
        fits_long pink_h_long32 (p.pink_running_sum - old)) ∧
      fits_long pink_h_long32 r.sum :=
  ⟨⟨by decide, by decide, by decide, by decide, by decide⟩,
   row_range_invariant pink_h_long32 22222 pink_stale 30 100 (by decide) (by decide)
     (by decide) (by decide) (by decide)⟩

end Pink

namespace AudioProcessor

theorem MAX_ACCUM_eq : MAX_ACCUM = 2 ^ 64 - 2 - 0xFFFF * 0xFFFF := by decide

theorem square_bounds (x : Int) (hlo : -32768 ≤ x) (hhi : x ≤ 32767) :
    0 ≤ x * x ∧ x * x ≤ 2 ^ 30 := by
  constructor
  · exact mul_self_nonneg x
  · nlinarith

theorem sum_of_squares_succ (samples : Nat → Int) (n : Nat) :
    sum_of_squares samples (n + 1) = sum_of_squares samples n + samples n ^ 2 := by
  unfold sum_of_squares
  rw [List.range_succ, List.map_append, List.sum_append]
  simp

theorem sum_of_squares_bounds (samples : Nat → Int) (n : Nat)
    (h16 : ∀ i, i < n → -32768 ≤ samples i ∧ samples i ≤ 32767) :
    0 ≤ sum_of_squares samples n ∧ sum_of_squares samples n ≤ (n : Int) * 2 ^ 30 := by
  induction n with
  | zero => simp [sum_of_squares]
  | succ n ih =>
    obtain ⟨h0, h1⟩ := ih (fun i hi => h16 i (by omega))
    obtain ⟨hlo, hhi⟩ := h16 n (by omega)
    obtain ⟨hs0, hs1⟩ := square_bounds (samples n) hlo hhi
    rw [sum_of_squares_succ, pow_two]
    push_cast
    constructor <;> linarith

theorem window_loop_succ (samples : Nat → Int) (n : Nat) :
    window_loop samples (n + 1)
      = (window_loop samples n).bind (fun state => accumulate_sample samples state n) := by
  unfold window_loop
  rw [List.range_succ, List.foldlM_append]
  cases (List.foldlM (accumulate_sample samples) ((0 : Nat), (0 : Int)) (List.range n)) with
  | none => rfl
  | some st => simp [List.foldlM]

/-- One pass of the loop below the limit, with no shift so far: the square of
the sample is added exactly and the shift stays zero. -/
theorem accumulate_sample_exact (samples : Nat → Int) (a i : Nat)
    (ha : a < MAX_ACCUM) (hlo : -32768 ≤ samples i) (hhi : samples i ≤ 32767) :
    accumulate_sample samples (a, 0) i = some (a + (samples i ^ 2).toNat, 0) := by
  obtain ⟨hs0, hs1⟩ := square_bounds (samples i) hlo hhi
  have hM := MAX_ACCUM_eq
  have hw : Pink.wrap_signed Pink.INT_BITS (samples i * samples i) = samples i * samples i := by
    apply Pink.wrap_signed_eq_self
    · decide
    · simp only [Pink.INT_BITS]; norm_num; linarith
    · simp only [Pink.INT_BITS]; norm_num; linarith
  obtain ⟨m, hm⟩ := Int.eq_ofNat_of_zero_le hs0
  have hm30 : m ≤ 2 ^ 30 := by
    have : (m : Int) ≤ 2 ^ 30 := by rw [← hm]; exact hs1
    exact_mod_cast this
  have hu : Pink.to_unsigned 64 (samples i * samples i) = m := by
    rw [hm]
    exact Pink.to_unsigned_natCast 64 m (by omega)
  have hsq : (samples i ^ 2).toNat = m := by
    rw [pow_two, hm]; rfl
  unfold accumulate_sample
  have hnot : ¬ (a ≥ MAX_ACCUM) := by omega
  simp only [hnot, if_false, hw, hu, hsq]
  have hlt : a + m < 18446744073709551616 := by omega
  simp [hlt]

/-- The loop over a window of at most `2 ^ 31 - 1` samples of 16 bits. -/
theorem window_loop_exact (samples : Nat → Int) (n : Nat) (hn : n ≤ 2 ^ 31 - 1)
    (h16 : ∀ i, i < n → -32768 ≤ samples i ∧ samples i ≤ 32767) :
    window_loop samples n = some ((sum_of_squares samples n).toNat, 0) := by
  induction n with
  | zero => rfl
  | succ n ih =>
    have hprev := ih (by omega) (fun i hi => h16 i (by omega))
    obtain ⟨h0, h1⟩ := sum_of_squares_bounds samples n (fun i hi => h16 i (by omega))
    obtain ⟨hlo, hhi⟩ := h16 n (by omega)
    obtain ⟨hs0, hs1⟩ := square_bounds (samples n) hlo hhi
    have hM := MAX_ACCUM_eq
    have hlt : (sum_of_squares samples n).toNat < MAX_ACCUM := by
      have hb : (n : Int) * 2 ^ 30 ≤ (2 ^ 31 - 1) * 2 ^ 30 := by
        have : (n : Int) ≤ 2 ^ 31 - 1 := by omega
        nlinarith
      have : sum_of_squares samples n < (MAX_ACCUM : Int) := by
        rw [hM]; norm_num; linarith
      omega
    rw [window_loop_succ, hprev]
    simp only [Option.bind]
    rw [accumulate_sample_exact samples _ n hlt hlo hhi, sum_of_squares_succ]
    have hs2 : 0 ≤ samples n ^ 2 := by rw [pow_two]; exact hs0
    rw [Int.toNat_add h0 hs2]

/-- C21: in a call of `SoftwareVolumeLevel` whose `sampleCount` is at most
`2 ^ 31 - 1`, on samples of 16 bits, the test `accum >= MAX_ACCUM` is false in
every pass of the loop: when pass `k` begins, and when the loop ends, `accum`
is the exact sum of the squares of the samples before `k`, below `2 ^ 61` and
so below `MAX_ACCUM = 2 ^ 64 - 2 - 0xFFFF * 0xFFFF`, and `accumShift` is 0.
The loop completes, and a call that returns has left the loop with these
values. -/
theorem window_overflow_unreachable (samples : Nat → Int) (sampleCount : Int)
    (hn : sampleCount ≤ 2 ^ 31 - 1)
    (h16 : ∀ i : Nat, (i : Int) < sampleCount → -32768 ≤ samples i ∧ samples i ≤ 32767) :
    MAX_ACCUM = 2 ^ 64 - 2 - 0xFFFF * 0xFFFF ∧
    (∀ k : Nat, (k : Int) ≤ sampleCount →
      ∃ accum, window_loop samples k = some (accum, 0) ∧
        (accum : Int) = sum_of_squares samples k ∧
        accum ≤ k * 2 ^ 30 ∧ accum < 2 ^ 61 ∧ ¬ (accum ≥ MAX_ACCUM)) ∧
    (∃ accum, window_loop samples sampleCount.toNat = some (accum, 0) ∧
      (accum : Int) = sum_of_squares samples sampleCount.toNat ∧ accum < 2 ^ 64) ∧
    (∀ (size_t_bits : Nat) (statics : volume_statics) (size count : Int) (r : volume_result),
      sample_count size_t_bits size count = some sampleCount →
      SoftwareVolumeLevel size_t_bits statics samples size count = some r →
      r.window_shift = 0 ∧ (r.window_accum : Int) = sum_of_squares samples sampleCount.toNat) := by
  have hM := MAX_ACCUM_eq
  have hpre : ∀ k : Nat, (k : Int) ≤ sampleCount →
      ∃ accum, window_loop samples k = some (accum, 0) ∧
        (accum : Int) = sum_of_squares samples k ∧
        accum ≤ k * 2 ^ 30 ∧ accum < 2 ^ 61 ∧ ¬ (accum ≥ MAX_ACCUM) := by
    intro k hk
    have h16k : ∀ i, i < k → -32768 ≤ samples i ∧ samples i ≤ 32767 :=
      fun i hi => h16 i (by omega)
    have hk31 : k ≤ 2 ^ 31 - 1 := by omega
    obtain ⟨h0, h1⟩ := sum_of_squares_bounds samples k h16k
    have hle : (sum_of_squares samples k).toNat ≤ k * 2 ^ 30 := by
      have : ((sum_of_squares samples k).toNat : Int) ≤ ((k * 2 ^ 30 : Nat) : Int) := by
        rw [Int.toNat_of_nonneg h0]; push_cast; exact h1
      exact_mod_cast this
    refine ⟨_, window_loop_exact samples k hk31 h16k, Int.toNat_of_nonneg h0, hle, ?_, ?_⟩
    · omega
    · omega
  refine ⟨hM, hpre, ?_, ?_⟩
  · by_cases hneg : 0 ≤ sampleCount
    · obtain ⟨a, ha, hs, -, hlt, -⟩ := hpre sampleCount.toNat (by omega)
      exact ⟨a, ha, hs, by omega⟩
    · have hz : sampleCount.toNat = 0 := by omega
      rw [hz]
      exact ⟨0, rfl, rfl, by norm_num⟩
  · intro size_t_bits statics size count r hsc hr
    have hloop : window_loop samples sampleCount.toNat
        = some ((sum_of_squares samples sampleCount.toNat).toNat, 0) :=
      window_loop_exact samples _ (by omega) (fun i hi => h16 i (by omega))
    have h0 := (sum_of_squares_bounds samples sampleCount.toNat
      (fun i hi => h16 i (by omega))).1
    unfold SoftwareVolumeLevel at hr
    rw [hsc] at hr
    simp only [hloop] at hr
    cases hnorm : normalize_shifts (check_overall statics)
        (sum_of_squares samples sampleCount.toNat).toNat 0 with
    | none => rw [hnorm] at hr; exact absurd hr (by simp)
    | some t =>
      obtain ⟨normalized, accum2, accumShift2⟩ := t
      rw [hnorm] at hr
      have := Option.some.inj hr
      subst this
      exact ⟨rfl, Int.toNat_of_nonneg h0⟩

/-- C21 for a window of five samples `-32768`, passed with `size = 10` and
`count = 5`. -/
theorem window_overflow_unreachable_witness :
    ((5 : Int) ≤ 2 ^ 31 - 1 ∧
     (∀ i : Nat, (i : Int) < 5 → -32768 ≤ full_scale i ∧ full_scale i ≤ 32767)) ∧
    (MAX_ACCUM = 2 ^ 64 - 2 - 0xFFFF * 0xFFFF ∧
    (∀ k : Nat, (k : Int) ≤ 5 →
      ∃ accum, window_loop full_scale k = some (accum, 0) ∧
        (accum : Int) = sum_of_squares full_scale k ∧
        accum ≤ k * 2 ^ 30 ∧ accum < 2 ^ 61 ∧ ¬ (accum ≥ MAX_ACCUM)) ∧
    (∃ accum, window_loop full_scale (5 : Int).toNat = some (accum, 0) ∧
      (accum : Int) = sum_of_squares full_scale (5 : Int).toNat ∧ accum < 2 ^ 64) ∧
    (∀ (size_t_bits : Nat) (statics : volume_statics) (size count : Int) (r : volume_result),
      sample_count size_t_bits size count = some 5 →
      SoftwareVolumeLevel size_t_bits statics full_scale size count = some r →
      r.window_shift = 0 ∧
        (r.window_accum : Int) = sum_of_squares full_scale (5 : Int).toNat)) :=
  ⟨⟨by decide, fun _ _ => ⟨by simp [full_scale], by simp [full_scale]⟩⟩,
   window_overflow_unreachable full_scale 5 (by decide)
     (fun _ _ => ⟨by simp [full_scale], by simp [full_scale]⟩)⟩

/-- After the block that normalizes the shifts, the window and the overall
accumulator carry the same number of shifts. -/
theorem normalize_shifts_same (statics normalized : volume_statics) (accum accum2 : Nat)
    (accumShift accumShift2 : Int)
    (hnorm : normalize_shifts statics accum accumShift = some (normalized, accum2, accumShift2)) :
    accumShift2 = normalized.accumSRMSShift := by
  unfold normalize_shifts at hnorm
  by_cases h1 : accumShift > statics.accumSRMSShift
  · rw [if_pos h1] at hnorm
    simp only at hnorm
    split_ifs at hnorm with hd
    simp only [Option.some.injEq, Prod.mk.injEq] at hnorm
    obtain ⟨rfl, -, rfl⟩ := hnorm
    rfl
  · rw [if_neg h1] at hnorm
    by_cases h2 : accumShift < statics.accumSRMSShift
    · rw [if_pos h2] at hnorm
      simp only at hnorm
      split_ifs at hnorm with hd
      simp only [Option.some.injEq, Prod.mk.injEq] at hnorm
      obtain ⟨rfl, -, rfl⟩ := hnorm
      rfl
    · rw [if_neg h2] at hnorm
      simp only [Option.some.injEq, Prod.mk.injEq] at hnorm
      obtain ⟨rfl, -, rfl⟩ := hnorm
      omega

/-- After the check of the overall accumulator it is below `MAX_ACCUM`. -/
theorem check_overall_lt (statics : volume_statics) (h64 : statics.accumSRMS < 2 ^ 64) :
    (check_overall statics).accumSRMS < MAX_ACCUM := by
  have hM := MAX_ACCUM_eq
  unfold check_overall
  split_ifs with hge
  · simp only [Nat.shiftRight_eq_div_pow]
    omega
  · omega

/-- A call on statics that carry no shift and are below `MAX_ACCUM`: the sum of
the squares of the window is added to the overall accumulator modulo `2 ^ 64`. -/
theorem SoftwareVolumeLevel_unshifted (size_t_bits : Nat) (statics : volume_statics)
    (samples : Nat → Int) (size count sampleCount : Int)
    (hsc : sample_count size_t_bits size count = some sampleCount)
    (hn : sampleCount ≤ 2 ^ 31 - 1)
    (h16 : ∀ i : Nat, (i : Int) < sampleCount → -32768 ≤ samples i ∧ samples i ≤ 32767)
    (hshift : statics.accumSRMSShift = 0) (hbelow : statics.accumSRMS < MAX_ACCUM) :
    SoftwareVolumeLevel size_t_bits statics samples size count
      = some { statics :=
                 { accumSRMS := (statics.accumSRMS
                     + (sum_of_squares samples sampleCount.toNat).toNat) % 2 ^ 64
                   accumSRMSShift := 0
                   accumSample :=
                     (statics.accumSample + Pink.to_unsigned 64 sampleCount) % 2 ^ 64 }
               sampleCount := sampleCount
               window_accum := (sum_of_squares samples sampleCount.toNat).toNat
               window_shift := 0
               overall_operand := statics.accumSRMS
               accum_operand := (sum_of_squares samples sampleCount.toNat).toNat
               accumShift := 0 } := by
  have hloop : window_loop samples sampleCount.toNat
      = some ((sum_of_squares samples sampleCount.toNat).toNat, 0) :=
    window_loop_exact samples _ (by omega) (fun i hi => h16 i (by omega))
  have hcheck : check_overall statics = statics := by
    unfold check_overall
    rw [if_neg (by omega)]
  have hnorm : ∀ a : Nat, normalize_shifts statics a 0 = some (statics, a, 0) := by
    intro a
    unfold normalize_shifts
    rw [hshift]
    simp
  unfold SoftwareVolumeLevel
  rw [hsc]
  simp only [hloop, hcheck, hnorm, hshift]

theorem sum_of_squares_full_scale (n : Nat) :
    sum_of_squares full_scale n = ((n * 2 ^ 30 : Nat) : Int) := by
  induction n with
  | zero => rfl
  | succ n ih =>
    rw [sum_of_squares_succ, ih]
    simp only [full_scale]
    push_cast
    ring

/-- Calls on one window repeated `k` times, as long as the overall accumulator
stays below `MAX_ACCUM`: each call adds the sum `c` of the squares of the
window. -/
theorem after_windows_replicate (size_t_bits : Nat) (samples : Nat → Int)
    (size count sampleCount : Int) (c u : Nat)
    (hsc : sample_count size_t_bits size count = some sampleCount)
    (hn : sampleCount ≤ 2 ^ 31 - 1)
    (h16 : ∀ i : Nat, (i : Int) < sampleCount → -32768 ≤ samples i ∧ samples i ≤ 32767)
    (hc : (sum_of_squares samples sampleCount.toNat).toNat = c)
    (hu : Pink.to_unsigned 64 sampleCount = u) (k : Nat) : ∀ (a m : Nat),
    a + k * c < MAX_ACCUM → m + k * u < 2 ^ 64 →
    after_windows size_t_bits ⟨a, 0, m⟩ (List.replicate k (samples, size, count))
      = some ⟨a + k * c, 0, m + k * u⟩ := by
  have hM := MAX_ACCUM_eq
  induction k with
  | zero => intro a m _ _; simp [after_windows]
  | succ k ih =>
    intro a m ha hm
    have e1 : a + c + k * c = a + (k + 1) * c := by ring
    have e2 : m + u + k * u = m + (k + 1) * u := by ring
    have hcall := SoftwareVolumeLevel_unshifted size_t_bits ⟨a, 0, m⟩ samples size count
      sampleCount hsc hn h16 rfl (by simp only; omega)
    rw [hc, hu] at hcall
    simp only at hcall
    rw [List.replicate_succ, after_windows, hcall]
    simp only
    rw [Nat.mod_eq_of_lt (by omega), Nat.mod_eq_of_lt (by omega)]
    rw [ih _ _ (by omega) (by omega), e1, e2]

/-- C22: the addition `accumSRMS += accum` can wrap.  With `accumSRMS` one
below `MAX_ACCUM` and no shift, a window of five samples `-32768` passes the
check, the shifts agree, and the sum exceeds `2 ^ 64`: the value stored is
1073872892.  Such statics arise from the initial ones: after sixteen windows of
`2 ^ 30 - 1` samples `-32768` the overall accumulator holds `2 ^ 64 - 2 ^ 34`,
still below `MAX_ACCUM`, and a further window of sixteen such samples brings it
to 0. -/
theorem overall_accumulator_wraps :
    (∃ r, SoftwareVolumeLevel 64 ⟨MAX_ACCUM - 1, 0, 0⟩ full_scale 10 5 = some r ∧
      r.sampleCount = 5 ∧ r.overall_operand = MAX_ACCUM - 1 ∧ r.accum_operand = 5 * 2 ^ 30 ∧
      r.accumShift = 0 ∧ r.statics.accumSRMSShift = 0 ∧
      2 ^ 64 ≤ r.overall_operand + r.accum_operand ∧
      r.statics.accumSRMS = 1073872892 ∧
      r.statics.accumSRMS ≠ r.overall_operand + r.accum_operand) ∧
    after_windows 64 ⟨0, 0, 0⟩ (List.replicate 16 (full_scale, 2147483646, 1))
      = some ⟨2 ^ 64 - 2 ^ 34, 0, 16 * (2 ^ 30 - 1)⟩ ∧
    2 ^ 64 - 2 ^ 34 < MAX_ACCUM ∧
    (∃ r, SoftwareVolumeLevel 64 ⟨2 ^ 64 - 2 ^ 34, 0, 16 * (2 ^ 30 - 1)⟩ full_scale 32 16
        = some r ∧
      r.sampleCount = 16 ∧ r.overall_operand = 2 ^ 64 - 2 ^ 34 ∧ r.accum_operand = 2 ^ 34 ∧
      r.accumShift = 0 ∧ r.statics.accumSRMSShift = 0 ∧ r.statics.accumSRMS = 0) := by
  refine ⟨⟨_, rfl, by decide⟩, ?_, by decide, ⟨_, rfl, by decide⟩⟩
  have hS : (sum_of_squares full_scale (1073741823 : Int).toNat).toNat
      = 1073741823 * 2 ^ 30 := by
    rw [sum_of_squares_full_scale]
    rfl
  have h := after_windows_replicate 64 full_scale 2147483646 1 1073741823
    (1073741823 * 2 ^ 30) 1073741823 (by decide) (by decide)
    (fun _ _ => ⟨by simp [full_scale], by simp [full_scale]⟩) hS (by decide) 16 0 0
    (by decide) (by decide)
  rw [h]
  decide

end AudioProcessor

namespace Captions

/-- The cut that `std::lower_bound` makes for `t` between two neighbours `a`
and `b` of a list sorted by start time, when `a` starts before `t` and `b`
does not. -/
theorem lower_bound_between (pre post : List text_subtitle_t) (a b : text_subtitle_t)
    (t : Nat)
    (hsorted : (pre ++ a :: b :: post).Pairwise (fun x y => x.m_start ≤ y.m_start))
    (ha : a.m_start < t) (hb : t ≤ b.m_start) :
    lower_bound (pre ++ a :: b :: post) ⟨t, t, []⟩ = (pre ++ [a], b :: post) := by
  have hpre : ∀ x ∈ pre, subtitle_lt x ⟨t, t, []⟩ = true := by
    intro x hx
    have h1 := (List.pairwise_append.mp hsorted).2.2 x hx a (List.mem_cons_self a _)
    simp only [subtitle_lt, decide_eq_true_eq]
    omega
  have hpa : subtitle_lt a ⟨t, t, []⟩ = true := by
    simp only [subtitle_lt, decide_eq_true_eq]; exact ha
  have hpb : subtitle_lt b ⟨t, t, []⟩ = false := by
    simp only [subtitle_lt, decide_eq_false_iff_not]; omega
  unfold lower_bound
  induction pre with
  | nil =>
    simp only [List.nil_append, List.takeWhile_cons, List.dropWhile_cons, hpa, hpb]
    simp
  | cons x rest ih =>
    have hx := hpre x (List.mem_cons_self x rest)
    have hrest := ih (List.pairwise_cons.mp hsorted).2
      (fun y hy => hpre y (List.mem_cons_of_mem x hy))
    simp only [List.cons_append, List.takeWhile_cons, List.dropWhile_cons, hx, if_true]
    simp only [Prod.mk.injEq] at hrest ⊢
    exact ⟨by rw [hrest.1], hrest.2⟩

/-- C23: in a list sorted by start time, for neighbours `a` and `b` and a
timecode `t` after the start and the end of `a` and before the start of `b`,
`GetSubtitles(t)` returns no line and records the blank subtitle from
`a.m_end + 1` to `b.m_start - 1`; afterwards `HasSubtitleChanged` is false at
exactly the timecodes of that span. -/
theorem blank_span_between (self : TextSubtitles) (pre post : List text_subtitle_t)
    (a b : text_subtitle_t) (t : Nat)
    (hlist : self.m_subtitles = pre ++ a :: b :: post)
    (hsorted : self.m_subtitles.Pairwise (fun x y => x.m_start ≤ y.m_start))
    (ha : a.m_start < t) (hae : a.m_end < t) (hb : t < b.m_start)
    (h64 : b.m_start < 2 ^ 64) :
    self.GetSubtitles t
      = ([], { self with m_lastReturnedSubtitle := ⟨a.m_end + 1, b.m_start - 1, []⟩ }) ∧
    ∀ t' : Nat, (self.GetSubtitles t).2.HasSubtitleChanged t' = false
      ↔ a.m_end + 1 ≤ t' ∧ t' ≤ b.m_start - 1 := by
  rw [hlist] at hsorted
  have hcut := lower_bound_between pre post a b t hsorted ha (by omega)
  have hne : self.m_subtitles.isEmpty = false := by
    rw [hlist]; cases pre <;> rfl
  have hstart : to_uint64 ((a.m_end : Int) + 1) = a.m_end + 1 := by
    unfold to_uint64
    have h1 : ((a.m_end : Int) + 1) % ((2 ^ 64 : Nat) : Int) = (a.m_end : Int) + 1 :=
      Int.emod_eq_of_lt (by omega) (by push_cast; omega)
    rw [h1]
    omega
  have hend : to_uint64 ((b.m_start : Int) - 1) = b.m_start - 1 := by
    unfold to_uint64
    have h1 : ((b.m_start : Int) - 1) % ((2 ^ 64 : Nat) : Int) = (b.m_start : Int) - 1 :=
      Int.emod_eq_of_lt (by omega) (by push_cast; omega)
    rw [h1]
    omega
  have hget : self.GetSubtitles t
      = ([], { self with m_lastReturnedSubtitle := ⟨a.m_end + 1, b.m_start - 1, []⟩ }) := by
    unfold TextSubtitles.GetSubtitles
    rw [hlist] at hne ⊢
    simp only [hne, Bool.and_false, hcut]
    have hcond : ¬ (a.m_start ≤ t ∧ a.m_end ≥ t) := by omega
    simp [hcond, hstart, hend]
  refine ⟨hget, ?_⟩
  intro t'
  rw [hget]
  simp only [TextSubtitles.HasSubtitleChanged, Bool.or_eq_false_iff, decide_eq_false_iff_not]
  omega

/-- C23 on the list of two subtitles, at timecode 25 between them: the blank
span recorded is from 21 to 29. -/
theorem blank_span_between_witness :
    (two_subtitles.m_subtitles = [] ++ ⟨10, 20, ["first"]⟩ :: ⟨30, 40, ["second"]⟩ :: [] ∧
     two_subtitles.m_subtitles.Pairwise (fun x y => x.m_start ≤ y.m_start) ∧
     10 < 25 ∧ 20 < 25 ∧ 25 < 30 ∧ 30 < 2 ^ 64) ∧
    (two_subtitles.GetSubtitles 25
      = ([], { two_subtitles with m_lastReturnedSubtitle := ⟨20 + 1, 30 - 1, []⟩ }) ∧
    ∀ t' : Nat, (two_subtitles.GetSubtitles 25).2.HasSubtitleChanged t' = false
      ↔ 20 + 1 ≤ t' ∧ t' ≤ 30 - 1) :=
  ⟨⟨rfl, by decide, by decide, by decide, by decide, by decide⟩,
   blank_span_between two_subtitles [] [] ⟨10, 20, ["first"]⟩ ⟨30, 40, ["second"]⟩ 25
     rfl (by decide) (by decide) (by decide) (by decide) (by decide)⟩

end Captions

namespace Pink

/-- The first call on a freshly initialized generator. -/
theorem initialized_first_call (h : pink_h) (s : Nat) (pink : pink_noise_t) (R : Nat)
    (hR : R ≤ 30) (hcap : R ≤ pink.pink_rows.length) :
    ∃ r, generate_pink_noise_sample h s (initialize_pink_noise h pink R) = some r ∧
      (R = 0 → r.row = none ∧ r.new_random = (new_random_draw h s).2 ∧
        r.rand_seed = (new_random_draw h s).1) ∧
      (1 ≤ R → r.row = some 0 ∧ r.pink.pink_rows[0]? = some (new_random_draw h s).2 ∧
        r.new_random = (new_random_draw h (new_random_draw h s).1).2 ∧
        r.rand_seed = (new_random_draw h (new_random_draw h s).1).1) := by
  have hlen := initialize_length h pink R
  obtain ⟨r, hr, -, hshape⟩ := generate_reached h s (initialize_pink_noise h pink R)
    (initialize_pink_noise h pink R) R 0 hR (by rw [hlen]; exact hcap)
    ( reached_initialize h pink R hR)
  refine ⟨r, hr, ?_, ?_⟩
  · intro hR0
    subst hR0
    rcases hshape with ⟨-, hrow, -, hseed, hnew⟩ | ⟨c, q, old, hcq, hc, -⟩
    · exact ⟨hrow, hnew, hseed⟩
    · omega
  · intro hR1
    have hone : (0 + 1) % 2 ^ R = 1 := by
      have : 2 ≤ 2 ^ R := by
        calc 2 = 2 ^ 1 := by norm_num
          _ ≤ 2 ^ R := Nat.pow_le_pow_right (by norm_num) hR1
      exact Nat.mod_eq_of_lt (by omega)
    rcases hshape with ⟨h0, -⟩ | ⟨c, q, old, hcq, hc, hrow, hold, hpink, hseed, hnew⟩
    · omega
    · rw [hone] at hcq
      have hc0 : c = 0 := by
        by_contra hne
        have h2 : 2 ∣ 2 ^ c * (2 * q + 1) :=
          Dvd.dvd.mul_right (dvd_pow_self 2 hne) _
        omega
      subst hc0
      refine ⟨hrow, ?_, hnew, hseed⟩
      rw [hpink]
      simp only
      have hlt : 0 < (initialize_pink_noise h pink R).pink_rows.length := by omega
      rw [List.getElem?_set_self hlt]

/-- C25: `initialize_pink_noise` leaves the static `rand_seed` as it is.  After
an initialization with `R` rows and `n` calls the static holds some value
`s`; a second initialization, with `R2` rows, keeps `s`, the samples that
follow are those of a fresh generator of `R2` rows run from the seed `s`, and
the first of them draws from `s`: its draws are the LCG successors of `s`. -/
theorem initialize_keeps_seed (h : pink_h) (rand_seed : Nat) (pink : pink_noise_t)
    (R n R2 N : Nat) (hR : R ≤ 30) (hcap : R ≤ pink.pink_rows.length)
    (hR2 : R2 ≤ 30) (hcap2 : R2 ≤ pink.pink_rows.length) :
    (∀ (s : Nat) (p : pink_noise_t) (num_rows : Nat),
      (initialize_with_seed h s p num_rows).1 = s ∧
      (initialize_with_seed h s p num_rows).2 = initialize_pink_noise h p num_rows) ∧
    ∃ s p, after_calls h rand_seed (initialize_pink_noise h pink R) n = some (s, p) ∧
      reinitialize_after h rand_seed pink R n R2 = some (s, initialize_pink_noise h p R2) ∧
      sample_sequence h s (initialize_pink_noise h p R2) N
        = sample_sequence h s (initialize_pink_noise h pink R2) N ∧
      (∀ x ∈ sample_sequence h s (initialize_pink_noise h p R2) N, x ≠ none) ∧
      ∃ r, generate_pink_noise_sample h s (initialize_pink_noise h p R2) = some r ∧
        (R2 = 0 → r.row = none ∧ r.new_random = (new_random_draw h s).2 ∧
          r.rand_seed = (generate_random_number h s).1) ∧
        (1 ≤ R2 → r.row = some 0 ∧ r.pink.pink_rows[0]? = some (new_random_draw h s).2 ∧
          r.new_random = (new_random_draw h (generate_random_number h s).1).2 ∧
          r.rand_seed
            = (generate_random_number h (generate_random_number h s).1).1) := by
  obtain ⟨s, p, hs, hinv⟩ := after_calls_reached h rand_seed pink R hR hcap n
  have hlen : p.pink_rows.length = pink.pink_rows.length := by
    rw [hinv.length, initialize_length]
  have hcapp : R2 ≤ p.pink_rows.length := by rw [hlen]; exact hcap2
  refine ⟨fun _ _ _ => ⟨rfl, rfl⟩, s, p, hs, ?_, ?_, ?_, ?_⟩
  · unfold reinitialize_after initialize_with_seed
    simp only [hs]
  · unfold sample_sequence
    apply List.map_congr_left
    intro k _
    obtain ⟨r1, r2, h1, h2, hout⟩ :=
      kth_call_same_generator h s p pink R2 hR2 hcapp hcap2 k
    rw [h1, h2, Option.map_some', Option.map_some', hout]
  · intro x hx
    unfold sample_sequence at hx
    obtain ⟨k, -, rfl⟩ := List.mem_map.mp hx
    obtain ⟨r1, r2, h1, -, -⟩ :=
      kth_call_same_generator h s p pink R2 hR2 hcapp hcap2 k
    rw [h1]
    exact Option.noConfusion
  · exact initialized_first_call h s p R2 hR2 hcapp

/-- C25 on a platform whose `long` has 32 bits: four rows from the seed 22222,
three calls, and a second initialization with four rows. -/
theorem initialize_keeps_seed_witness :
    (4 ≤ 30 ∧ 4 ≤ pink_stale.pink_rows.length ∧ 4 ≤ 30 ∧ 4 ≤ pink_stale.pink_rows.length) ∧
    ((∀ (s : Nat) (p : pink_noise_t) (num_rows : Nat),
      (initialize_with_seed pink_h_long32 s p num_rows).1 = s ∧
      (initialize_with_seed pink_h_long32 s p num_rows).2
        = initialize_pink_noise pink_h_long32 p num_rows) ∧
    ∃ s p, after_calls pink_h_long32 22222 (initialize_pink_noise pink_h_long32 pink_stale 4) 3
        = some (s, p) ∧
      reinitialize_after pink_h_long32 22222 pink_stale 4 3 4
        = some (s, initialize_pink_noise pink_h_long32 p 4) ∧
      sample_sequence pink_h_long32 s (initialize_pink_noise pink_h_long32 p 4) 8
        = sample_sequence pink_h_long32 s (initialize_pink_noise pink_h_long32 pink_stale 4) 8 ∧
      (∀ x ∈ sample_sequence pink_h_long32 s (initialize_pink_noise pink_h_long32 p 4) 8,
        x ≠ none) ∧
      ∃ r, generate_pink_noise_sample pink_h_long32 s (initialize_pink_noise pink_h_long32 p 4)
          = some r ∧
        (4 = 0 → r.row = none ∧ r.new_random = (new_random_draw pink_h_long32 s).2 ∧
          r.rand_seed = (generate_random_number pink_h_long32 s).1) ∧
        (1 ≤ 4 → r.row = some 0 ∧
          r.pink.pink_rows[0]? = some (new_random_draw pink_h_long32 s).2 ∧
          r.new_random = (new_random_draw pink_h_long32
            (generate_random_number pink_h_long32 s).1).2 ∧
          r.rand_seed = (generate_random_number pink_h_long32
            (generate_random_number pink_h_long32 s).1).1)) :=
  ⟨⟨by decide, by decide, by decide, by decide⟩,
   initialize_keeps_seed pink_h_long32 22222 pink_stale 4 3 4 8 (by decide) (by decide)
     (by decide) (by decide)⟩

/-- The run of the example above in numbers: after three calls from the seed
22222 the static holds 3960698500 and the second initialization keeps it; the
call that follows ends with the seed 3763679990, where the first call of a run
that starts from 22222 ends with 2593574640. -/
theorem reinitialize_continues_sequence :
    (reinitialize_after pink_h_long32 22222 pink_stale 4 3 4).map (fun sp => sp.1)
      = some 3960698500 ∧
    ((reinitialize_after pink_h_long32 22222 pink_stale 4 3 4).bind
      (fun sp => (generate_pink_noise_sample pink_h_long32 sp.1 sp.2).map
        (fun r => r.rand_seed))) = some 3763679990 ∧
    (generate_pink_noise_sample pink_h_long32 22222
      (initialize_pink_noise pink_h_long32 pink_stale 4)).map (fun r => r.rand_seed)
      = some 2593574640 := by
  decide

end Pink
